import Mathlib

/-!
# graphalgo: dynamic-programming TSP solver

A shallow embedding of `graph.go`, `tsp/bitset.go` and `tsp/dp.go`.

* Go maps are association lists with pairwise distinct keys; the order of the
  list is the order in which a `range` over the map visits its entries.
* Go's weight type `W` is a fixed-width integer type whose addition wraps around.
  The functions with the suffix `W` (`tspDPW`, `tspDPPathW`,
  `DynamicProgrammingTSPSolverW`) take the reduction `wrap` of an integer to the weight
  type (`wrapInt64` for `int64`) and reduce both additions of `dp.go` by it.  The
  functions without the suffix compute on exact integers: they are the functions with
  the suffix for a reduction that changes nothing (`solverW_id`), and agree with them
  on every weight type in which no sum of the run overflows (`solverW_eq`).
  Floating-point weights are not modelled.
* `Bitset` is a `uint32`, kept as a natural number with explicit reduction
  modulo `2 ^ 32`; a Go `int` is an `Int`, taken to be 64 bits wide, so that the
  conversion of a `uint32` to `int` is exact.
* A Go panic and a Go `error` are separate outcomes.  The recursion of `tspDP`
  and `tspDPPath` is driven by a fuel argument that bounds the call depth.
* The memo table is threaded through `tspDP` as explicit state, together with
  the list of vertex indices for which incoming edges have been requested.
* `cost` is the recurrence of section 4.3 of the specification, on sets of indices and
  without a memo table; `tspDP` is compared with it.
-/

namespace Graphalgo

/-! ## graph.go -/

/-- A half edge: the other endpoint and the weight, an integer in the range of Go's
weight type `W`. -/
structure HalfEdge (V : Type) where
  Vertex : V
  Weight : Int
deriving DecidableEq, Repr

/-- Read `m[k]` of a Go map; `none` when the key is absent. -/
def mapGet {V β : Type} [DecidableEq V] : List (V × β) → V → Option β
  | [], _ => none
  | (k', x) :: rest, k => if k' = k then some x else mapGet rest k

/-- The assignment `m[k] = x` of a Go map. -/
def mapSet {V β : Type} [DecidableEq V] : List (V × β) → V → β → List (V × β)
  | [], k, x => [(k, x)]
  | (k', x') :: rest, k, x =>
    if k' = k then (k, x) :: rest else (k', x') :: mapSet rest k x

/-- The type `AdjListGraph[V, W]`, a map from a vertex to its half edges. -/
abbrev AdjListGraph (V : Type) := List (V × List (HalfEdge V))

/-- The type `ReverseAdjListGraph[V, W]`. -/
abbrev ReverseAdjListGraph (V : Type) := AdjListGraph V

/-- The inner loop of `NewAdjListGraphFromReverseAdjListGraph`. -/
def appendFlipped {V : Type} [DecidableEq V] (v : V) :
    List (HalfEdge V) → AdjListGraph V → AdjListGraph V
  | [], res => res
  | e :: rest, res =>
    appendFlipped v rest
      (mapSet res e.Vertex (((mapGet res e.Vertex).getD []) ++ [⟨v, e.Weight⟩]))

/-- The outer loop of `NewAdjListGraphFromReverseAdjListGraph`. -/
def flipEntries {V : Type} [DecidableEq V] :
    List (V × List (HalfEdge V)) → AdjListGraph V → AdjListGraph V
  | [], res => res
  | (v, edges) :: rest, res =>
    let res1 := if edges.length = 0 then mapSet res v [] else res
    flipEntries rest (appendFlipped v edges res1)

/-- The function `NewAdjListGraphFromReverseAdjListGraph`. -/
def NewAdjListGraphFromReverseAdjListGraph {V : Type} [DecidableEq V]
    (g : ReverseAdjListGraph V) : AdjListGraph V :=
  flipEntries g []

/-- The method `AdjListGraph.GetVertices`. -/
def AdjListGraph.GetVertices {V : Type} (g : AdjListGraph V) : List V :=
  g.map Prod.fst

/-- The method `AdjListGraph.GetOutgoingEdges`. -/
def AdjListGraph.GetOutgoingEdges {V : Type} [DecidableEq V] (g : AdjListGraph V)
    (v : V) : List (HalfEdge V) :=
  match mapGet g v with
  | none => []
  | some outgoingEdges => outgoingEdges

/-- The function `NewReverseAdjListGraphFromAdjListGraph`. -/
def NewReverseAdjListGraphFromAdjListGraph {V : Type} [DecidableEq V]
    (g : AdjListGraph V) : ReverseAdjListGraph V :=
  NewAdjListGraphFromReverseAdjListGraph g

/-- The method `ReverseAdjListGraph.GetVertices`. -/
def ReverseAdjListGraph.GetVertices {V : Type} (g : ReverseAdjListGraph V) : List V :=
  AdjListGraph.GetVertices g

/-- The method `ReverseAdjListGraph.GetIncomingEdges`. -/
def ReverseAdjListGraph.GetIncomingEdges {V : Type} [DecidableEq V]
    (g : ReverseAdjListGraph V) (v : V) : List (HalfEdge V) :=
  AdjListGraph.GetOutgoingEdges g v

/-! ## tsp/bitset.go -/

/-- The type `Bitset`, a `uint32`. -/
abbrev Bitset := Nat

/-- The modulus of `uint32` arithmetic. -/
def word : Nat := 4294967296

/-- The method `Bitset.Set`; `none` is the panic `idx out of range`. -/
def Bitset.Set (b : Bitset) (idx : Int) : Option Bitset :=
  if idx < 0 ∨ idx ≥ 32 then none
  else some ((b % word) ||| ((1 <<< idx.toNat) % word))

/-- The method `Bitset.Unset`; `none` is the panic `idx out of range`. -/
def Bitset.Unset (b : Bitset) (idx : Int) : Option Bitset :=
  if idx < 0 ∨ idx ≥ 32 then none
  else some ((b % word) &&& (word - 1 - (1 <<< idx.toNat) % word))

/-- The method `Bitset.IsSet`; `none` is the panic `idx out of range`. -/
def Bitset.IsSet (b : Bitset) (idx : Int) : Option Bool :=
  if idx < 0 ∨ idx ≥ 32 then none
  else some (decide (((b % word) &&& ((1 <<< idx.toNat) % word)) > 0))

/-- The method `Bitset.IsAnySet`. -/
def Bitset.IsAnySet (b : Bitset) : Bool :=
  decide (b ≠ 0)

/-- The function `NewBitsetAllSet`; `none` is the panic `n out of range`. -/
def NewBitsetAllSet (n : Int) : Option Bitset :=
  if n < 0 ∨ n ≥ 32 then none
  else some (((1 <<< n.toNat) % word + (word - 1)) % word)

/-- The function `CountBitArrangements`; `none` is the panic `n out of range`. -/
def CountBitArrangements (n : Int) : Option Int :=
  if n < 0 ∨ n ≥ 32 then none
  else some (((1 <<< n.toNat) % word : Nat) : Int)

/-! ## tsp/dp.go -/

/-- The constant `MaxInputVertices`. -/
def MaxInputVertices : Nat := 31

/-- The interface `DynamicProgrammingTSPSolverGraph`. -/
structure DynamicProgrammingTSPSolverGraph (V : Type) where
  GetVertices : List V
  GetIncomingEdges : V → List (HalfEdge V)

/-- A `ReverseAdjListGraph` seen through the solver interface. -/
def ReverseAdjListGraph.toSolverGraph {V : Type} [DecidableEq V]
    (g : ReverseAdjListGraph V) : DynamicProgrammingTSPSolverGraph V :=
  ⟨ReverseAdjListGraph.GetVertices g, ReverseAdjListGraph.GetIncomingEdges g⟩

/-- The `error` values the solver produces. -/
inductive SolverError (V : Type) where
  | ErrNoSolution
  | tooManyVertices
  | nonUniqueVertices
  | unknownStartVertex (startVertex : V)
  | unknownEdgeVertex (vertex : V) (toVertex : V)
deriving DecidableEq, Repr

/-- The panics of the package and of the Go runtime. -/
inductive Panic where
  | baseCaseNotStart
  | invalidBacktrack
  | bitsetIdxOutOfRange
  | bitsetNOutOfRange
  | indexOutOfRange
deriving DecidableEq, Repr

/-- What a call does: return a value, return an error, panic, or exceed the fuel. -/
inductive Res (V : Type) (α : Type) where
  | ok (a : α)
  | err (e : SolverError V)
  | panic (p : Panic)
  | outOfFuel
deriving DecidableEq, Repr

/-- The struct `incomingEdge`; the weight is an integer in the range of Go's weight type
`W`. -/
structure incomingEdge where
  FromIdx : Nat
  Weight : Int
deriving DecidableEq, Repr

/-- The memo table `[][]*W`: a nil row is `none`, a nil cell is `none`. -/
abbrev Memo := List (Option (List (Option Int)))

/-- The memo table and the log of the indices passed to `getIncomingEdges`. -/
structure DPState where
  memo : Memo
  queries : List Nat
deriving DecidableEq, Repr

/-- The loop that fills `vertexIdxMap`. -/
def buildVertexIdxMap {V : Type} [DecidableEq V] :
    List V → Nat → List (V × Nat) → List (V × Nat)
  | [], _, m => m
  | v :: rest, i, m => buildVertexIdxMap rest (i + 1) (mapSet m v i)

/-- The loop of the closure `getIncomingEdges`. -/
def convertEdges {V : Type} [DecidableEq V] (vertexIdxMap : List (V × Nat)) (toVertex : V) :
    List (HalfEdge V) → Res V (List incomingEdge)
  | [] => .ok []
  | e :: rest =>
    match mapGet vertexIdxMap e.Vertex with
    | none => .err (.unknownEdgeVertex e.Vertex toVertex)
    | some fromIdx =>
      match convertEdges vertexIdxMap toVertex rest with
      | .ok l => .ok (⟨fromIdx, e.Weight⟩ :: l)
      | other => other

/-- The closure `getIncomingEdges` of `DynamicProgrammingTSPSolver`. -/
def getIncomingEdges {V : Type} [DecidableEq V] (graph : DynamicProgrammingTSPSolverGraph V)
    (vertices : List V) (vertexIdxMap : List (V × Nat)) (toIdx : Nat) :
    Res V (List incomingEdge) :=
  match vertices[toIdx]? with
  | none => .panic .indexOutOfRange
  | some toVertex => convertEdges vertexIdxMap toVertex (graph.GetIncomingEdges toVertex)

/-- The test `memo[visited] != nil && memo[visited][lastVertexIdx] != nil` with the
cell it finds; the outer `none` is an index out of range. -/
def memoLookup (memo : Memo) (visited : Bitset) (lastVertexIdx : Nat) :
    Option (Option Int) :=
  match memo[visited]? with
  | none => none
  | some none => some none
  | some (some row) =>
    match row[lastVertexIdx]? with
    | none => none
    | some cell => some cell

/-- The two statements that save a result in the memo table; `none` is an index out
of range. -/
def memoStore (memo : Memo) (vertexCount : Nat) (visited : Bitset) (lastVertexIdx : Nat)
    (result : Int) : Option Memo :=
  match memo[visited]? with
  | none => none
  | some rowOpt =>
    let row := match rowOpt with
      | none => List.replicate vertexCount none
      | some row => row
    if lastVertexIdx < row.length then
      some (memo.set visited (some (row.set lastVertexIdx (some result))))
    else none

/-- The update `if result == nil || weight < *result`. -/
def minUpdate (result : Option Int) (weight : Int) : Option Int :=
  match result with
  | none => some weight
  | some r => if weight < r then some weight else some r

/-- The `for` loop of `tspDP` on exact integers, the sum `weight + e.Weight` not reduced
to the weight type (`tspDPLoopW` reduces it); `call` is the recursive call. -/
def tspDPLoop {V : Type} (call : DPState → Bitset → Nat → Res V Int × DPState)
    (startVertexIdx : Nat) (visited : Bitset) (lastVertexIdx : Nat) :
    List incomingEdge → Option Int → DPState → Res V (Option Int) × DPState
  | [], result, st => (.ok result, st)
  | e :: rest, result, st =>
    match Bitset.Unset visited lastVertexIdx with
    | none => (.panic .bitsetIdxOutOfRange, st)
    | some visitedWithoutLastVertex =>
      match Bitset.IsSet visited e.FromIdx with
      | none => (.panic .bitsetIdxOutOfRange, st)
      | some isSet =>
        if isSet || (!Bitset.IsAnySet visitedWithoutLastVertex
            && decide (e.FromIdx = startVertexIdx)) then
          match call st visitedWithoutLastVertex e.FromIdx with
          | (.ok weight, st1) =>
            tspDPLoop call startVertexIdx visited lastVertexIdx rest
              (minUpdate result (weight + e.Weight)) st1
          | (.err .ErrNoSolution, st1) =>
            tspDPLoop call startVertexIdx visited lastVertexIdx rest result st1
          | (.err other, st1) => (.err other, st1)
          | (.panic p, st1) => (.panic p, st1)
          | (.outOfFuel, st1) => (.outOfFuel, st1)
        else tspDPLoop call startVertexIdx visited lastVertexIdx rest result st

/-- The function `tspDP` on exact integers (`tspDPW` is `tspDP` on a weight type). -/
def tspDP {V : Type} (vertexCount : Nat) (getIncomingEdges : Nat → Res V (List incomingEdge))
    (startVertexIdx : Nat) : Nat → DPState → Bitset → Nat → Res V Int × DPState
  | 0, st, _, _ => (.outOfFuel, st)
  | fuel + 1, st, visited, lastVertexIdx =>
    if !Bitset.IsAnySet visited then
      if lastVertexIdx ≠ startVertexIdx then (.panic .baseCaseNotStart, st)
      else (.ok 0, st)
    else
      match memoLookup st.memo visited lastVertexIdx with
      | none => (.panic .indexOutOfRange, st)
      | some (some w) => (.ok w, st)
      | some none =>
        let st0 : DPState := ⟨st.memo, st.queries ++ [lastVertexIdx]⟩
        match getIncomingEdges lastVertexIdx with
        | .err e => (.err e, st0)
        | .panic p => (.panic p, st0)
        | .outOfFuel => (.outOfFuel, st0)
        | .ok incomingEdges =>
          match tspDPLoop (tspDP vertexCount getIncomingEdges startVertexIdx fuel)
              startVertexIdx visited lastVertexIdx incomingEdges none st0 with
          | (.err e, st1) => (.err e, st1)
          | (.panic p, st1) => (.panic p, st1)
          | (.outOfFuel, st1) => (.outOfFuel, st1)
          | (.ok none, st1) => (.err .ErrNoSolution, st1)
          | (.ok (some result), st1) =>
            match memoStore st1.memo vertexCount visited lastVertexIdx result with
            | none => (.panic .indexOutOfRange, st1)
            | some memo => (.ok result, ⟨memo, st1.queries⟩)

/-- The value `prevWeight` of `tspDPPath`; the outer `none` is an index out of range. -/
def prevWeightOf (memo : Memo) (visitedWithoutLastVertex : Bitset) (fromIdx : Nat) :
    Option (Option Int) :=
  match memo[visitedWithoutLastVertex]? with
  | none => none
  | some (some row) =>
    match row[fromIdx]? with
    | none => none
    | some cell => some cell
  | some none =>
    if !Bitset.IsAnySet visitedWithoutLastVertex then some (some 0) else some none

/-- The `for` loop of `tspDPPath` on exact integers (`tspDPPathLoopW` reduces the sum to
the weight type), returning `prevVisited`, `prevLastVertexIdx` and
`minWeight`. -/
def tspDPPathLoop {V : Type} (memo : Memo) (startVertexIdx : Nat) (visited : Bitset)
    (lastVertexIdx : Nat) :
    List incomingEdge → Bitset → Nat → Option Int → Res V (Bitset × Nat × Option Int)
  | [], prevVisited, prevLastVertexIdx, minWeight =>
    .ok (prevVisited, prevLastVertexIdx, minWeight)
  | e :: rest, prevVisited, prevLastVertexIdx, minWeight =>
    match Bitset.Unset visited lastVertexIdx with
    | none => .panic .bitsetIdxOutOfRange
    | some visitedWithoutLastVertex =>
      match Bitset.IsSet visited e.FromIdx with
      | none => .panic .bitsetIdxOutOfRange
      | some isSet =>
        if isSet || (!Bitset.IsAnySet visitedWithoutLastVertex
            && decide (e.FromIdx = startVertexIdx)) then
          match prevWeightOf memo visitedWithoutLastVertex e.FromIdx with
          | none => .panic .indexOutOfRange
          | some none => .panic .invalidBacktrack
          | some (some prevWeight) =>
            let weight := prevWeight + e.Weight
            match minWeight with
            | none =>
              tspDPPathLoop memo startVertexIdx visited lastVertexIdx rest
                visitedWithoutLastVertex e.FromIdx (some weight)
            | some m =>
              if weight < m then
                tspDPPathLoop memo startVertexIdx visited lastVertexIdx rest
                  visitedWithoutLastVertex e.FromIdx (some weight)
              else
                tspDPPathLoop memo startVertexIdx visited lastVertexIdx rest
                  prevVisited prevLastVertexIdx minWeight
        else
          tspDPPathLoop memo startVertexIdx visited lastVertexIdx rest
            prevVisited prevLastVertexIdx minWeight

/-- The function `tspDPPath` on exact integers (`tspDPPathW` is `tspDPPath` on a weight
type); the list threaded through is the query log. -/
def tspDPPath {V : Type} (memo : Memo) (getIncomingEdges : Nat → Res V (List incomingEdge))
    (startVertexIdx : Nat) : Nat → List Nat → Bitset → Nat → Res V (List Nat) × List Nat
  | 0, queries, _, _ => (.outOfFuel, queries)
  | fuel + 1, queries, visited, lastVertexIdx =>
    if !Bitset.IsAnySet visited then
      if lastVertexIdx ≠ startVertexIdx then (.panic .baseCaseNotStart, queries)
      else (.ok [startVertexIdx], queries)
    else
      let queries0 := queries ++ [lastVertexIdx]
      match getIncomingEdges lastVertexIdx with
      | .err e => (.err e, queries0)
      | .panic p => (.panic p, queries0)
      | .outOfFuel => (.outOfFuel, queries0)
      | .ok incomingEdges =>
        match tspDPPathLoop (V := V) memo startVertexIdx visited lastVertexIdx
            incomingEdges 0 0 none with
        | .err e => (.err e, queries0)
        | .panic p => (.panic p, queries0)
        | .outOfFuel => (.outOfFuel, queries0)
        | .ok (prevVisited, prevLastVertexIdx, _) =>
          match tspDPPath memo getIncomingEdges startVertexIdx fuel queries0
              prevVisited prevLastVertexIdx with
          | (.ok path, queries1) => (.ok (path ++ [lastVertexIdx]), queries1)
          | other => other

/-- The three values `DynamicProgrammingTSPSolver` returns. -/
structure SolverReturn (V : Type) where
  solutionWeight : Int
  solutionVertices : List V
  err : Option (SolverError V)
deriving DecidableEq, Repr

/-- What a call of the solver does. -/
inductive Outcome (V : Type) where
  | returned (r : SolverReturn V)
  | panicked (p : Panic)
  | outOfFuel
deriving DecidableEq, Repr

/-- The outcome of a call of the solver and the vertices whose incoming edges the
call requested from the graph, in order. -/
structure SolverRun (V : Type) where
  outcome : Outcome V
  queries : List V
deriving DecidableEq, Repr

/-- The final loop of the solver, `vertices[vertexIdx]` for each index of the path. -/
def collectVertices {V : Type} (vertices : List V) : List Nat → Option (List V)
  | [] => some []
  | i :: rest =>
    match vertices[i]? with
    | none => none
    | some v =>
      match collectVertices vertices rest with
      | none => none
      | some l => some (v :: l)

/-- The vertices behind a log of indices. -/
def queriedVertices {V : Type} (vertices : List V) (queries : List Nat) : List V :=
  queries.filterMap (fun i => vertices[i]?)

/-- The call depth allowed to `tspDP` and `tspDPPath` on `n` vertices. -/
def solverFuel (n : Nat) : Nat := 2 * n + 2

/-- The second half of the solver, from the call of `tspDPPath` on. -/
def solverBacktrack {V : Type} (vertices : List V)
    (incoming : Nat → Res V (List incomingEdge)) (startVertexIdx : Nat) (full : Bitset)
    (solutionWeight : Int) (st : DPState) : SolverRun V :=
  match tspDPPath st.memo incoming startVertexIdx (solverFuel vertices.length)
      st.queries full startVertexIdx with
  | (.panic p, queries) => ⟨.panicked p, queriedVertices vertices queries⟩
  | (.outOfFuel, queries) => ⟨.outOfFuel, queriedVertices vertices queries⟩
  | (.err e, queries) => ⟨.returned ⟨0, [], some e⟩, queriedVertices vertices queries⟩
  | (.ok solutionVertexIdx, queries) =>
    match collectVertices vertices solutionVertexIdx with
    | none => ⟨.panicked .indexOutOfRange, queriedVertices vertices queries⟩
    | some solutionVertices =>
      ⟨.returned ⟨solutionWeight, solutionVertices, none⟩,
        queriedVertices vertices queries⟩

/-- The solver from the call of `tspDP` on: the forward pass and, unless it failed with
an error other than `ErrNoSolution`, the backtracking pass. -/
def solverSearch {V : Type} (vertices : List V)
    (incoming : Nat → Res V (List incomingEdge)) (startVertexIdx : Nat) (memo : Memo)
    (full : Bitset) : SolverRun V :=
  match tspDP vertices.length incoming startVertexIdx
      (solverFuel vertices.length) ⟨memo, []⟩ full startVertexIdx with
  | (.panic p, st) => ⟨.panicked p, queriedVertices vertices st.queries⟩
  | (.outOfFuel, st) => ⟨.outOfFuel, queriedVertices vertices st.queries⟩
  | (.err .ErrNoSolution, st) =>
    solverBacktrack vertices incoming startVertexIdx full 0 st
  | (.err e, st) =>
    ⟨.returned ⟨0, [], some e⟩, queriedVertices vertices st.queries⟩
  | (.ok solutionWeight, st) =>
    solverBacktrack vertices incoming startVertexIdx full solutionWeight st

/-- The solver on a graph with at least two and at most `MaxInputVertices` vertices:
the index map, the start index, the memo table and the two passes. -/
def solverMain {V : Type} [DecidableEq V] (graph : DynamicProgrammingTSPSolverGraph V)
    (vertices : List V) (startVertex : V) : SolverRun V :=
  let vertexIdxMap := buildVertexIdxMap vertices 0 []
  if vertexIdxMap.length ≠ vertices.length then
    ⟨.returned ⟨0, [], some .nonUniqueVertices⟩, []⟩
  else
    match mapGet vertexIdxMap startVertex with
    | none => ⟨.returned ⟨0, [], some (.unknownStartVertex startVertex)⟩, []⟩
    | some startVertexIdx =>
      match CountBitArrangements vertices.length with
      | none => ⟨.panicked .bitsetNOutOfRange, []⟩
      | some count =>
        match NewBitsetAllSet vertices.length with
        | none => ⟨.panicked .bitsetNOutOfRange, []⟩
        | some full =>
          solverSearch vertices (getIncomingEdges graph vertices vertexIdxMap)
            startVertexIdx (List.replicate count.toNat none) full

/-- The function `DynamicProgrammingTSPSolver` on exact integers
(`DynamicProgrammingTSPSolverW` is the function on a weight type); `none` is the nil
graph. -/
def DynamicProgrammingTSPSolver {V : Type} [DecidableEq V]
    (graph : Option (DynamicProgrammingTSPSolverGraph V)) (startVertex : V) : SolverRun V :=
  match graph with
  | none => ⟨.returned ⟨0, [], none⟩, []⟩
  | some graph =>
    let vertices := graph.GetVertices
    if vertices.length ≤ 0 then ⟨.returned ⟨0, [], none⟩, []⟩
    else if h : vertices.length = 1 then
      ⟨.returned ⟨0, [vertices.get ⟨0, by omega⟩], none⟩, []⟩
    else if vertices.length > MaxInputVertices then
      ⟨.returned ⟨0, [], some .tooManyVertices⟩, []⟩
    else solverMain graph vertices startVertex

/-! ## Hamiltonian cycles and tour weights -/

/-- The weights of the edges of the graph that lead from `a` to `b`. -/
def edgeWeights {V : Type} [DecidableEq V] (g : DynamicProgrammingTSPSolverGraph V)
    (a b : V) : List Int :=
  (g.GetIncomingEdges b).filterMap (fun e => if e.Vertex = a then some e.Weight else none)

/-- The weight of the cheapest edge from `a` to `b`; `none` when there is no edge. -/
def cheapestEdge {V : Type} [DecidableEq V] (g : DynamicProgrammingTSPSolverGraph V)
    (a b : V) : Option Int :=
  (edgeWeights g a b).min?

/-- The consecutive pairs of a sequence. -/
def consecutivePairs {α : Type} (seq : List α) : List (α × α) :=
  seq.zip seq.tail

/-- The sum of the cheapest edge weights over a list of pairs; `none` when some pair
has no edge. -/
def pairsWeight {V : Type} [DecidableEq V] (g : DynamicProgrammingTSPSolverGraph V) :
    List (V × V) → Option Int
  | [] => some 0
  | p :: rest =>
    match cheapestEdge g p.1 p.2, pairsWeight g rest with
    | some w, some t => some (w + t)
    | _, _ => none

/-- The total weight of a vertex sequence, each step taking the cheapest edge. -/
def tourWeight {V : Type} [DecidableEq V] (g : DynamicProgrammingTSPSolverGraph V)
    (seq : List V) : Option Int :=
  pairsWeight g (consecutivePairs seq)

/-- The sequence `cyc` is a Hamiltonian cycle through `start`: it starts and ends at
`start`, after the first element it lists every vertex exactly once, and each
consecutive pair is joined by an edge. -/
def IsHamiltonianCycle {V : Type} [DecidableEq V] (g : DynamicProgrammingTSPSolverGraph V)
    (start : V) (cyc : List V) : Prop :=
  cyc.head? = some start ∧ cyc.getLast? = some start ∧ cyc.tail.Perm g.GetVertices ∧
    ∀ p ∈ consecutivePairs cyc, edgeWeights g p.1 p.2 ≠ []

/-- The weight `w` is the minimum total weight over the Hamiltonian cycles through
`start`. -/
def IsMinHamiltonianWeight {V : Type} [DecidableEq V]
    (g : DynamicProgrammingTSPSolverGraph V) (start : V) (w : Int) : Prop :=
  (∃ cyc, IsHamiltonianCycle g start cyc ∧ tourWeight g cyc = some w) ∧
    ∀ cyc w', IsHamiltonianCycle g start cyc → tourWeight g cyc = some w' → w ≤ w'

/-! ## Concrete inputs -/

/-- The graph `SimpleSymmetricGraph` of `dp_test.go`. -/
def SimpleSymmetricGraph : AdjListGraph String :=
  [("A", [⟨"B", 20⟩, ⟨"C", 42⟩, ⟨"D", 35⟩]),
   ("B", [⟨"A", 20⟩, ⟨"C", 30⟩, ⟨"D", 34⟩]),
   ("C", [⟨"A", 42⟩, ⟨"B", 30⟩, ⟨"D", 12⟩]),
   ("D", [⟨"A", 35⟩, ⟨"B", 34⟩, ⟨"C", 12⟩])]

/-- A solver graph given by its vertex list and its edges `(from, to, weight)`. -/
def graphOfEdges (vertices : List String) (edges : List (String × String × Int)) :
    DynamicProgrammingTSPSolverGraph String :=
  ⟨vertices, fun v => edges.filterMap (fun e => if e.2.1 = v then some ⟨e.1, e.2.2⟩ else none)⟩

/-- The cycle `A -> B -> C -> A` with the extra edge `B -> A`. -/
def deadBranchGraph : DynamicProgrammingTSPSolverGraph String :=
  graphOfEdges ["A", "B", "C"] [("A", "B", 1), ("B", "C", 1), ("C", "A", 1), ("B", "A", 1)]

/-- Two vertices and no edge. -/
def edgelessGraph : DynamicProgrammingTSPSolverGraph String :=
  graphOfEdges ["A", "B"] []

/-- Two vertices, the edge `A -> B` and no edge back. -/
def oneWayGraph : DynamicProgrammingTSPSolverGraph String :=
  graphOfEdges ["A", "B"] [("A", "B", 1)]

/-- A graph on the numbers below `n` without edges. -/
def rangeGraph (n : Nat) : DynamicProgrammingTSPSolverGraph Nat :=
  ⟨List.range n, fun _ => []⟩

/-- A graph whose vertex list repeats a vertex. -/
def duplicateGraph : DynamicProgrammingTSPSolverGraph String :=
  graphOfEdges ["A", "B", "A"] [("A", "B", 1), ("B", "A", 1)]

/-- The two-vertex cycle `A -> B -> A` with a loop of weight `-5` at `A`. -/
def selfLoopGraph : DynamicProgrammingTSPSolverGraph String :=
  graphOfEdges ["A", "B"] [("A", "B", 1), ("B", "A", 1), ("A", "A", -5)]

/-! ## The recursion of `tspDP`, stated as a relation -/

/-- The number of bits set in a bitset. -/
def bitCount (S : Bitset) : Nat :=
  ((Finset.range 32).filter (fun i => S.testBit i = true)).card

/-- The eligibility test of the loops of `tspDP` and `tspDPPath`: from the state
`(visited, lastVertexIdx)` the edge from `fromIdx` passes the test, and
`visitedWithoutLastVertex` is the set handed to the recursive call. -/
def Eligible (startVertexIdx : Nat) (visited : Bitset) (lastVertexIdx : Nat) (fromIdx : Nat)
    (visitedWithoutLastVertex : Bitset) : Prop :=
  Bitset.Unset visited lastVertexIdx = some visitedWithoutLastVertex ∧
    ∃ isSet, Bitset.IsSet visited fromIdx = some isSet ∧
      (isSet || (!Bitset.IsAnySet visitedWithoutLastVertex
        && decide (fromIdx = startVertexIdx))) = true

/-- The chains of transitions that the recursion of `tspDP` explores from a state
`(visited, lastVertexIdx)` down to the base case, with the vertex indices in the order
`tspDPPath` lists them and the total weight. -/
inductive Chain {V : Type} (inc : Nat → Res V (List incomingEdge)) (start : Nat) :
    Bitset → Nat → List Nat → Int → Prop where
  | base : Chain inc start 0 start [start] 0
  | step {S : Bitset} {v : Nat} {vwl : Bitset} {edges : List incomingEdge} {e : incomingEdge}
      {p : List Nat} {w : Int} :
      S ≠ 0 → inc v = .ok edges → e ∈ edges → Eligible start S v e.FromIdx vwl →
      Chain inc start vwl e.FromIdx p w → Chain inc start S v (p ++ [v]) (w + e.Weight)

/-- The weight `w` is the least weight of a chain from the state `(S, v)`. -/
def Opt {V : Type} (inc : Nat → Res V (List incomingEdge)) (start : Nat) (S : Bitset)
    (v : Nat) (w : Int) : Prop :=
  (∃ p, Chain inc start S v p w) ∧ ∀ p' w', Chain inc start S v p' w' → w ≤ w'

/-- A chain each of whose states it leaves by a transition of least weight. -/
inductive OptChain {V : Type} (inc : Nat → Res V (List incomingEdge)) (start : Nat) :
    Bitset → Nat → List Nat → Int → Prop where
  | base : OptChain inc start 0 start [start] 0
  | step {S : Bitset} {v : Nat} {vwl : Bitset} {edges : List incomingEdge} {e : incomingEdge}
      {p : List Nat} {w : Int} :
      S ≠ 0 → inc v = .ok edges → e ∈ edges → Eligible start S v e.FromIdx vwl →
      OptChain inc start vwl e.FromIdx p w → Opt inc start S v (w + e.Weight) →
      OptChain inc start S v (p ++ [v]) (w + e.Weight)

/-- The cell `memo[S][v]`, `none` when the row or the cell is nil or out of range. -/
def memoCell (memo : Memo) (S : Bitset) (v : Nat) : Option Int :=
  match memo[S]? with
  | some (some row) =>
    match row[v]? with
    | some (some w) => some w
    | _ => none
  | _ => none

/-- Every cell of the first table is a cell of the second. -/
def MemoExt (memo memo' : Memo) : Prop :=
  ∀ S v w, memoCell memo S v = some w → memoCell memo' S v = some w

/-- The invariant of the memo table: row 0 is nil; a cell holds the least chain weight
of its state; and behind every cell, each eligible predecessor is the base case, has a
cell of its own, or has no chain. -/
structure MemoInv {V : Type} (inc : Nat → Res V (List incomingEdge)) (start : Nat)
    (memo : Memo) : Prop where
  zeroRow : ∀ row : List (Option Int), memo[0]? ≠ some (some row)
  valid : ∀ S v w, memoCell memo S v = some w → Opt inc start S v w
  closed : ∀ S v w, memoCell memo S v = some w → ∀ edges, inc v = .ok edges →
    ∀ e ∈ edges, ∀ vwl, Eligible start S v e.FromIdx vwl →
      (vwl = 0 ∧ e.FromIdx = start) ∨ (∃ w', memoCell memo vwl e.FromIdx = some w') ∨
        ¬ ∃ p w', Chain inc start vwl e.FromIdx p w'

/-- The table has `2 ^ n` rows and every row that is not nil has `n` cells. -/
def MemoShape (n : Nat) (memo : Memo) : Prop :=
  memo.length = 2 ^ n ∧
    ∀ (S : Nat) (row : List (Option Int)), memo[S]? = some (some row) → row.length = n

/-- What the loop of `tspDP` has established once it has gone through the edges `done`:
the running minimum is attained by a chain through one of them, it is below every chain
through any of them, and each eligible one is the base case, has a memo cell, or has no
chain. -/
structure LoopInv {V : Type} (inc : Nat → Res V (List incomingEdge)) (start : Nat)
    (S : Bitset) (v : Nat) (memo : Memo) (done : List incomingEdge) (result : Option Int) :
    Prop where
  attained : ∀ w, result = some w → ∃ e ∈ done, ∃ vwl p w',
    Eligible start S v e.FromIdx vwl ∧ Chain inc start vwl e.FromIdx p w' ∧ w = w' + e.Weight
  least : ∀ e ∈ done, ∀ vwl p w', Eligible start S v e.FromIdx vwl →
    Chain inc start vwl e.FromIdx p w' → ∃ w, result = some w ∧ w ≤ w' + e.Weight
  closed : ∀ e ∈ done, ∀ vwl, Eligible start S v e.FromIdx vwl →
    (vwl = 0 ∧ e.FromIdx = start) ∨ (∃ w', memoCell memo vwl e.FromIdx = some w') ∨
      ¬ ∃ p w', Chain inc start vwl e.FromIdx p w'

/-- The contract of a call of `tspDP` on a memo table that satisfies the invariant. -/
def CallSound {V : Type} (inc : Nat → Res V (List incomingEdge)) (start : Nat)
    (call : DPState → Bitset → Nat → Res V Int × DPState) : Prop :=
  ∀ st S v r st', MemoInv inc start st.memo → call st S v = (r, st') →
    MemoInv inc start st'.memo ∧ MemoExt st.memo st'.memo ∧
      (∀ w, r = .ok w → Opt inc start S v w ∧
        ((S = 0 ∧ v = start) ∨ memoCell st'.memo S v = some w)) ∧
      (r = .err .ErrNoSolution → ¬ ∃ p w, Chain inc start S v p w)

/-- What the loop of `tspDPPath` has established once it has gone through the edges
`done`: the predecessor it holds comes from an eligible edge and attains `minWeight`;
every eligible edge had a `prevWeight` and is not below `minWeight`; and without a
`minWeight` the predecessor is still the zero state. -/
structure PathLoopInv (start : Nat) (S : Bitset) (v : Nat) (memo : Memo)
    (done : List incomingEdge) (prevVisited : Bitset) (prevLastVertexIdx : Nat)
    (minWeight : Option Int) : Prop where
  chosen : ∀ m, minWeight = some m → ∃ e ∈ done,
    Eligible start S v e.FromIdx prevVisited ∧ prevLastVertexIdx = e.FromIdx ∧
      ∃ pw, prevWeightOf memo prevVisited prevLastVertexIdx = some (some pw) ∧
        m = pw + e.Weight
  least : ∀ e ∈ done, ∀ vwl, Eligible start S v e.FromIdx vwl →
    ∃ pw m, prevWeightOf memo vwl e.FromIdx = some (some pw) ∧ minWeight = some m ∧
      m ≤ pw + e.Weight
  untouched : minWeight = none → prevVisited = 0 ∧ prevLastVertexIdx = 0

/-- The measure that bounds the call depth of `tspDP` and `tspDPPath` from a state. -/
def depthMeasure (S : Bitset) (v : Nat) : Nat :=
  2 * bitCount S + (if S.testBit v = true then 0 else 1)

/-! ## Graphs without self-loops and complete graphs, on indices -/

/-- The states the solver reaches when no edge is a self-loop: the last vertex is in the
set, and the start vertex is in the set only in the initial state. -/
def GoodState (n start : Nat) (S : Bitset) (v : Nat) : Prop :=
  S < 2 ^ n ∧ v < n ∧ S.testBit v = true ∧
    (S.testBit start = true → S = 2 ^ n - 1 ∧ v = start)

/-- Every index below `n` has its incoming edges, all from indices below `n` and none
from itself. -/
def SafeIdx {V : Type} (n : Nat) (inc : Nat → Res V (List incomingEdge)) : Prop :=
  ∀ v, v < n → ∃ edges, inc v = .ok edges ∧ ∀ e ∈ edges, e.FromIdx < n ∧ e.FromIdx ≠ v

/-- As `SafeIdx`, and every index has an edge from every other index. -/
def CompleteIdx {V : Type} (n : Nat) (inc : Nat → Res V (List incomingEdge)) : Prop :=
  ∀ v, v < n → ∃ edges, inc v = .ok edges ∧ (∀ e ∈ edges, e.FromIdx < n ∧ e.FromIdx ≠ v) ∧
    ∀ u, u < n → u ≠ v → ∃ e ∈ edges, e.FromIdx = u

/-- The contract of a call of `tspDP` from a good state or the base case: it keeps the
shape of the memo table and neither panics nor fails with an error other than
`ErrNoSolution`. -/
def CallSafe {V : Type} (n start : Nat)
    (call : DPState → Bitset → Nat → Res V Int × DPState) : Prop :=
  ∀ st S v r st', (GoodState n start S v ∨ (S = 0 ∧ v = start)) → MemoShape n st.memo →
    call st S v = (r, st') →
    MemoShape n st'.memo ∧ (r = .outOfFuel ∨ r = .err .ErrNoSolution ∨ ∃ w, r = .ok w)

/-! ## Walks and complete graphs, on vertices -/

/-- The bitset whose bits are the indices of the list. -/
def bitsOf : List Nat → Bitset
  | [] => 0
  | i :: l => 2 ^ i ||| bitsOf l

/-- A walk from `start` through the indices of the list, in order, ending at the given
index, along incoming edges with the given total weight. -/
inductive WalkTo {V : Type} (inc : Nat → Res V (List incomingEdge)) (start : Nat) :
    List Nat → Nat → Int → Prop where
  | nil : WalkTo inc start [] start 0
  | snoc {l : List Nat} {a : Nat} {w : Int} {b : Nat} {edges : List incomingEdge}
      {e : incomingEdge} :
      WalkTo inc start l a w → inc b = .ok edges → e ∈ edges → e.FromIdx = a →
      WalkTo inc start (l ++ [b]) b (w + e.Weight)

/-- The graph has pairwise distinct vertices, no edge from an unknown vertex and no
self-loop. -/
def IsLoopFreeGraph {V : Type} (g : DynamicProgrammingTSPSolverGraph V) : Prop :=
  g.GetVertices.Nodup ∧
    ∀ v ∈ g.GetVertices, ∀ e ∈ g.GetIncomingEdges v, e.Vertex ∈ g.GetVertices ∧ e.Vertex ≠ v

/-- The graph is loop free and has an edge for every ordered pair of distinct
vertices. -/
def IsCompleteSolverGraph {V : Type} (g : DynamicProgrammingTSPSolverGraph V) : Prop :=
  IsLoopFreeGraph g ∧
    ∀ v ∈ g.GetVertices, ∀ u ∈ g.GetVertices, u ≠ v →
      ∃ e ∈ g.GetIncomingEdges v, e.Vertex = u

/-! ## Forward graphs and their reversal -/

/-- The edges of one map entry `u ↦ edges` that lead into `v`, flipped: each carries the
source `u`. -/
def flippedInto {V : Type} [DecidableEq V] (u : V) (edges : List (HalfEdge V)) (v : V) :
    List (HalfEdge V) :=
  (edges.filter (fun e => decide (e.Vertex = v))).map (fun e => ⟨u, e.Weight⟩)

/-- The edges of a forward graph that lead into `v`, each carrying its source, in the
order of the map entries and of their edge lists. -/
def AdjListGraph.incomingOf {V : Type} [DecidableEq V] : AdjListGraph V → V →
    List (HalfEdge V)
  | [], _ => []
  | (u, edges) :: rest, v => flippedInto u edges v ++ AdjListGraph.incomingOf rest v

/-- A forward graph seen through the solver interface: its vertices and, for each
vertex, the edges that lead into it. -/
def AdjListGraph.toIncomingGraph {V : Type} [DecidableEq V] (g : AdjListGraph V) :
    DynamicProgrammingTSPSolverGraph V :=
  ⟨AdjListGraph.GetVertices g, AdjListGraph.incomingOf g⟩

/-- The forward graph is complete and has no self-loop: its keys are pairwise distinct
and the edges of every vertex lead to each other vertex exactly once. -/
def IsCompleteAdjListGraph {V : Type} [DecidableEq V] (g : AdjListGraph V) : Prop :=
  (AdjListGraph.GetVertices g).Nodup ∧
    ∀ entry ∈ g, (entry.2.map HalfEdge.Vertex).Perm ((AdjListGraph.GetVertices g).erase entry.1)

/-- The reversal of `SimpleSymmetricGraph`, as the test hands it to the solver. -/
def simpleSymmetricReverse : ReverseAdjListGraph String :=
  NewReverseAdjListGraphFromAdjListGraph SimpleSymmetricGraph

/-! ## Further concrete inputs -/

/-- The two-vertex cycle `A -> B -> A` with an edge into `A` from a vertex `Z` that the
graph does not list. -/
def strayEdgeGraph : DynamicProgrammingTSPSolverGraph String :=
  graphOfEdges ["A", "B"] [("B", "A", 1), ("Z", "A", 1), ("A", "B", 1)]

/-- A forward graph with the edge `A -> B` in which `B` has an empty edge list; the
entries are listed in the order `A`, `B`. -/
def emptyListGraph : AdjListGraph String :=
  [("A", [⟨"B", 1⟩]), ("B", [])]

/-- The map of `emptyListGraph` with its entries in the order `B`, `A`. -/
def emptyListGraphSwapped : AdjListGraph String :=
  [("B", []), ("A", [⟨"B", 1⟩])]

/-- A forward graph with the single entry `A` and the edge `A -> B`. -/
def singleEntryGraph : AdjListGraph String :=
  [("A", [⟨"B", 1⟩])]

/-- The two-vertex cycle `A -> B -> A` with a loop at `B`. -/
def nonStartLoopGraph : DynamicProgrammingTSPSolverGraph String :=
  graphOfEdges ["A", "B"] [("A", "B", 1), ("B", "A", 1), ("B", "B", 1)]

/-- The closure `getIncomingEdges` that the solver builds for a graph. -/
def incomingOfGraph {V : Type} [DecidableEq V] (g : DynamicProgrammingTSPSolverGraph V) :
    Nat → Res V (List incomingEdge) :=
  getIncomingEdges g g.GetVertices (buildVertexIdxMap g.GetVertices 0 [])

/-! ## The recurrence `cost` of the specification, without a memo table -/

/-- The set of indices behind a subset bitmask. -/
def bitsFinset (S : Bitset) : Finset Nat :=
  (Finset.range 32).filter (fun i => S.testBit i = true)

/-- The transition along an incoming edge from `u` is eligible in the state `(S, v)`:
`u` is still a member of `S`, or `S` with `v` removed is empty and `u` is the start. -/
def eligibleTransition (start : Nat) (S : Finset Nat) (v u : Nat) : Bool :=
  decide (u ∈ S) || (decide (S.erase v = ∅) && decide (u = start))

/-- The candidate value `cost(S \ {v}, u) + w` of a transition with weight `w`, from the
outcome of `cost(S \ {v}, u)`. -/
def candidate {V : Type} (sub : Res V Int) (w : Int) : Res V Int :=
  match sub with
  | .ok c => .ok (c + w)
  | .err e => .err e
  | .panic p => .panic p
  | .outOfFuel => .outOfFuel

/-- The minimum candidate. A candidate without a solution is a dead branch and is left
out; when no candidate is left the state has no solution; a candidate that is a defect or
an error of the graph is the outcome, the first one in the order of the edges. -/
def minCandidate {V : Type} : List (Res V Int) → Res V Int
  | [] => .err .ErrNoSolution
  | c :: rest =>
    match c with
    | .err .ErrNoSolution => minCandidate rest
    | .err e => .err e
    | .panic p => .panic p
    | .outOfFuel => .outOfFuel
    | .ok x =>
      match minCandidate rest with
      | .ok y => .ok (min x y)
      | .err .ErrNoSolution => .ok x
      | .err e => .err e
      | .panic p => .panic p
      | .outOfFuel => .outOfFuel

/-- The recurrence `cost(S, v)` of the specification, unfolded to a given depth, with no
memo table: `cost(∅, start) = 0`, `cost(∅, v)` for another `v` is a defect, and for a
set that is not empty `cost(S, v)` is the minimum candidate over the eligible
transitions. -/
def costWithin {V : Type} (getIncomingEdges : Nat → Res V (List incomingEdge))
    (start : Nat) : Nat → Finset Nat → Nat → Res V Int
  | 0, _, _ => .outOfFuel
  | depth + 1, S, v =>
    if S = ∅ then
      if v = start then .ok 0 else .panic .baseCaseNotStart
    else
      match getIncomingEdges v with
      | .err e => .err e
      | .panic p => .panic p
      | .outOfFuel => .outOfFuel
      | .ok edges =>
        minCandidate
          ((edges.filter (fun e => eligibleTransition start S v e.FromIdx)).map
            (fun e => candidate
              (costWithin getIncomingEdges start depth (S.erase v) e.FromIdx) e.Weight))

/-- The recurrence `cost(S, v)` of the specification, unfolded as deep as it goes from a
set of this size. -/
def cost {V : Type} (getIncomingEdges : Nat → Res V (List incomingEdge)) (start : Nat)
    (S : Finset Nat) (v : Nat) : Res V Int :=
  costWithin getIncomingEdges start (2 * S.card + 2) S v

/-- The bound on the depth of the recurrence from a state. -/
def finMeasure (S : Finset Nat) (v : Nat) : Nat :=
  2 * S.card + (if v ∈ S then 0 else 1)

/-- Every cell of the memo table that is not nil holds `cost(S, v)` of its state. -/
def MemoCost {V : Type} (inc : Nat → Res V (List incomingEdge)) (start : Nat)
    (memo : Memo) : Prop :=
  ∀ S v w, memoCell memo S v = some w → cost inc start (bitsFinset S) v = .ok w

/-- The outcome of the loop of `tspDP` from the running minimum and the minimum
candidate of the edges still to come. -/
def foldCandidate {V : Type} (result : Option Int) (r : Res V Int) : Res V (Option Int) :=
  match r with
  | .ok y => .ok (minUpdate result y)
  | .err .ErrNoSolution => .ok result
  | .err e => .err e
  | .panic p => .panic p
  | .outOfFuel => .outOfFuel

/-! ## The solver on a fixed-width weight type

Go's weight type `W` is a fixed-width integer type and its addition wraps around. The
functions below are `tspDP`, `tspDPPath` and the solver with the two additions of
`dp.go` (lines 123 and 177) reduced by `wrap`, the reduction of an integer to the weight
type; weights are integers in the range of the type. The functions above are these
functions for exact integers, where `wrap` changes nothing. -/

/-- The reduction of an integer to Go's `int64` (the type `int` of the test): the
integer between `-2 ^ 63` and `2 ^ 63 - 1` that differs from it by a multiple of
`2 ^ 64`. -/
def wrapInt64 (x : Int) : Int :=
  (x + 9223372036854775808) % 18446744073709551616 - 9223372036854775808

/-- The `for` loop of `tspDP` on a weight type with the reduction `wrap`; `call` is the
recursive call. -/
def tspDPLoopW {V : Type} (wrap : Int → Int)
    (call : DPState → Bitset → Nat → Res V Int × DPState)
    (startVertexIdx : Nat) (visited : Bitset) (lastVertexIdx : Nat) :
    List incomingEdge → Option Int → DPState → Res V (Option Int) × DPState
  | [], result, st => (.ok result, st)
  | e :: rest, result, st =>
    match Bitset.Unset visited lastVertexIdx with
    | none => (.panic .bitsetIdxOutOfRange, st)
    | some visitedWithoutLastVertex =>
      match Bitset.IsSet visited e.FromIdx with
      | none => (.panic .bitsetIdxOutOfRange, st)
      | some isSet =>
        if isSet || (!Bitset.IsAnySet visitedWithoutLastVertex
            && decide (e.FromIdx = startVertexIdx)) then
          match call st visitedWithoutLastVertex e.FromIdx with
          | (.ok weight, st1) =>
            tspDPLoopW wrap call startVertexIdx visited lastVertexIdx rest
              (minUpdate result (wrap (weight + e.Weight))) st1
          | (.err .ErrNoSolution, st1) =>
            tspDPLoopW wrap call startVertexIdx visited lastVertexIdx rest result st1
          | (.err other, st1) => (.err other, st1)
          | (.panic p, st1) => (.panic p, st1)
          | (.outOfFuel, st1) => (.outOfFuel, st1)
        else tspDPLoopW wrap call startVertexIdx visited lastVertexIdx rest result st

/-- The function `tspDP` on a weight type with the reduction `wrap`. -/
def tspDPW {V : Type} (wrap : Int → Int) (vertexCount : Nat)
    (getIncomingEdges : Nat → Res V (List incomingEdge))
    (startVertexIdx : Nat) : Nat → DPState → Bitset → Nat → Res V Int × DPState
  | 0, st, _, _ => (.outOfFuel, st)
  | fuel + 1, st, visited, lastVertexIdx =>
    if !Bitset.IsAnySet visited then
      if lastVertexIdx ≠ startVertexIdx then (.panic .baseCaseNotStart, st)
      else (.ok 0, st)
    else
      match memoLookup st.memo visited lastVertexIdx with
      | none => (.panic .indexOutOfRange, st)
      | some (some w) => (.ok w, st)
      | some none =>
        let st0 : DPState := ⟨st.memo, st.queries ++ [lastVertexIdx]⟩
        match getIncomingEdges lastVertexIdx with
        | .err e => (.err e, st0)
        | .panic p => (.panic p, st0)
        | .outOfFuel => (.outOfFuel, st0)
        | .ok incomingEdges =>
          match tspDPLoopW wrap (tspDPW wrap vertexCount getIncomingEdges startVertexIdx fuel)
              startVertexIdx visited lastVertexIdx incomingEdges none st0 with
          | (.err e, st1) => (.err e, st1)
          | (.panic p, st1) => (.panic p, st1)
          | (.outOfFuel, st1) => (.outOfFuel, st1)
          | (.ok none, st1) => (.err .ErrNoSolution, st1)
          | (.ok (some result), st1) =>
            match memoStore st1.memo vertexCount visited lastVertexIdx result with
            | none => (.panic .indexOutOfRange, st1)
            | some memo => (.ok result, ⟨memo, st1.queries⟩)

/-- The `for` loop of `tspDPPath` on a weight type with the reduction `wrap`. -/
def tspDPPathLoopW {V : Type} (wrap : Int → Int) (memo : Memo) (startVertexIdx : Nat)
    (visited : Bitset) (lastVertexIdx : Nat) :
    List incomingEdge → Bitset → Nat → Option Int → Res V (Bitset × Nat × Option Int)
  | [], prevVisited, prevLastVertexIdx, minWeight =>
    .ok (prevVisited, prevLastVertexIdx, minWeight)
  | e :: rest, prevVisited, prevLastVertexIdx, minWeight =>
    match Bitset.Unset visited lastVertexIdx with
    | none => .panic .bitsetIdxOutOfRange
    | some visitedWithoutLastVertex =>
      match Bitset.IsSet visited e.FromIdx with
      | none => .panic .bitsetIdxOutOfRange
      | some isSet =>
        if isSet || (!Bitset.IsAnySet visitedWithoutLastVertex
            && decide (e.FromIdx = startVertexIdx)) then
          match prevWeightOf memo visitedWithoutLastVertex e.FromIdx with
          | none => .panic .indexOutOfRange
          | some none => .panic .invalidBacktrack
          | some (some prevWeight) =>
            let weight := wrap (prevWeight + e.Weight)
            match minWeight with
            | none =>
              tspDPPathLoopW wrap memo startVertexIdx visited lastVertexIdx rest
                visitedWithoutLastVertex e.FromIdx (some weight)
            | some m =>
              if weight < m then
                tspDPPathLoopW wrap memo startVertexIdx visited lastVertexIdx rest
                  visitedWithoutLastVertex e.FromIdx (some weight)
              else
                tspDPPathLoopW wrap memo startVertexIdx visited lastVertexIdx rest
                  prevVisited prevLastVertexIdx minWeight
        else
          tspDPPathLoopW wrap memo startVertexIdx visited lastVertexIdx rest
            prevVisited prevLastVertexIdx minWeight

/-- The function `tspDPPath` on a weight type with the reduction `wrap`. -/
def tspDPPathW {V : Type} (wrap : Int → Int) (memo : Memo)
    (getIncomingEdges : Nat → Res V (List incomingEdge))
    (startVertexIdx : Nat) : Nat → List Nat → Bitset → Nat → Res V (List Nat) × List Nat
  | 0, queries, _, _ => (.outOfFuel, queries)
  | fuel + 1, queries, visited, lastVertexIdx =>
    if !Bitset.IsAnySet visited then
      if lastVertexIdx ≠ startVertexIdx then (.panic .baseCaseNotStart, queries)
      else (.ok [startVertexIdx], queries)
    else
      let queries0 := queries ++ [lastVertexIdx]
      match getIncomingEdges lastVertexIdx with
      | .err e => (.err e, queries0)
      | .panic p => (.panic p, queries0)
      | .outOfFuel => (.outOfFuel, queries0)
      | .ok incomingEdges =>
        match tspDPPathLoopW (V := V) wrap memo startVertexIdx visited lastVertexIdx
            incomingEdges 0 0 none with
        | .err e => (.err e, queries0)
        | .panic p => (.panic p, queries0)
        | .outOfFuel => (.outOfFuel, queries0)
        | .ok (prevVisited, prevLastVertexIdx, _) =>
          match tspDPPathW wrap memo getIncomingEdges startVertexIdx fuel queries0
              prevVisited prevLastVertexIdx with
          | (.ok path, queries1) => (.ok (path ++ [lastVertexIdx]), queries1)
          | other => other

/-- The second half of the solver on a weight type with the reduction `wrap`, from the
call of `tspDPPath` on. -/
def solverBacktrackW {V : Type} (wrap : Int → Int) (vertices : List V)
    (incoming : Nat → Res V (List incomingEdge)) (startVertexIdx : Nat) (full : Bitset)
    (solutionWeight : Int) (st : DPState) : SolverRun V :=
  match tspDPPathW wrap st.memo incoming startVertexIdx (solverFuel vertices.length)
      st.queries full startVertexIdx with
  | (.panic p, queries) => ⟨.panicked p, queriedVertices vertices queries⟩
  | (.outOfFuel, queries) => ⟨.outOfFuel, queriedVertices vertices queries⟩
  | (.err e, queries) => ⟨.returned ⟨0, [], some e⟩, queriedVertices vertices queries⟩
  | (.ok solutionVertexIdx, queries) =>
    match collectVertices vertices solutionVertexIdx with
    | none => ⟨.panicked .indexOutOfRange, queriedVertices vertices queries⟩
    | some solutionVertices =>
      ⟨.returned ⟨solutionWeight, solutionVertices, none⟩,
        queriedVertices vertices queries⟩

/-- The solver on a weight type with the reduction `wrap`, from the call of `tspDP`
on. -/
def solverSearchW {V : Type} (wrap : Int → Int) (vertices : List V)
    (incoming : Nat → Res V (List incomingEdge)) (startVertexIdx : Nat) (memo : Memo)
    (full : Bitset) : SolverRun V :=
  match tspDPW wrap vertices.length incoming startVertexIdx
      (solverFuel vertices.length) ⟨memo, []⟩ full startVertexIdx with
  | (.panic p, st) => ⟨.panicked p, queriedVertices vertices st.queries⟩
  | (.outOfFuel, st) => ⟨.outOfFuel, queriedVertices vertices st.queries⟩
  | (.err .ErrNoSolution, st) =>
    solverBacktrackW wrap vertices incoming startVertexIdx full 0 st
  | (.err e, st) =>
    ⟨.returned ⟨0, [], some e⟩, queriedVertices vertices st.queries⟩
  | (.ok solutionWeight, st) =>
    solverBacktrackW wrap vertices incoming startVertexIdx full solutionWeight st

/-- The solver on a weight type with the reduction `wrap`, on a graph with at least two
and at most `MaxInputVertices` vertices. -/
def solverMainW {V : Type} [DecidableEq V] (wrap : Int → Int)
    (graph : DynamicProgrammingTSPSolverGraph V)
    (vertices : List V) (startVertex : V) : SolverRun V :=
  let vertexIdxMap := buildVertexIdxMap vertices 0 []
  if vertexIdxMap.length ≠ vertices.length then
    ⟨.returned ⟨0, [], some .nonUniqueVertices⟩, []⟩
  else
    match mapGet vertexIdxMap startVertex with
    | none => ⟨.returned ⟨0, [], some (.unknownStartVertex startVertex)⟩, []⟩
    | some startVertexIdx =>
      match CountBitArrangements vertices.length with
      | none => ⟨.panicked .bitsetNOutOfRange, []⟩
      | some count =>
        match NewBitsetAllSet vertices.length with
        | none => ⟨.panicked .bitsetNOutOfRange, []⟩
        | some full =>
          solverSearchW wrap vertices (getIncomingEdges graph vertices vertexIdxMap)
            startVertexIdx (List.replicate count.toNat none) full

/-- The function `DynamicProgrammingTSPSolver` on a weight type with the reduction
`wrap`; `none` is the nil graph. -/
def DynamicProgrammingTSPSolverW {V : Type} [DecidableEq V] (wrap : Int → Int)
    (graph : Option (DynamicProgrammingTSPSolverGraph V)) (startVertex : V) : SolverRun V :=
  match graph with
  | none => ⟨.returned ⟨0, [], none⟩, []⟩
  | some graph =>
    let vertices := graph.GetVertices
    if vertices.length ≤ 0 then ⟨.returned ⟨0, [], none⟩, []⟩
    else if h : vertices.length = 1 then
      ⟨.returned ⟨0, [vertices.get ⟨0, by omega⟩], none⟩, []⟩
    else if vertices.length > MaxInputVertices then
      ⟨.returned ⟨0, [], some .tooManyVertices⟩, []⟩
    else solverMainW wrap graph vertices startVertex

/-- A set `P` of states with a bound `depth` on the number of transitions that a chain
from a state makes: the sets of the states of `P` are 32-bit words, and an eligible
transition from a state of `P` along an edge that `getIncomingEdges` yields leads to a
state of `P` with a smaller bound. -/
def StepInv {V : Type} (inc : Nat → Res V (List incomingEdge)) (start : Nat)
    (P : Bitset → Nat → Prop) (depth : Bitset → Nat → Nat) : Prop :=
  (∀ S v, P S v → S < word) ∧
    ∀ (S : Bitset) (v : Nat) (vwl : Bitset) (edges : List incomingEdge) (e : incomingEdge),
      P S v → S ≠ 0 → inc v = .ok edges → e ∈ edges →
      Eligible start S v e.FromIdx vwl →
      P vwl e.FromIdx ∧ depth vwl e.FromIdx + 1 ≤ depth S v

/-- The complete graph on `A` and `B` with both weights `2 ^ 62`. -/
def hugeWeightGraph : AdjListGraph String :=
  [("A", [⟨"B", 4611686018427387904⟩]), ("B", [⟨"A", 4611686018427387904⟩])]

/-- The two-vertex cycle `A -> B -> A` with both weights `2 ^ 62`, as a solver graph. -/
def hugeWeightCycle : DynamicProgrammingTSPSolverGraph String :=
  graphOfEdges ["A", "B"] [("A", "B", 4611686018427387904), ("B", "A", 4611686018427387904)]

/-! ## The early returns of the solver -/

/-- C7: on a graph without vertices, and on the nil graph, the solver returns weight 0,
an empty sequence and no error, for every start vertex, and requests no edges. -/
theorem solver_no_vertices {V : Type} [DecidableEq V]
    (incoming : V → List (HalfEdge V)) (startVertex : V) :
    DynamicProgrammingTSPSolver (some ⟨[], incoming⟩) startVertex
        = ⟨.returned ⟨0, [], none⟩, []⟩ ∧
      DynamicProgrammingTSPSolver (none : Option (DynamicProgrammingTSPSolverGraph V))
        startVertex = ⟨.returned ⟨0, [], none⟩, []⟩ := by
  constructor <;> rfl

/-- C8: on a graph with exactly one vertex `X` the solver returns weight 0, the sequence
`[X]` and no error, whatever the start vertex and the edges are. -/
theorem solver_single_vertex {V : Type} [DecidableEq V] (X : V)
    (incoming : V → List (HalfEdge V)) (startVertex : V) :
    DynamicProgrammingTSPSolver (some ⟨[X], incoming⟩) startVertex
      = ⟨.returned ⟨0, [X], none⟩, []⟩ := by
  rfl

/-- C9: on a graph with more than 31 vertices the solver returns the capacity error
with weight 0 and no sequence, and its query log is empty: no incoming edges are
requested and the DP is not run. -/
theorem solver_too_many_vertices {V : Type} [DecidableEq V]
    (g : DynamicProgrammingTSPSolverGraph V) (startVertex : V)
    (h : g.GetVertices.length > 31) :
    DynamicProgrammingTSPSolver (some g) startVertex
      = ⟨.returned ⟨0, [], some .tooManyVertices⟩, []⟩ := by
  unfold DynamicProgrammingTSPSolver
  have h0 : ¬ g.GetVertices.length ≤ 0 := by omega
  have h1 : ¬ g.GetVertices.length = 1 := by omega
  have h2 : g.GetVertices.length > MaxInputVertices := by
    unfold MaxInputVertices; exact h
  simp only [h0, h1, h2, if_true, if_false, dif_neg, not_false_eq_true]

/-- The solver rejects the graph on the numbers below 32. -/
theorem solver_too_many_vertices_witness :
    (rangeGraph 32).GetVertices.length > 31 ∧
      DynamicProgrammingTSPSolver (some (rangeGraph 32)) 0
        = ⟨.returned ⟨0, [], some .tooManyVertices⟩, []⟩ :=
  ⟨by decide, solver_too_many_vertices (rangeGraph 32) 0 (by decide)⟩

/-! ## Go maps as association lists -/

theorem mapGet_mapSet {V β : Type} [DecidableEq V] (m : List (V × β)) (k k' : V) (x : β) :
    mapGet (mapSet m k x) k' = if k = k' then some x else mapGet m k' := by
  induction m with
  | nil =>
    simp only [mapSet, mapGet]
  | cons a rest ih =>
    obtain ⟨ka, xa⟩ := a
    by_cases h : ka = k
    · subst h
      by_cases h2 : ka = k' <;> simp [mapSet, mapGet, h2]
    · by_cases h2 : ka = k'
      · subst h2
        have h3 : ¬ k = ka := fun e => h e.symm
        simp [mapSet, mapGet, h, h3]
      · simp only [mapSet, mapGet, h, h2, if_false, ih]

theorem mapGet_eq_none_iff {V β : Type} [DecidableEq V] (m : List (V × β)) (k : V) :
    mapGet m k = none ↔ k ∉ m.map Prod.fst := by
  induction m with
  | nil => simp [mapGet]
  | cons a rest ih =>
    obtain ⟨ka, xa⟩ := a
    by_cases h : ka = k
    · simp [mapGet, h]
    · have h3 : ¬ k = ka := fun e => h e.symm
      simp [mapGet, h, h3, ih]

theorem mapGet_isSome_iff {V β : Type} [DecidableEq V] (m : List (V × β)) (k : V) :
    (∃ x, mapGet m k = some x) ↔ k ∈ m.map Prod.fst := by
  have h := mapGet_eq_none_iff m k
  cases hg : mapGet m k with
  | none =>
    rw [hg] at h
    simp only [true_iff] at h
    simp [h]
  | some x =>
    rw [hg] at h
    simp only [reduceCtorEq, false_iff, not_not] at h
    simp [h]

theorem mem_keys_mapSet {V β : Type} [DecidableEq V] (m : List (V × β)) (k u : V) (x : β) :
    u ∈ (mapSet m k x).map Prod.fst ↔ u = k ∨ u ∈ m.map Prod.fst := by
  rw [← mapGet_isSome_iff, ← mapGet_isSome_iff, mapGet_mapSet]
  by_cases h : k = u
  · simp [h]
  · have h3 : ¬ u = k := fun e => h e.symm
    simp [h, h3]

theorem length_mapSet {V β : Type} [DecidableEq V] (m : List (V × β)) (k : V) (x : β) :
    (mapSet m k x).length = if k ∈ m.map Prod.fst then m.length else m.length + 1 := by
  induction m with
  | nil => simp [mapSet]
  | cons a rest ih =>
    obtain ⟨ka, xa⟩ := a
    by_cases h : ka = k
    · simp [mapSet, h]
    · have h3 : ¬ k = ka := fun e => h e.symm
      simp only [mapSet, h, if_false, List.length_cons, ih, List.map_cons, List.mem_cons, h3,
        false_or]
      split <;> rfl

theorem nodup_keys_mapSet {V β : Type} [DecidableEq V] (m : List (V × β)) (k : V) (x : β)
    (h : (m.map Prod.fst).Nodup) : ((mapSet m k x).map Prod.fst).Nodup := by
  induction m with
  | nil => simp [mapSet]
  | cons a rest ih =>
    obtain ⟨ka, xa⟩ := a
    simp only [List.map_cons, List.nodup_cons] at h
    by_cases hk : ka = k
    · subst hk
      simp only [mapSet, if_true, List.map_cons, List.nodup_cons]
      exact h
    · simp only [mapSet, hk, if_false, List.map_cons, List.nodup_cons]
      refine ⟨?_, ih h.2⟩
      rw [mem_keys_mapSet]
      intro hc
      rcases hc with hc | hc
      · exact hk hc
      · exact h.1 hc

theorem mem_keys_buildVertexIdxMap {V : Type} [DecidableEq V] (vs : List V) (i : Nat)
    (m : List (V × Nat)) (u : V) :
    u ∈ (buildVertexIdxMap vs i m).map Prod.fst ↔ u ∈ vs ∨ u ∈ m.map Prod.fst := by
  induction vs generalizing i m with
  | nil => simp [buildVertexIdxMap]
  | cons v rest ih =>
    simp only [buildVertexIdxMap, ih, mem_keys_mapSet, List.mem_cons]
    tauto

theorem length_buildVertexIdxMap_le {V : Type} [DecidableEq V] (vs : List V) (i : Nat)
    (m : List (V × Nat)) :
    (buildVertexIdxMap vs i m).length ≤ m.length + vs.length := by
  induction vs generalizing i m with
  | nil => simp [buildVertexIdxMap]
  | cons v rest ih =>
    simp only [buildVertexIdxMap, List.length_cons]
    have h1 := ih (i + 1) (mapSet m v i)
    have h2 := length_mapSet m v i
    split at h2 <;> omega

theorem length_buildVertexIdxMap_eq_iff {V : Type} [DecidableEq V] (vs : List V) (i : Nat)
    (m : List (V × Nat)) :
    (buildVertexIdxMap vs i m).length = m.length + vs.length ↔
      vs.Nodup ∧ ∀ v ∈ vs, v ∉ m.map Prod.fst := by
  induction vs generalizing i m with
  | nil => simp [buildVertexIdxMap]
  | cons v rest ih =>
    simp only [buildVertexIdxMap, List.length_cons, List.nodup_cons, List.mem_cons]
    have h1 := ih (i + 1) (mapSet m v i)
    have h2 := length_mapSet m v i
    have h3 := length_buildVertexIdxMap_le rest (i + 1) (mapSet m v i)
    by_cases hv : v ∈ m.map Prod.fst
    · rw [if_pos hv] at h2
      constructor
      · intro h
        omega
      · intro h
        exact absurd hv (h.2 v (Or.inl rfl))
    · rw [if_neg hv] at h2
      constructor
      · intro h
        have h4 : (buildVertexIdxMap rest (i + 1) (mapSet m v i)).length
            = (mapSet m v i).length + rest.length := by omega
        have h5 := h1.1 h4
        refine ⟨⟨?_, h5.1⟩, ?_⟩
        · intro hin
          exact h5.2 v hin ((mem_keys_mapSet m v v i).2 (Or.inl rfl))
        · intro u hu
          rcases hu with hu | hu
          · subst hu; exact hv
          · intro hin
            exact h5.2 u hu ((mem_keys_mapSet m v u i).2 (Or.inr hin))
      · intro h
        have h5 : (buildVertexIdxMap rest (i + 1) (mapSet m v i)).length
            = (mapSet m v i).length + rest.length := by
          apply h1.2
          refine ⟨h.1.2, ?_⟩
          intro u hu hin
          rcases (mem_keys_mapSet m v u i).1 hin with hc | hc
          · subst hc; exact h.1.1 hu
          · exact h.2 u (Or.inr hu) hc
        omega

theorem length_buildVertexIdxMap_iff_nodup {V : Type} [DecidableEq V] (vs : List V) :
    (buildVertexIdxMap vs 0 []).length = vs.length ↔ vs.Nodup := by
  have h := length_buildVertexIdxMap_eq_iff vs 0 []
  simp only [List.length_nil, Nat.zero_add, List.map_nil, List.not_mem_nil, not_false_eq_true,
    implies_true, and_true] at h
  exact h

theorem mapGet_buildVertexIdxMap_not_mem {V : Type} [DecidableEq V] (vs : List V) (i : Nat)
    (m : List (V × Nat)) (v : V) (h : v ∉ vs) :
    mapGet (buildVertexIdxMap vs i m) v = mapGet m v := by
  induction vs generalizing i m with
  | nil => simp [buildVertexIdxMap]
  | cons a rest ih =>
    simp only [List.mem_cons, not_or] at h
    simp only [buildVertexIdxMap]
    rw [ih _ _ h.2, mapGet_mapSet]
    have h3 : ¬ a = v := fun e => h.1 e.symm
    simp [h3]

theorem mapGet_buildVertexIdxMap_nodup {V : Type} [DecidableEq V] (vs : List V) (i : Nat)
    (m : List (V × Nat)) (v : V) (j : Nat) (hn : vs.Nodup) (hj : vs[j]? = some v) :
    mapGet (buildVertexIdxMap vs i m) v = some (i + j) := by
  induction vs generalizing i m j with
  | nil => simp at hj
  | cons a rest ih =>
    simp only [List.nodup_cons] at hn
    simp only [buildVertexIdxMap]
    cases j with
    | zero =>
      simp only [List.getElem?_cons_zero, Option.some.injEq] at hj
      subst hj
      rw [mapGet_buildVertexIdxMap_not_mem _ _ _ _ hn.1, mapGet_mapSet]
      simp
    | succ j' =>
      simp only [List.getElem?_cons_succ] at hj
      rw [ih (i + 1) _ j' hn.2 hj]
      congr 1
      omega

/-- With pairwise distinct vertices, `vertexIdxMap[v]` is the position of `v`. -/
theorem mapGet_vertexIdxMap_iff {V : Type} [DecidableEq V] (vs : List V) (hn : vs.Nodup)
    (v : V) (j : Nat) :
    mapGet (buildVertexIdxMap vs 0 []) v = some j ↔ vs[j]? = some v := by
  constructor
  · intro h
    by_cases hv : v ∈ vs
    · obtain ⟨k, hk⟩ := List.getElem?_of_mem hv
      have h2 := mapGet_buildVertexIdxMap_nodup vs 0 [] v k hn hk
      rw [h] at h2
      simp only [Nat.zero_add, Option.some.injEq] at h2
      subst h2
      exact hk
    · rw [mapGet_buildVertexIdxMap_not_mem _ _ _ _ hv] at h
      simp [mapGet] at h
  · intro h
    have h2 := mapGet_buildVertexIdxMap_nodup vs 0 [] v j hn h
    simpa using h2

/-! ## Where the errors of the solver come from -/

theorem convertEdges_err {V : Type} [DecidableEq V] (m : List (V × Nat)) (toVertex : V)
    (edges : List (HalfEdge V)) (e : SolverError V)
    (h : convertEdges m toVertex edges = .err e) :
    ∃ a, e = .unknownEdgeVertex a toVertex ∧ mapGet m a = none ∧
      ∃ x ∈ edges, x.Vertex = a := by
  induction edges with
  | nil => simp [convertEdges] at h
  | cons x rest ih =>
    simp only [convertEdges] at h
    cases hx : mapGet m x.Vertex with
    | none =>
      rw [hx] at h
      simp only [Res.err.injEq] at h
      exact ⟨x.Vertex, h.symm, hx, x, List.mem_cons_self _ _, rfl⟩
    | some fromIdx =>
      rw [hx] at h
      simp only at h
      cases hr : convertEdges m toVertex rest with
      | ok l => rw [hr] at h; simp at h
      | err e2 =>
        rw [hr] at h
        simp only [Res.err.injEq] at h
        subst h
        obtain ⟨a, ha, hm, y, hy, hya⟩ := ih hr
        exact ⟨a, ha, hm, y, List.mem_cons_of_mem _ hy, hya⟩
      | panic p => rw [hr] at h; simp at h
      | outOfFuel => rw [hr] at h; simp at h

theorem convertEdges_not_panic {V : Type} [DecidableEq V] (m : List (V × Nat)) (toVertex : V)
    (edges : List (HalfEdge V)) :
    (∀ p, convertEdges m toVertex edges ≠ .panic p) ∧
      convertEdges m toVertex edges ≠ .outOfFuel := by
  induction edges with
  | nil => simp [convertEdges]
  | cons x rest ih =>
    simp only [convertEdges]
    cases hx : mapGet m x.Vertex with
    | none => simp
    | some fromIdx =>
      simp only
      cases hr : convertEdges m toVertex rest with
      | ok l => simp
      | err e2 => simp
      | panic p => exact absurd hr (ih.1 p)
      | outOfFuel => exact absurd hr ih.2

theorem getIncomingEdges_err {V : Type} [DecidableEq V]
    (g : DynamicProgrammingTSPSolverGraph V) (vs : List V) (m : List (V × Nat)) (i : Nat)
    (e : SolverError V) (h : getIncomingEdges g vs m i = .err e) :
    ∃ a b, e = .unknownEdgeVertex a b ∧ mapGet m a = none ∧ vs[i]? = some b ∧
      ∃ x ∈ g.GetIncomingEdges b, x.Vertex = a := by
  unfold getIncomingEdges at h
  cases hv : vs[i]? with
  | none => rw [hv] at h; simp at h
  | some b =>
    rw [hv] at h
    simp only at h
    obtain ⟨a, ha, hm, hx⟩ := convertEdges_err m b _ e h
    exact ⟨a, b, ha, hm, rfl, hx⟩

theorem getIncomingEdges_not_outOfFuel {V : Type} [DecidableEq V]
    (g : DynamicProgrammingTSPSolverGraph V) (vs : List V) (m : List (V × Nat)) (i : Nat) :
    getIncomingEdges g vs m i ≠ .outOfFuel := by
  unfold getIncomingEdges
  cases hv : vs[i]? with
  | none => simp
  | some b => exact (convertEdges_not_panic m b _).2

theorem getIncomingEdges_ne_noSolution {V : Type} [DecidableEq V]
    (g : DynamicProgrammingTSPSolverGraph V) (vs : List V) (m : List (V × Nat)) (i : Nat) :
    getIncomingEdges g vs m i ≠ .err .ErrNoSolution := by
  intro h
  obtain ⟨a, b, ha, _⟩ := getIncomingEdges_err g vs m i _ h
  cases ha

theorem tspDPLoop_err {V : Type} (call : DPState → Bitset → Nat → Res V Int × DPState)
    (P : SolverError V → Prop)
    (hcall : ∀ st S v e st', call st S v = (.err e, st') → e = .ErrNoSolution ∨ P e)
    (start : Nat) (visited : Bitset) (last : Nat) (edges : List incomingEdge)
    (result : Option Int) (st : DPState) (e : SolverError V) (st' : DPState)
    (h : tspDPLoop call start visited last edges result st = (.err e, st')) : P e := by
  induction edges generalizing result st with
  | nil => simp [tspDPLoop] at h
  | cons x rest ih =>
    simp only [tspDPLoop] at h
    split at h
    · simp at h
    · split at h
      · simp at h
      · split at h
        · split at h
          · exact ih _ _ h
          · exact ih _ _ h
          · rename_i other st1 hne hc
            simp only [Prod.mk.injEq, Res.err.injEq] at h
            obtain ⟨h1, h2⟩ := h
            subst h1
            rcases hcall _ _ _ _ _ hc with h3 | h3
            · exact absurd h3 (by intro h4; subst h4; exact hne rfl)
            · exact h3
          · simp at h
          · simp at h
        · exact ih _ _ h

theorem tspDP_err {V : Type} (n : Nat) (inc : Nat → Res V (List incomingEdge)) (start : Nat)
    (fuel : Nat) (st : DPState) (S : Bitset) (v : Nat) (e : SolverError V) (st' : DPState)
    (h : tspDP n inc start fuel st S v = (.err e, st')) :
    e = .ErrNoSolution ∨ ∃ i, inc i = .err e := by
  induction fuel generalizing st S v e st' with
  | zero => simp [tspDP] at h
  | succ fuel ih =>
    simp only [tspDP] at h
    split at h
    · split at h <;> simp at h
    · split at h
      · simp at h
      · simp at h
      · split at h
        · rename_i e2 hq
          simp only [Prod.mk.injEq, Res.err.injEq] at h
          right
          exact ⟨v, by rw [hq, h.1]⟩
        · simp at h
        · simp at h
        · split at h
          · rename_i e2 st1 hl
            simp only [Prod.mk.injEq, Res.err.injEq] at h
            obtain ⟨h1, h2⟩ := h
            subst h1
            right
            exact tspDPLoop_err _ (fun e => ∃ i, inc i = .err e)
              (fun st S v e st' hc => ih st S v e st' hc) _ _ _ _ _ _ _ _ hl
          · simp at h
          · simp at h
          · simp only [Prod.mk.injEq, Res.err.injEq] at h
            exact Or.inl h.1.symm
          · split at h <;> simp at h

theorem tspDPPathLoop_not_err {V : Type} (memo : Memo) (start : Nat) (visited : Bitset)
    (last : Nat) (edges : List incomingEdge) (pv : Bitset) (pl : Nat) (mw : Option Int) :
    (∀ e : SolverError V, tspDPPathLoop memo start visited last edges pv pl mw ≠ .err e) ∧
      tspDPPathLoop (V := V) memo start visited last edges pv pl mw ≠ .outOfFuel := by
  induction edges generalizing pv pl mw with
  | nil => simp [tspDPPathLoop]
  | cons x rest ih =>
    simp only [tspDPPathLoop]
    split
    · simp
    · split
      · simp
      · split
        · split
          · simp
          · simp
          · split
            · exact ih _ _ _
            · split
              · exact ih _ _ _
              · exact ih _ _ _
        · exact ih _ _ _

theorem tspDPPath_err {V : Type} (memo : Memo) (inc : Nat → Res V (List incomingEdge))
    (start : Nat) (fuel : Nat) (q : List Nat) (S : Bitset) (v : Nat) (e : SolverError V)
    (q' : List Nat) (h : tspDPPath memo inc start fuel q S v = (.err e, q')) :
    ∃ i, inc i = .err e := by
  induction fuel generalizing q S v q' with
  | zero => simp [tspDPPath] at h
  | succ fuel ih =>
    simp only [tspDPPath] at h
    split at h
    · split at h <;> simp at h
    · split at h
      · rename_i e2 hq
        simp only [Prod.mk.injEq, Res.err.injEq] at h
        exact ⟨v, by rw [hq, h.1]⟩
      · simp at h
      · simp at h
      · split at h
        · rename_i e2 hl
          exact absurd hl ((tspDPPathLoop_not_err _ _ _ _ _ _ _ _).1 e2)
        · simp at h
        · simp at h
        · split at h
          · simp at h
          · rename_i other hne
            exact ih _ _ _ _ h

/-! ## The errors the solver returns -/

theorem solverBacktrack_returned_err {V : Type} (vs : List V)
    (inc : Nat → Res V (List incomingEdge)) (start : Nat) (full : Bitset) (w : Int)
    (st : DPState) (r : SolverReturn V) (e : SolverError V)
    (h : (solverBacktrack vs inc start full w st).outcome = .returned r)
    (he : r.err = some e) : ∃ i, inc i = .err e := by
  unfold solverBacktrack at h
  split at h
  · simp at h
  · simp at h
  · rename_i e2 q hp
    simp only [Outcome.returned.injEq] at h
    subst h
    simp only [Option.some.injEq] at he
    subst he
    exact tspDPPath_err _ _ _ _ _ _ _ _ _ hp
  · split at h
    · simp at h
    · simp only [Outcome.returned.injEq] at h
      subst h
      simp at he

/-- Every error the solver returns on a graph of 2 to 31 vertices is one of three:
the vertex list repeats a vertex; the start vertex is unknown; an edge of a queried
vertex starts at an unknown vertex. -/
theorem solverMain_returned_err {V : Type} [DecidableEq V]
    (g : DynamicProgrammingTSPSolverGraph V) (vs : List V) (s : V) (r : SolverReturn V)
    (e : SolverError V) (h : (solverMain g vs s).outcome = .returned r)
    (he : r.err = some e) :
    (e = .nonUniqueVertices ∧ ¬ vs.Nodup) ∨
      (e = .unknownStartVertex s ∧ vs.Nodup ∧ s ∉ vs) ∨
      (∃ a b, e = .unknownEdgeVertex a b ∧ vs.Nodup ∧ a ∉ vs ∧ b ∈ vs ∧
        ∃ x ∈ g.GetIncomingEdges b, x.Vertex = a) := by
  have hedge : vs.Nodup → (∃ i, getIncomingEdges g vs (buildVertexIdxMap vs 0 []) i = .err e) →
      ∃ a b, e = .unknownEdgeVertex a b ∧ vs.Nodup ∧ a ∉ vs ∧ b ∈ vs ∧
        ∃ x ∈ g.GetIncomingEdges b, x.Vertex = a := by
    intro hn hi
    obtain ⟨i, hi⟩ := hi
    obtain ⟨a, b, ha, hm, hb, hx⟩ := getIncomingEdges_err g vs _ i e hi
    refine ⟨a, b, ha, hn, ?_, List.getElem?_mem hb, hx⟩
    intro hin
    rw [mapGet_eq_none_iff, mem_keys_buildVertexIdxMap] at hm
    exact hm (Or.inl hin)
  unfold solverMain at h
  simp only at h
  split at h
  · rename_i hlen
    simp only [Outcome.returned.injEq] at h
    subst h
    simp only [Option.some.injEq] at he
    left
    refine ⟨he.symm, ?_⟩
    intro hn
    exact hlen ((length_buildVertexIdxMap_iff_nodup vs).2 hn)
  · rename_i hlen
    have hn : vs.Nodup := (length_buildVertexIdxMap_iff_nodup vs).1 (not_not.1 hlen)
    split at h
    · rename_i hs
      simp only [Outcome.returned.injEq] at h
      subst h
      simp only [Option.some.injEq] at he
      right; left
      refine ⟨he.symm, hn, ?_⟩
      intro hin
      rw [mapGet_eq_none_iff, mem_keys_buildVertexIdxMap] at hs
      exact hs (Or.inl hin)
    · split at h
      · simp at h
      · split at h
        · simp at h
        · right; right
          apply hedge hn
          unfold solverSearch at h
          split at h
          · simp at h
          · simp at h
          · exact solverBacktrack_returned_err _ _ _ _ _ _ _ _ h he
          · rename_i e2 st1 hne hd
            simp only [Outcome.returned.injEq] at h
            subst h
            simp only [Option.some.injEq] at he
            subst he
            rcases tspDP_err _ _ _ _ _ _ _ _ _ hd with h3 | h3
            · exact absurd h3 (by intro h4; subst h4; exact hne rfl)
            · exact h3
          · exact solverBacktrack_returned_err _ _ _ _ _ _ _ _ h he

theorem solver_eq_solverMain {V : Type} [DecidableEq V]
    (g : DynamicProgrammingTSPSolverGraph V) (s : V) (h2 : 2 ≤ g.GetVertices.length)
    (h31 : g.GetVertices.length ≤ 31) :
    DynamicProgrammingTSPSolver (some g) s = solverMain g g.GetVertices s := by
  unfold DynamicProgrammingTSPSolver
  have h0 : ¬ g.GetVertices.length ≤ 0 := by omega
  have h1 : ¬ g.GetVertices.length = 1 := by omega
  have h3 : ¬ g.GetVertices.length > MaxInputVertices := by
    unfold MaxInputVertices; omega
  simp only [h0, h1, h3, if_false, dif_neg, not_false_eq_true]

/-- C10: when the vertex list of a graph has 2 to 31 entries and repeats a vertex, the
solver returns the non-unique-vertices error with weight 0 and no sequence, and requests
no edges; and whenever the solver returns that error, the vertex list repeats a vertex. -/
theorem solver_duplicate_vertices {V : Type} [DecidableEq V]
    (g : DynamicProgrammingTSPSolverGraph V) (startVertex : V) :
    (2 ≤ g.GetVertices.length → g.GetVertices.length ≤ 31 → ¬ g.GetVertices.Nodup →
        DynamicProgrammingTSPSolver (some g) startVertex
          = ⟨.returned ⟨0, [], some .nonUniqueVertices⟩, []⟩) ∧
      (∀ r, (DynamicProgrammingTSPSolver (some g) startVertex).outcome = .returned r →
        r.err = some .nonUniqueVertices → ¬ g.GetVertices.Nodup) := by
  constructor
  · intro h2 h31 hn
    rw [solver_eq_solverMain g startVertex h2 h31]
    unfold solverMain
    have hlen : (buildVertexIdxMap g.GetVertices 0 []).length ≠ g.GetVertices.length :=
      fun hc => hn ((length_buildVertexIdxMap_iff_nodup _).1 hc)
    simp only [hlen, ne_eq, not_false_eq_true, if_true]
  · intro r hr he
    by_cases h0 : g.GetVertices.length ≤ 0
    · unfold DynamicProgrammingTSPSolver at hr
      simp only [h0, if_true, Outcome.returned.injEq] at hr
      subst hr
      simp at he
    · by_cases h1 : g.GetVertices.length = 1
      · unfold DynamicProgrammingTSPSolver at hr
        simp only [h0, if_false] at hr
        rw [dif_pos h1] at hr
        simp only [Outcome.returned.injEq] at hr
        subst hr
        simp at he
      · by_cases h3 : g.GetVertices.length > MaxInputVertices
        · unfold DynamicProgrammingTSPSolver at hr
          simp only [h0, h1, h3, if_false, if_true, dif_neg, not_false_eq_true,
            Outcome.returned.injEq] at hr
          subst hr
          simp at he
        · unfold MaxInputVertices at h3
          rw [solver_eq_solverMain g startVertex (by omega) (by omega)] at hr
          rcases solverMain_returned_err g _ startVertex r _ hr he with h | h | h
          · exact h.2
          · exact absurd h.1 (by simp)
          · obtain ⟨a, b, hab, _⟩ := h
            exact absurd hab (by simp)

/-- The solver rejects the vertex list `A, B, A`. -/
theorem solver_duplicate_vertices_witness :
    DynamicProgrammingTSPSolver (some duplicateGraph) "B"
      = ⟨.returned ⟨0, [], some .nonUniqueVertices⟩, []⟩ :=
  (solver_duplicate_vertices duplicateGraph "B").1 (by decide) (by decide) (by decide)

/-! ## The solver on concrete graphs -/

/-- C1: the graph with the cycle `A -> B -> C -> A` and the extra edge `B -> A` has
pairwise distinct vertices and a Hamiltonian cycle through `A` of weight 3, yet the
solver started at `A` does not return: `tspDPPath` panics with `invalid backtrack` at
the edge `B -> A`, whose state `tspDP` had pruned. -/
theorem solver_panics_on_dead_branch :
    deadBranchGraph.GetVertices.Nodup ∧
      IsHamiltonianCycle deadBranchGraph "A" ["A", "B", "C", "A"] ∧
      tourWeight deadBranchGraph ["A", "B", "C", "A"] = some 3 ∧
      (DynamicProgrammingTSPSolver (some deadBranchGraph) "A").outcome
        = .panicked .invalidBacktrack := by
  refine ⟨by decide, ?_, by decide, by decide⟩
  unfold IsHamiltonianCycle
  decide

/-- C3: on the graph with the two vertices `A`, `B` and no edge the solver started at
`A` returns without error the sequence `A, A`, of length 2 and not 3; on the two-vertex
cycle with a loop of weight `-5` at `A` it returns without error the sequence
`A, B, A, A`, of length 4. -/
theorem solver_returns_invalid_sequence :
    edgelessGraph.GetVertices.length = 2 ∧
      (DynamicProgrammingTSPSolver (some edgelessGraph) "A").outcome
        = .returned ⟨0, ["A", "A"], none⟩ ∧
      selfLoopGraph.GetVertices.length = 2 ∧
      (DynamicProgrammingTSPSolver (some selfLoopGraph) "A").outcome
        = .returned ⟨-3, ["A", "B", "A", "A"], none⟩ := by
  refine ⟨by decide, by decide, by decide, by decide⟩

theorem oneWayGraph_no_cycle (start : String) (cyc : List String) :
    ¬ IsHamiltonianCycle oneWayGraph start cyc := by
  intro h
  obtain ⟨hhead, hlast, hperm, hedges⟩ := h
  have hlen : cyc.tail.length = 2 := hperm.length_eq
  match cyc, hhead, hlast, hperm, hedges, hlen with
  | [a, x, y], hhead, hlast, hperm, hedges, _ =>
    simp only [List.head?_cons, Option.some.injEq] at hhead
    simp only [List.getLast?_cons_cons, List.getLast?_singleton, Option.some.injEq] at hlast
    rw [hlast] at hperm hedges
    rw [hhead] at hedges
    have hA : "A" ∈ [x, start] := hperm.mem_iff.2 (by decide)
    have hB : "B" ∈ [x, start] := hperm.mem_iff.2 (by decide)
    have hnd : [x, start].Nodup := hperm.nodup_iff.2 (by decide)
    simp only [List.mem_cons, List.mem_singleton, List.not_mem_nil, or_false] at hA hB
    simp only [List.nodup_cons, List.mem_singleton, List.not_mem_nil, not_false_eq_true,
      List.nodup_nil, and_true] at hnd
    have e1 := hedges (start, x) (by simp [consecutivePairs])
    have e2 := hedges (x, start) (by simp [consecutivePairs])
    rcases hA with hA | hA <;> rcases hB with hB | hB
    · rw [← hA] at hB; exact absurd hB (by decide)
    · subst hA; subst hB; exact e1 (by decide)
    · subst hA; subst hB; exact e2 (by decide)
    · rw [← hA] at hB; exact absurd hB (by decide)

/-- C4: the graph with the single edge `A -> B` has no Hamiltonian cycle, yet the solver
started at `A` returns weight 0, the sequence `A, A` and no error; started at `B` it
panics with `invalid backtrack`.  In neither case does it return `ErrNoSolution`. -/
theorem solver_misses_no_solution :
    oneWayGraph.GetVertices.Nodup ∧
      (∀ start cyc, ¬ IsHamiltonianCycle oneWayGraph start cyc) ∧
      (DynamicProgrammingTSPSolver (some oneWayGraph) "A").outcome
        = .returned ⟨0, ["A", "A"], none⟩ ∧
      (DynamicProgrammingTSPSolver (some oneWayGraph) "B").outcome
        = .panicked .invalidBacktrack := by
  refine ⟨by decide, oneWayGraph_no_cycle, by decide, by decide⟩

/-- C6: on the graph with the cycle `A -> B -> C -> A` and the extra edge `B -> A`, which
has the Hamiltonian cycle `B, C, A, B`, the solver started at `B` returns weight 3 and
started at `A` panics, so the two starts do not both succeed. -/
theorem solver_start_dependent :
    IsHamiltonianCycle deadBranchGraph "B" ["B", "C", "A", "B"] ∧
      (DynamicProgrammingTSPSolver (some deadBranchGraph) "B").outcome
        = .returned ⟨3, ["B", "C", "A", "B"], none⟩ ∧
      (DynamicProgrammingTSPSolver (some deadBranchGraph) "A").outcome
        = .panicked .invalidBacktrack := by
  refine ⟨?_, by decide, by decide⟩
  unfold IsHamiltonianCycle
  decide

/-! ## Bitsets as sets of indices -/

theorem word_eq : word = 2 ^ 32 := by
  unfold word; rfl

theorem mask_eq_xor (v : Nat) (hv : v < 32) : word - 1 - 2 ^ v = (word - 1) ^^^ 2 ^ v := by
  unfold word
  interval_cases v <;> rfl

theorem testBit_mask (v j : Nat) (hv : v < 32) :
    (word - 1 - 2 ^ v).testBit j = (decide (j < 32) && !decide (j = v)) := by
  rw [mask_eq_xor v hv, Nat.testBit_xor]
  have h1 : word - 1 = 2 ^ 32 - 1 := by rw [word_eq]
  rw [h1, Nat.testBit_two_pow_sub_one, Nat.testBit_two_pow]
  by_cases h2 : j = v
  · subst h2; simp [hv]
  · have h3 : ¬ v = j := fun e => h2 e.symm
    simp [h2, h3]

theorem shift_mod_word (v : Nat) (hv : v < 32) : (1 <<< v) % word = 2 ^ v := by
  rw [Nat.one_shiftLeft]
  apply Nat.mod_eq_of_lt
  rw [word_eq]
  exact Nat.pow_lt_pow_right (by decide) hv

theorem idx_in_range (v : Nat) : (¬ (((v : Int) < 0) ∨ ((v : Int) ≥ 32))) ↔ v < 32 := by
  omega

theorem IsSet_some (S : Bitset) (u : Nat) (hu : u < 32) :
    Bitset.IsSet S (u : Int) = some (S.testBit u) := by
  unfold Bitset.IsSet
  rw [if_neg ((idx_in_range u).2 hu)]
  have h1 : (S % word).testBit u = S.testBit u := by
    rw [word_eq, Nat.testBit_mod_two_pow]
    simp [hu]
  have h2 : (S % word) &&& ((1 <<< (u : Int).toNat) % word) = (S.testBit u).toNat * 2 ^ u := by
    rw [Int.toNat_ofNat, shift_mod_word u hu, Nat.and_two_pow, h1]
  simp only [h2, Option.some.injEq]
  cases hb : S.testBit u
  · simp
  · simp [Nat.two_pow_pos]

theorem IsSet_lt (S : Bitset) (u : Nat) (b : Bool) (h : Bitset.IsSet S (u : Int) = some b) :
    u < 32 := by
  unfold Bitset.IsSet at h
  by_contra hc
  rw [if_pos] at h
  · simp at h
  · omega

theorem IsSet_spec (S : Bitset) (u : Nat) (b : Bool) (h : Bitset.IsSet S (u : Int) = some b) :
    u < 32 ∧ b = S.testBit u := by
  have hu := IsSet_lt S u b h
  rw [IsSet_some S u hu] at h
  simp only [Option.some.injEq] at h
  exact ⟨hu, h.symm⟩

theorem Unset_lt (S : Bitset) (v : Nat) (vwl : Bitset)
    (h : Bitset.Unset S (v : Int) = some vwl) : v < 32 := by
  unfold Bitset.Unset at h
  by_contra hc
  rw [if_pos] at h
  · simp at h
  · omega

theorem Unset_some (S : Bitset) (v : Nat) (hv : v < 32) :
    Bitset.Unset S (v : Int) = some ((S % word) &&& (word - 1 - 2 ^ v)) := by
  unfold Bitset.Unset
  rw [if_neg ((idx_in_range v).2 hv)]
  simp only [Int.toNat_ofNat]
  rw [shift_mod_word v hv]

theorem Unset_spec (S : Bitset) (v : Nat) (vwl : Bitset)
    (h : Bitset.Unset S (v : Int) = some vwl) :
    v < 32 ∧ vwl < word ∧
      ∀ j, vwl.testBit j = (decide (j < 32) && S.testBit j && !decide (j = v)) := by
  have hv := Unset_lt S v vwl h
  rw [Unset_some S v hv] at h
  simp only [Option.some.injEq] at h
  subst h
  refine ⟨hv, ?_, ?_⟩
  · have h1 : S % word < word := Nat.mod_lt _ (by unfold word; decide)
    exact Nat.lt_of_le_of_lt Nat.and_le_left h1
  · intro j
    rw [Nat.testBit_and, testBit_mask v j hv, word_eq, Nat.testBit_mod_two_pow]
    cases decide (j < 32) <;> cases S.testBit j <;> cases decide (j = v) <;> rfl

theorem Unset_le (S : Bitset) (v : Nat) (vwl : Bitset) (hS : S < word)
    (h : Bitset.Unset S (v : Int) = some vwl) : vwl ≤ S := by
  have hv := Unset_lt S v vwl h
  rw [Unset_some S v hv] at h
  simp only [Option.some.injEq] at h
  subst h
  rw [Nat.mod_eq_of_lt hS]
  exact Nat.and_le_left

theorem testBit_of_lt_word (S : Bitset) (hS : S < word) (j : Nat) (h : S.testBit j = true) :
    j < 32 := by
  by_contra hc
  have h1 : S < 2 ^ j :=
    Nat.lt_of_lt_of_le (word_eq ▸ hS) (Nat.pow_le_pow_right (by decide) (by omega))
  rw [Nat.testBit_lt_two_pow h1] at h
  exact absurd h (by simp)

theorem testBit_of_lt_two_pow (S n : Nat) (hS : S < 2 ^ n) (j : Nat)
    (h : S.testBit j = true) : j < n := by
  by_contra hc
  have h1 : S < 2 ^ j := Nat.lt_of_lt_of_le hS (Nat.pow_le_pow_right (by decide) (by omega))
  rw [Nat.testBit_lt_two_pow h1] at h
  exact absurd h (by simp)

/-- On a 32-bit value `Unset` clears bit `v` and keeps the others. -/
theorem Unset_testBit (S : Bitset) (v : Nat) (vwl : Bitset) (hS : S < word)
    (h : Bitset.Unset S (v : Int) = some vwl) (j : Nat) :
    vwl.testBit j = (S.testBit j && !decide (j = v)) := by
  rw [(Unset_spec S v vwl h).2.2 j]
  cases hb : S.testBit j
  · simp
  · have := testBit_of_lt_word S hS j hb
    simp [this]

theorem Unset_lt_of_testBit (S : Bitset) (v : Nat) (vwl : Bitset) (hS : S < word)
    (h : Bitset.Unset S (v : Int) = some vwl) (hv : S.testBit v = true) : vwl < S := by
  have hle := Unset_le S v vwl hS h
  rcases Nat.lt_or_ge vwl S with h1 | h1
  · exact h1
  · have heq : vwl = S := Nat.le_antisymm hle h1
    have h2 := Unset_testBit S v vwl hS h v
    rw [heq, hv] at h2
    simp at h2

theorem Unset_eq_self (S : Bitset) (v : Nat) (vwl : Bitset) (hS : S < word)
    (h : Bitset.Unset S (v : Int) = some vwl) (hv : S.testBit v = false) : vwl = S := by
  apply Nat.eq_of_testBit_eq
  intro j
  rw [Unset_testBit S v vwl hS h j]
  by_cases hj : j = v
  · subst hj; simp [hv]
  · simp [hj]

theorem IsAnySet_eq_false (S : Bitset) : (!Bitset.IsAnySet S) = true ↔ S = 0 := by
  unfold Bitset.IsAnySet
  simp

theorem IsAnySet_eq_true (S : Bitset) : Bitset.IsAnySet S = true ↔ S ≠ 0 := by
  unfold Bitset.IsAnySet
  simp

theorem NewBitsetAllSet_eq (n : Nat) (hn : n ≤ 31) :
    NewBitsetAllSet (n : Int) = some (2 ^ n - 1) := by
  unfold NewBitsetAllSet
  rw [if_neg ((idx_in_range n).2 (by omega))]
  simp only [Int.toNat_ofNat, Option.some.injEq]
  rw [shift_mod_word n (by omega)]
  have h1 : 2 ^ n < word := by
    rw [word_eq]; exact Nat.pow_lt_pow_right (by decide) (by omega)
  have h2 : 0 < 2 ^ n := Nat.two_pow_pos n
  have h3 : 2 ^ n + (word - 1) = (2 ^ n - 1) + word := by omega
  rw [h3, Nat.add_mod_right]
  apply Nat.mod_eq_of_lt
  omega

theorem CountBitArrangements_eq (n : Nat) (hn : n ≤ 31) :
    CountBitArrangements (n : Int) = some ((2 ^ n : Nat) : Int) := by
  unfold CountBitArrangements
  rw [if_neg ((idx_in_range n).2 (by omega))]
  simp only [Int.toNat_ofNat]
  rw [shift_mod_word n (by omega)]

theorem bitCount_le (S n : Nat) (hn : n ≤ 32) (hS : S < 2 ^ n) : bitCount S ≤ n := by
  unfold bitCount
  have hsub : (Finset.range 32).filter (fun i => S.testBit i = true) ⊆ Finset.range n := by
    intro i hi
    simp only [Finset.mem_filter, Finset.mem_range] at hi
    simp only [Finset.mem_range]
    exact testBit_of_lt_two_pow S n hS i hi.2
  calc _ ≤ (Finset.range n).card := Finset.card_le_card hsub
    _ = n := Finset.card_range n

theorem bitCount_unset_lt (S : Bitset) (v : Nat) (vwl : Bitset) (hS : S < word)
    (h : Bitset.Unset S (v : Int) = some vwl) (hv : S.testBit v = true) :
    bitCount vwl < bitCount S := by
  unfold bitCount
  apply Finset.card_lt_card
  rw [Finset.ssubset_iff_of_subset]
  · refine ⟨v, ?_, ?_⟩
    · simp only [Finset.mem_filter, Finset.mem_range]
      exact ⟨Unset_lt S v vwl h, hv⟩
    · simp only [Finset.mem_filter, Finset.mem_range, not_and]
      intro _
      rw [Unset_testBit S v vwl hS h v]
      simp
  · intro i hi
    simp only [Finset.mem_filter, Finset.mem_range] at hi ⊢
    refine ⟨hi.1, ?_⟩
    have h2 := hi.2
    rw [Unset_testBit S v vwl hS h i] at h2
    simp only [Bool.and_eq_true] at h2
    exact h2.1

/-! ## Soundness of `tspDP` -/

theorem Eligible_vwl_unique {start : Nat} {S : Bitset} {v u u' : Nat} {vwl vwl' : Bitset}
    (h : Eligible start S v u vwl) (h' : Eligible start S v u' vwl') : vwl = vwl' := by
  have h1 := h.1
  rw [h'.1] at h1
  simp only [Option.some.injEq] at h1
  exact h1.symm

theorem Eligible_of_test {start : Nat} {S : Bitset} {v u : Nat} {vwl : Bitset} {isSet : Bool}
    (h1 : Bitset.Unset S v = some vwl) (h2 : Bitset.IsSet S u = some isSet)
    (h3 : (isSet || (!Bitset.IsAnySet vwl && decide (u = start))) = true) :
    Eligible start S v u vwl :=
  ⟨h1, isSet, h2, h3⟩

theorem not_Eligible_of_test {start : Nat} {S : Bitset} {v u : Nat} {vwl vwl' : Bitset}
    {isSet : Bool} (h1 : Bitset.Unset S v = some vwl) (h2 : Bitset.IsSet S u = some isSet)
    (h3 : ¬ (isSet || (!Bitset.IsAnySet vwl && decide (u = start))) = true) :
    ¬ Eligible start S v u vwl' := by
  intro h
  obtain ⟨h4, b, h5, h6⟩ := h
  rw [h1] at h4
  simp only [Option.some.injEq] at h4
  subst h4
  rw [h2] at h5
  simp only [Option.some.injEq] at h5
  subst h5
  exact h3 h6

theorem Chain_zero {V : Type} {inc : Nat → Res V (List incomingEdge)} {start v : Nat}
    {p : List Nat} {w : Int} (h : Chain inc start 0 v p w) :
    v = start ∧ p = [start] ∧ w = 0 := by
  cases h with
  | base => exact ⟨rfl, rfl, rfl⟩
  | step h0 _ _ _ _ => exact absurd rfl h0

theorem Chain_nonzero {V : Type} {inc : Nat → Res V (List incomingEdge)} {start : Nat}
    {S : Bitset} {v : Nat} {p : List Nat} {w : Int} (hS : S ≠ 0)
    (h : Chain inc start S v p w) :
    ∃ vwl edges e p' w', inc v = .ok edges ∧ e ∈ edges ∧ Eligible start S v e.FromIdx vwl ∧
      Chain inc start vwl e.FromIdx p' w' ∧ p = p' ++ [v] ∧ w = w' + e.Weight := by
  cases h with
  | base => exact absurd rfl hS
  | step h0 h1 h2 h3 h4 => exact ⟨_, _, _, _, _, h1, h2, h3, h4, rfl, rfl⟩

theorem Opt_unique {V : Type} {inc : Nat → Res V (List incomingEdge)} {start : Nat}
    {S : Bitset} {v : Nat} {w w' : Int} (h : Opt inc start S v w) (h' : Opt inc start S v w') :
    w = w' := by
  obtain ⟨⟨p, hp⟩, hmin⟩ := h
  obtain ⟨⟨p', hp'⟩, hmin'⟩ := h'
  exact Int.le_antisymm (hmin _ _ hp') (hmin' _ _ hp)

theorem Opt_base {V : Type} (inc : Nat → Res V (List incomingEdge)) (start : Nat) :
    Opt inc start 0 start 0 := by
  refine ⟨⟨_, Chain.base⟩, ?_⟩
  intro p' w' h
  rw [(Chain_zero h).2.2]

theorem OptChain_chain {V : Type} {inc : Nat → Res V (List incomingEdge)} {start : Nat}
    {S : Bitset} {v : Nat} {p : List Nat} {w : Int} (h : OptChain inc start S v p w) :
    Chain inc start S v p w := by
  induction h with
  | base => exact Chain.base
  | step h0 h1 h2 h3 _ _ ih => exact Chain.step h0 h1 h2 h3 ih

theorem OptChain_opt {V : Type} {inc : Nat → Res V (List incomingEdge)} {start : Nat}
    {S : Bitset} {v : Nat} {p : List Nat} {w : Int} (h : OptChain inc start S v p w) :
    Opt inc start S v w := by
  cases h with
  | base => exact Opt_base inc start
  | step _ _ _ _ _ h5 => exact h5

theorem minUpdate_cases (result : Option Int) (x w : Int) (h : minUpdate result x = some w) :
    w = x ∨ result = some w := by
  unfold minUpdate at h
  split at h
  · simp only [Option.some.injEq] at h; exact Or.inl h.symm
  · split at h
    · simp only [Option.some.injEq] at h; exact Or.inl h.symm
    · exact Or.inr h

theorem minUpdate_le (result : Option Int) (x : Int) :
    ∃ w, minUpdate result x = some w ∧ w ≤ x ∧ ∀ w0, result = some w0 → w ≤ w0 := by
  unfold minUpdate
  split
  · exact ⟨x, rfl, Int.le_refl _, by intro w0 h; cases h⟩
  · rename_i r
    split
    · rename_i hlt
      refine ⟨x, rfl, Int.le_refl _, ?_⟩
      intro w0 h
      simp only [Option.some.injEq] at h
      omega
    · rename_i hlt
      refine ⟨r, rfl, by omega, ?_⟩
      intro w0 h
      simp only [Option.some.injEq] at h
      omega

theorem MemoExt_refl (memo : Memo) : MemoExt memo memo := fun _ _ _ h => h

theorem MemoExt_trans {m1 m2 m3 : Memo} (h1 : MemoExt m1 m2) (h2 : MemoExt m2 m3) :
    MemoExt m1 m3 := fun S v w h => h2 S v w (h1 S v w h)

theorem LoopInv_nil {V : Type} (inc : Nat → Res V (List incomingEdge)) (start : Nat)
    (S : Bitset) (v : Nat) (memo : Memo) : LoopInv inc start S v memo [] none := by
  constructor
  · intro w h; cases h
  · intro e he; cases he
  · intro e he; cases he

theorem LoopInv_skip {V : Type} {inc : Nat → Res V (List incomingEdge)} {start : Nat}
    {S : Bitset} {v : Nat} {memo memo' : Memo} {done : List incomingEdge}
    {result : Option Int} {e : incomingEdge}
    (hacc : LoopInv inc start S v memo done result) (hext : MemoExt memo memo')
    (hno : ∀ vwl, Eligible start S v e.FromIdx vwl →
      ¬ ∃ p w', Chain inc start vwl e.FromIdx p w') :
    LoopInv inc start S v memo' (done ++ [e]) result := by
  constructor
  · intro w hw
    obtain ⟨e', he', rest⟩ := hacc.attained w hw
    exact ⟨e', List.mem_append_left _ he', rest⟩
  · intro e' he' vwl p w' hel hch
    rcases List.mem_append.1 he' with h | h
    · exact hacc.least e' h vwl p w' hel hch
    · simp only [List.mem_singleton] at h
      subst h
      exact absurd ⟨p, w', hch⟩ (hno vwl hel)
  · intro e' he' vwl hel
    rcases List.mem_append.1 he' with h | h
    · rcases hacc.closed e' h vwl hel with h1 | h1 | h1
      · exact Or.inl h1
      · obtain ⟨w', hw'⟩ := h1
        exact Or.inr (Or.inl ⟨w', hext _ _ _ hw'⟩)
      · exact Or.inr (Or.inr h1)
    · simp only [List.mem_singleton] at h
      subst h
      exact Or.inr (Or.inr (hno vwl hel))

theorem LoopInv_take {V : Type} {inc : Nat → Res V (List incomingEdge)} {start : Nat}
    {S : Bitset} {v : Nat} {memo memo' : Memo} {done : List incomingEdge}
    {result : Option Int} {e : incomingEdge} {vwl : Bitset} {weight : Int}
    (hacc : LoopInv inc start S v memo done result) (hext : MemoExt memo memo')
    (hel : Eligible start S v e.FromIdx vwl) (hopt : Opt inc start vwl e.FromIdx weight)
    (hcell : (vwl = 0 ∧ e.FromIdx = start) ∨ memoCell memo' vwl e.FromIdx = some weight) :
    LoopInv inc start S v memo' (done ++ [e]) (minUpdate result (weight + e.Weight)) := by
  obtain ⟨wm, hwm, hle, hold⟩ := minUpdate_le result (weight + e.Weight)
  constructor
  · intro w hw
    rcases minUpdate_cases _ _ _ hw with h | h
    · obtain ⟨p, hp⟩ := hopt.1
      exact ⟨e, List.mem_append_right _ (List.mem_singleton_self e), vwl, p, weight, hel, hp, h⟩
    · obtain ⟨e', he', rest⟩ := hacc.attained w h
      exact ⟨e', List.mem_append_left _ he', rest⟩
  · intro e' he' vwl' p w' hel' hch
    refine ⟨wm, hwm, ?_⟩
    rcases List.mem_append.1 he' with h | h
    · obtain ⟨w0, hw0, hle0⟩ := hacc.least e' h vwl' p w' hel' hch
      exact Int.le_trans (hold w0 hw0) hle0
    · simp only [List.mem_singleton] at h
      subst h
      have hv := Eligible_vwl_unique hel hel'
      subst hv
      have := hopt.2 p w' hch
      omega
  · intro e' he' vwl' hel'
    rcases List.mem_append.1 he' with h | h
    · rcases hacc.closed e' h vwl' hel' with h1 | h1 | h1
      · exact Or.inl h1
      · obtain ⟨w', hw'⟩ := h1
        exact Or.inr (Or.inl ⟨w', hext _ _ _ hw'⟩)
      · exact Or.inr (Or.inr h1)
    · simp only [List.mem_singleton] at h
      subst h
      have hv := Eligible_vwl_unique hel hel'
      subst hv
      rcases hcell with h1 | h1
      · exact Or.inl h1
      · exact Or.inr (Or.inl ⟨weight, h1⟩)

theorem tspDPLoop_sound {V : Type} {inc : Nat → Res V (List incomingEdge)} {start : Nat}
    {call : DPState → Bitset → Nat → Res V Int × DPState} (hcall : CallSound inc start call)
    (S : Bitset) (v : Nat) (l done : List incomingEdge) (result : Option Int) (st : DPState)
    (r : Res V (Option Int)) (st' : DPState) (hinv : MemoInv inc start st.memo)
    (hacc : LoopInv inc start S v st.memo done result)
    (h : tspDPLoop call start S v l result st = (r, st')) :
    MemoInv inc start st'.memo ∧ MemoExt st.memo st'.memo ∧
      (∀ res, r = .ok res → LoopInv inc start S v st'.memo (done ++ l) res) ∧
      r ≠ .err .ErrNoSolution := by
  induction l generalizing done result st with
  | nil =>
    simp only [tspDPLoop, Prod.mk.injEq] at h
    obtain ⟨h1, h2⟩ := h
    subst h1; subst h2
    refine ⟨hinv, MemoExt_refl _, ?_, by simp⟩
    intro res hres
    simp only [Res.ok.injEq] at hres
    subst hres
    simpa using hacc
  | cons e rest ih =>
    simp only [tspDPLoop] at h
    split at h
    · simp only [Prod.mk.injEq] at h
      obtain ⟨h1, h2⟩ := h
      subst h1; subst h2
      exact ⟨hinv, MemoExt_refl _, by simp, by simp⟩
    · rename_i vwl hun
      split at h
      · simp only [Prod.mk.injEq] at h
        obtain ⟨h1, h2⟩ := h
        subst h1; subst h2
        exact ⟨hinv, MemoExt_refl _, by simp, by simp⟩
      · rename_i isSet his
        split at h
        · rename_i hcond
          have hel : Eligible start S v e.FromIdx vwl := Eligible_of_test hun his hcond
          split at h
          · rename_i weight st1 hc
            obtain ⟨hinv1, hext1, hok, _⟩ := hcall _ _ _ _ _ hinv hc
            obtain ⟨hopt, hcell⟩ := hok weight rfl
            have hacc1 := LoopInv_take hacc hext1 hel hopt hcell
            obtain ⟨a, b, c, d⟩ := ih (done ++ [e]) _ st1 hinv1 hacc1 h
            refine ⟨a, MemoExt_trans hext1 b, ?_, d⟩
            intro res hres
            have := c res hres
            simpa using this
          · rename_i st1 hc
            obtain ⟨hinv1, hext1, _, hno⟩ := hcall _ _ _ _ _ hinv hc
            have hacc1 : LoopInv inc start S v st1.memo (done ++ [e]) result := by
              apply LoopInv_skip hacc hext1
              intro vwl' hel'
              have hv := Eligible_vwl_unique hel hel'
              subst hv
              exact hno rfl
            obtain ⟨a, b, c, d⟩ := ih (done ++ [e]) _ st1 hinv1 hacc1 h
            refine ⟨a, MemoExt_trans hext1 b, ?_, d⟩
            intro res hres
            have := c res hres
            simpa using this
          · rename_i other st1 hne hc
            obtain ⟨hinv1, hext1, _, _⟩ := hcall _ _ _ _ _ hinv hc
            simp only [Prod.mk.injEq] at h
            obtain ⟨h1, h2⟩ := h
            subst h1; subst h2
            refine ⟨hinv1, hext1, by simp, ?_⟩
            intro hc2
            simp only [Res.err.injEq] at hc2
            exact hne hc2
          · rename_i p st1 hc
            obtain ⟨hinv1, hext1, _, _⟩ := hcall _ _ _ _ _ hinv hc
            simp only [Prod.mk.injEq] at h
            obtain ⟨h1, h2⟩ := h
            subst h1; subst h2
            exact ⟨hinv1, hext1, by simp, by simp⟩
          · rename_i st1 hc
            obtain ⟨hinv1, hext1, _, _⟩ := hcall _ _ _ _ _ hinv hc
            simp only [Prod.mk.injEq] at h
            obtain ⟨h1, h2⟩ := h
            subst h1; subst h2
            exact ⟨hinv1, hext1, by simp, by simp⟩
        · rename_i hcond
          have hacc1 : LoopInv inc start S v st.memo (done ++ [e]) result := by
            apply LoopInv_skip hacc (MemoExt_refl _)
            intro vwl' hel'
            exact absurd hel' (not_Eligible_of_test hun his hcond)
          obtain ⟨a, b, c, d⟩ := ih (done ++ [e]) _ st hinv hacc1 h
          refine ⟨a, b, ?_, d⟩
          intro res hres
          have := c res hres
          simpa using this

/-! ## The memo table -/

theorem memoLookup_cell (memo : Memo) (S : Bitset) (v : Nat) (w : Int)
    (h : memoLookup memo S v = some (some w)) : memoCell memo S v = some w := by
  unfold memoLookup at h
  unfold memoCell
  split at h
  · simp at h
  · simp at h
  · rename_i row hrow
    rw [hrow]
    simp only
    split at h
    · simp at h
    · rename_i cell hcell
      simp only [Option.some.injEq] at h
      subst h
      rw [hcell]

theorem memoLookup_none_cell (memo : Memo) (S : Bitset) (v : Nat)
    (h : memoLookup memo S v = some none) : memoCell memo S v = none := by
  unfold memoLookup at h
  unfold memoCell
  split at h
  · simp at h
  · rename_i hrow
    rw [hrow]
  · rename_i row hrow
    rw [hrow]
    simp only
    split at h
    · simp at h
    · rename_i cell hcell
      simp only [Option.some.injEq] at h
      subst h
      rw [hcell]

theorem memoCell_store (memo : Memo) (n : Nat) (S : Bitset) (v : Nat) (w : Int) (memo' : Memo)
    (h : memoStore memo n S v w = some memo') (S' : Bitset) (v' : Nat) :
    memoCell memo' S' v' = if S' = S ∧ v' = v then some w else memoCell memo S' v' := by
  unfold memoStore at h
  split at h
  · simp at h
  · rename_i rowOpt hrow
    simp only at h
    split at h
    · rename_i hlt
      simp only [Option.some.injEq] at h
      subst h
      have hS : S < memo.length := by
        by_contra hc
        have hnone : memo[S]? = none := List.getElem?_eq_none (Nat.le_of_not_lt hc)
        rw [hnone] at hrow
        simp at hrow
      by_cases hSS : S' = S
      · subst hSS
        unfold memoCell
        rw [List.getElem?_set, if_pos rfl, if_pos hS, hrow]
        simp only
        by_cases hvv : v' = v
        · subst hvv
          rw [List.getElem?_set, if_pos rfl, if_pos hlt]
          simp
        · have hvv2 : ¬ v = v' := fun e => hvv e.symm
          rw [List.getElem?_set, if_neg hvv2]
          simp only [hvv, and_false, if_false]
          cases rowOpt with
          | none =>
            simp only
            rw [List.getElem?_replicate]
            by_cases hvn : v' < n <;> simp [hvn]
          | some row => rfl
      · have hSS2 : ¬ S = S' := fun e => hSS e.symm
        unfold memoCell
        rw [List.getElem?_set, if_neg hSS2]
        simp [hSS]
    · simp at h

theorem memoStore_zeroRow (memo : Memo) (n : Nat) (S : Bitset) (v : Nat) (w : Int)
    (memo' : Memo) (h : memoStore memo n S v w = some memo') (hS : S ≠ 0) :
    memo'[0]? = memo[0]? := by
  unfold memoStore at h
  split at h
  · simp at h
  · simp only at h
    split at h
    · simp only [Option.some.injEq] at h
      subst h
      rw [List.getElem?_set, if_neg hS]
    · simp at h

/-! ## Soundness of `tspDP` -/

/-- Whatever the fuel and the state, a call of `tspDP` on a memo table that satisfies
the invariant keeps the invariant and only adds cells; a weight it returns is the least
chain weight of the state, and it is stored in the memo table unless the state is the
base case; and it reports no solution only for a state without chain. -/
theorem tspDP_sound {V : Type} (n : Nat) (inc : Nat → Res V (List incomingEdge))
    (start : Nat) (fuel : Nat) : CallSound inc start (tspDP n inc start fuel) := by
  induction fuel with
  | zero =>
    intro st S v r st' hinv h
    simp only [tspDP, Prod.mk.injEq] at h
    obtain ⟨h1, h2⟩ := h
    subst h1; subst h2
    exact ⟨hinv, MemoExt_refl _, by simp, by simp⟩
  | succ fuel ih =>
    intro st S v r st' hinv h
    simp only [tspDP] at h
    split at h
    · rename_i hzero
      have hS : S = 0 := (IsAnySet_eq_false S).1 hzero
      split at h
      · simp only [Prod.mk.injEq] at h
        obtain ⟨h1, h2⟩ := h
        subst h1; subst h2
        exact ⟨hinv, MemoExt_refl _, by simp, by simp⟩
      · rename_i hv
        have hv2 : v = start := not_not.1 hv
        simp only [Prod.mk.injEq] at h
        obtain ⟨h1, h2⟩ := h
        subst h1; subst h2
        refine ⟨hinv, MemoExt_refl _, ?_, by simp⟩
        intro w hw
        simp only [Res.ok.injEq] at hw
        subst hw
        subst hS
        subst hv2
        exact ⟨Opt_base inc v, Or.inl ⟨rfl, rfl⟩⟩
    · rename_i hnz
      have hS : S ≠ 0 := fun hc => hnz ((IsAnySet_eq_false S).2 hc)
      split at h
      · simp only [Prod.mk.injEq] at h
        obtain ⟨h1, h2⟩ := h
        subst h1; subst h2
        exact ⟨hinv, MemoExt_refl _, by simp, by simp⟩
      · rename_i w hlook
        simp only [Prod.mk.injEq] at h
        obtain ⟨h1, h2⟩ := h
        subst h1; subst h2
        refine ⟨hinv, MemoExt_refl _, ?_, by simp⟩
        intro w' hw
        simp only [Res.ok.injEq] at hw
        subst hw
        have hcell := memoLookup_cell _ _ _ _ hlook
        exact ⟨hinv.valid _ _ _ hcell, Or.inr hcell⟩
      · split at h
        · rename_i e hq
          simp only [Prod.mk.injEq] at h
          obtain ⟨h1, h2⟩ := h
          subst h1; subst h2
          refine ⟨hinv, MemoExt_refl _, by simp, ?_⟩
          intro _ hch
          obtain ⟨p, w, hch⟩ := hch
          obtain ⟨_, edges, _, _, _, hinc, _⟩ := Chain_nonzero hS hch
          rw [hq] at hinc
          simp at hinc
        · simp only [Prod.mk.injEq] at h
          obtain ⟨h1, h2⟩ := h
          subst h1; subst h2
          exact ⟨hinv, MemoExt_refl _, by simp, by simp⟩
        · simp only [Prod.mk.injEq] at h
          obtain ⟨h1, h2⟩ := h
          subst h1; subst h2
          exact ⟨hinv, MemoExt_refl _, by simp, by simp⟩
        · rename_i edges hq
          have hloop := fun rl st1 => tspDPLoop_sound (V := V) ih S v edges [] none
            ⟨st.memo, st.queries ++ [v]⟩ rl st1 hinv (LoopInv_nil inc start S v _)
          simp only [List.nil_append] at hloop
          split at h
          · rename_i e st1 hl
            obtain ⟨a, b, _, d⟩ := hloop _ _ hl
            simp only [Prod.mk.injEq] at h
            obtain ⟨h1, h2⟩ := h
            subst h1; subst h2
            refine ⟨a, b, by simp, ?_⟩
            intro hc
            simp only [Res.err.injEq] at hc
            subst hc
            exact absurd rfl d
          · rename_i p st1 hl
            obtain ⟨a, b, _, _⟩ := hloop _ _ hl
            simp only [Prod.mk.injEq] at h
            obtain ⟨h1, h2⟩ := h
            subst h1; subst h2
            exact ⟨a, b, by simp, by simp⟩
          · rename_i st1 hl
            obtain ⟨a, b, _, _⟩ := hloop _ _ hl
            simp only [Prod.mk.injEq] at h
            obtain ⟨h1, h2⟩ := h
            subst h1; subst h2
            exact ⟨a, b, by simp, by simp⟩
          · rename_i st1 hl
            obtain ⟨a, b, c, _⟩ := hloop _ _ hl
            have hacc := c none rfl
            simp only [Prod.mk.injEq] at h
            obtain ⟨h1, h2⟩ := h
            subst h1; subst h2
            refine ⟨a, b, by simp, ?_⟩
            intro _ hch
            obtain ⟨p, w, hch⟩ := hch
            obtain ⟨vwl, edges', e, p', w', hinc, he, hel, hch', _, _⟩ := Chain_nonzero hS hch
            rw [hq] at hinc
            simp only [Res.ok.injEq] at hinc
            subst hinc
            obtain ⟨w0, hw0, _⟩ := hacc.least e he vwl p' w' hel hch'
            simp at hw0
          · rename_i result st1 hl
            obtain ⟨a, b, c, _⟩ := hloop _ _ hl
            have hacc := c (some result) rfl
            have hopt : Opt inc start S v result := by
              constructor
              · obtain ⟨e, he, vwl, p, w', hel, hch, hw⟩ := hacc.attained result rfl
                rw [hw]
                exact ⟨_, Chain.step hS hq he hel hch⟩
              · intro p' w' hch
                obtain ⟨vwl, edges', e, p'', w'', hinc, he, hel, hch', _, hw⟩ :=
                  Chain_nonzero hS hch
                rw [hq] at hinc
                simp only [Res.ok.injEq] at hinc
                subst hinc
                obtain ⟨w0, hw0, hle⟩ := hacc.least e he vwl p'' w'' hel hch'
                simp only [Option.some.injEq] at hw0
                omega
            split at h
            · simp only [Prod.mk.injEq] at h
              obtain ⟨h1, h2⟩ := h
              subst h1; subst h2
              exact ⟨a, b, by simp, by simp⟩
            · rename_i memo' hstore
              simp only [Prod.mk.injEq] at h
              obtain ⟨h1, h2⟩ := h
              subst h1; subst h2
              have hcell := memoCell_store _ _ _ _ _ _ hstore
              have hext1 : MemoExt st1.memo memo' := by
                intro S' v' w' hw'
                rw [hcell]
                split
                · rename_i heq
                  obtain ⟨e1, e2⟩ := heq
                  subst e1; subst e2
                  rw [Opt_unique hopt (a.valid _ _ _ hw')]
                · exact hw'
              have hclosedNew : ∀ edges2, inc v = .ok edges2 → ∀ e ∈ edges2, ∀ vwl,
                  Eligible start S v e.FromIdx vwl →
                  (vwl = 0 ∧ e.FromIdx = start) ∨
                    (∃ w', memoCell memo' vwl e.FromIdx = some w') ∨
                    ¬ ∃ p w', Chain inc start vwl e.FromIdx p w' := by
                intro edges2 hinc e he vwl hel
                rw [hq] at hinc
                simp only [Res.ok.injEq] at hinc
                subst hinc
                rcases hacc.closed e he vwl hel with h1 | h1 | h1
                · exact Or.inl h1
                · obtain ⟨w', hw'⟩ := h1
                  exact Or.inr (Or.inl ⟨w', hext1 _ _ _ hw'⟩)
                · exact Or.inr (Or.inr h1)
              refine ⟨?_, MemoExt_trans b hext1, ?_, by simp⟩
              · constructor
                · intro row
                  rw [memoStore_zeroRow _ _ _ _ _ _ hstore hS]
                  exact a.zeroRow row
                · intro S' v' w' hw'
                  rw [hcell] at hw'
                  split at hw'
                  · rename_i heq
                    obtain ⟨e1, e2⟩ := heq
                    subst e1; subst e2
                    simp only [Option.some.injEq] at hw'
                    subst hw'
                    exact hopt
                  · exact a.valid _ _ _ hw'
                · intro S' v' w' hw' edges2 hinc e he vwl hel
                  rw [hcell] at hw'
                  split at hw'
                  · rename_i heq
                    obtain ⟨e1, e2⟩ := heq
                    subst e1; subst e2
                    exact hclosedNew edges2 hinc e he vwl hel
                  · rcases a.closed _ _ _ hw' edges2 hinc e he vwl hel with h1 | h1 | h1
                    · exact Or.inl h1
                    · obtain ⟨w2, hw2⟩ := h1
                      exact Or.inr (Or.inl ⟨w2, hext1 _ _ _ hw2⟩)
                    · exact Or.inr (Or.inr h1)
              · intro w hw
                simp only [Res.ok.injEq] at hw
                subst hw
                refine ⟨hopt, Or.inr ?_⟩
                rw [hcell]
                simp

/-! ## Soundness of `tspDPPath` -/

theorem prevWeightOf_cases {V : Type} {inc : Nat → Res V (List incomingEdge)} {start : Nat}
    {memo : Memo} (hinv : MemoInv inc start memo) (vwl : Bitset) (u : Nat) (pw : Int)
    (h : prevWeightOf memo vwl u = some (some pw)) :
    (vwl = 0 ∧ pw = 0) ∨ (vwl ≠ 0 ∧ memoCell memo vwl u = some pw) := by
  unfold prevWeightOf at h
  split at h
  · simp at h
  · rename_i row hrow
    right
    constructor
    · intro hz
      subst hz
      exact hinv.zeroRow row hrow
    · unfold memoCell
      rw [hrow]
      simp only
      split at h
      · simp at h
      · rename_i cell hcell
        simp only [Option.some.injEq] at h
        subst h
        rw [hcell]
  · split at h
    · rename_i hz
      simp only [Option.some.injEq] at h
      exact Or.inl ⟨(IsAnySet_eq_false vwl).1 hz, h.symm⟩
    · simp at h

theorem PathLoopInv_skip {start : Nat} {S : Bitset} {v : Nat} {memo : Memo}
    {done : List incomingEdge} {pv : Bitset} {pl : Nat} {mw : Option Int} {e : incomingEdge}
    (hacc : PathLoopInv start S v memo done pv pl mw)
    (hno : ∀ vwl, ¬ Eligible start S v e.FromIdx vwl) :
    PathLoopInv start S v memo (done ++ [e]) pv pl mw := by
  constructor
  · intro m hm
    obtain ⟨e', he', rest⟩ := hacc.chosen m hm
    exact ⟨e', List.mem_append_left _ he', rest⟩
  · intro e' he' vwl hel
    rcases List.mem_append.1 he' with h | h
    · exact hacc.least e' h vwl hel
    · simp only [List.mem_singleton] at h
      subst h
      exact absurd hel (hno vwl)
  · exact hacc.untouched

theorem tspDPPathLoop_sound {V : Type} (memo : Memo) (start : Nat) (S : Bitset) (v : Nat)
    (l done : List incomingEdge) (pv : Bitset) (pl : Nat) (mw : Option Int)
    (pv' : Bitset) (pl' : Nat) (mw' : Option Int)
    (hacc : PathLoopInv start S v memo done pv pl mw)
    (h : tspDPPathLoop (V := V) memo start S v l pv pl mw = .ok (pv', pl', mw')) :
    PathLoopInv start S v memo (done ++ l) pv' pl' mw' := by
  induction l generalizing done pv pl mw with
  | nil =>
    simp only [tspDPPathLoop, Res.ok.injEq, Prod.mk.injEq] at h
    obtain ⟨h1, h2, h3⟩ := h
    subst h1; subst h2; subst h3
    simpa using hacc
  | cons e rest ih =>
    have hfin : ∀ pv1 pl1 mw1, PathLoopInv start S v memo (done ++ [e]) pv1 pl1 mw1 →
        tspDPPathLoop (V := V) memo start S v rest pv1 pl1 mw1 = .ok (pv', pl', mw') →
        PathLoopInv start S v memo (done ++ e :: rest) pv' pl' mw' := by
      intro pv1 pl1 mw1 hacc1 h1
      have := ih (done ++ [e]) pv1 pl1 mw1 hacc1 h1
      simpa using this
    simp only [tspDPPathLoop] at h
    split at h
    · simp at h
    · rename_i vwl hun
      split at h
      · simp at h
      · rename_i isSet his
        split at h
        · rename_i hcond
          have hel : Eligible start S v e.FromIdx vwl := Eligible_of_test hun his hcond
          split at h
          · simp at h
          · simp at h
          · rename_i prevWeight hpw
            split at h
            · -- first eligible edge
              apply hfin _ _ _ _ h
              constructor
              · intro m hm
                simp only [Option.some.injEq] at hm
                exact ⟨e, List.mem_append_right _ (List.mem_singleton_self e), hel, rfl,
                  prevWeight, hpw, hm.symm⟩
              · intro e' he' vwl' hel'
                rcases List.mem_append.1 he' with h1 | h1
                · obtain ⟨pw, m, _, hm, _⟩ := hacc.least e' h1 vwl' hel'
                  simp at hm
                · simp only [List.mem_singleton] at h1
                  subst h1
                  have hv := Eligible_vwl_unique hel hel'
                  subst hv
                  exact ⟨prevWeight, _, hpw, rfl, Int.le_refl _⟩
              · intro hc; simp at hc
            · rename_i m0
              split at h
              · rename_i hlt
                apply hfin _ _ _ _ h
                constructor
                · intro m hm
                  simp only [Option.some.injEq] at hm
                  exact ⟨e, List.mem_append_right _ (List.mem_singleton_self e), hel, rfl,
                    prevWeight, hpw, hm.symm⟩
                · intro e' he' vwl' hel'
                  rcases List.mem_append.1 he' with h1 | h1
                  · obtain ⟨pw, m, hp, hm, hle⟩ := hacc.least e' h1 vwl' hel'
                    simp only [Option.some.injEq] at hm
                    subst hm
                    exact ⟨pw, _, hp, rfl, by omega⟩
                  · simp only [List.mem_singleton] at h1
                    subst h1
                    have hv := Eligible_vwl_unique hel hel'
                    subst hv
                    exact ⟨prevWeight, _, hpw, rfl, Int.le_refl _⟩
                · intro hc; simp at hc
              · rename_i hlt
                apply hfin _ _ _ _ h
                constructor
                · intro m hm
                  obtain ⟨e', he', rest'⟩ := hacc.chosen m hm
                  exact ⟨e', List.mem_append_left _ he', rest'⟩
                · intro e' he' vwl' hel'
                  rcases List.mem_append.1 he' with h1 | h1
                  · exact hacc.least e' h1 vwl' hel'
                  · simp only [List.mem_singleton] at h1
                    subst h1
                    have hv := Eligible_vwl_unique hel hel'
                    subst hv
                    exact ⟨prevWeight, m0, hpw, rfl, by omega⟩
                · intro hc; simp at hc
        · rename_i hcond
          apply hfin _ _ _ _ h
          apply PathLoopInv_skip hacc
          intro vwl' hel'
          exact absurd hel' (not_Eligible_of_test hun his hcond)

theorem PathLoopInv_nil (start : Nat) (S : Bitset) (v : Nat) (memo : Memo) :
    PathLoopInv start S v memo [] 0 0 none := by
  constructor
  · intro m hm; cases hm
  · intro e he; cases he
  · intro _; exact ⟨rfl, rfl⟩

/-- On a memo table that satisfies the invariant, a path that `tspDPPath` returns from a
state with a memo cell (or from the base case) is a chain of least weight all along. -/
theorem tspDPPath_sound {V : Type} (memo : Memo) (inc : Nat → Res V (List incomingEdge))
    (start : Nat) (hinv : MemoInv inc start memo) (fuel : Nat) (q : List Nat) (S : Bitset)
    (v : Nat) (p : List Nat) (q' : List Nat)
    (hpre : S = 0 ∨ ∃ w, memoCell memo S v = some w)
    (h : tspDPPath memo inc start fuel q S v = (.ok p, q')) :
    ∃ w, OptChain inc start S v p w := by
  induction fuel generalizing q S v p q' with
  | zero => simp [tspDPPath] at h
  | succ fuel ih =>
    simp only [tspDPPath] at h
    split at h
    · rename_i hzero
      have hS : S = 0 := (IsAnySet_eq_false S).1 hzero
      split at h
      · simp at h
      · rename_i hv
        have hv2 : v = start := not_not.1 hv
        simp only [Prod.mk.injEq, Res.ok.injEq] at h
        obtain ⟨h1, _⟩ := h
        subst h1; subst hS; subst hv2
        exact ⟨0, OptChain.base⟩
    · rename_i hnz
      have hS : S ≠ 0 := fun hc => hnz ((IsAnySet_eq_false S).2 hc)
      obtain ⟨wc, hwc⟩ : ∃ w, memoCell memo S v = some w := by
        rcases hpre with h1 | h1
        · exact absurd h1 hS
        · exact h1
      have hoptS := hinv.valid _ _ _ hwc
      split at h
      · simp at h
      · simp at h
      · simp at h
      · rename_i edges hq
        split at h
        · simp at h
        · simp at h
        · simp at h
        · rename_i pv pl mw hl
          have hacc := tspDPPathLoop_sound (V := V) memo start S v edges [] 0 0 none pv pl mw
            (PathLoopInv_nil start S v memo) hl
          simp only [List.nil_append] at hacc
          -- the bound from every eligible edge
          have hbound : ∀ e ∈ edges, ∀ vwl p' w', Eligible start S v e.FromIdx vwl →
              Chain inc start vwl e.FromIdx p' w' → ∃ m, mw = some m ∧ m ≤ w' + e.Weight := by
            intro e he vwl p' w' hel hch
            obtain ⟨pw, m, hp, hm, hle⟩ := hacc.least e he vwl hel
            refine ⟨m, hm, ?_⟩
            rcases prevWeightOf_cases hinv _ _ _ hp with h1 | h1
            · obtain ⟨h2, h3⟩ := h1
              subst h2
              have := (Chain_zero hch).2.2
              omega
            · have := (hinv.valid _ _ _ h1.2).2 p' w' hch
              omega
          obtain ⟨p0, hp0⟩ := hoptS.1
          obtain ⟨vwl0, edges0, e0, p0', w0', hinc0, he0, hel0, hch0, _, _⟩ :=
            Chain_nonzero hS hp0
          rw [hq] at hinc0
          simp only [Res.ok.injEq] at hinc0
          subst hinc0
          obtain ⟨m, hm, _⟩ := hbound e0 he0 vwl0 p0' w0' hel0 hch0
          obtain ⟨e, he, hel, hpl, pw, hpw, hmeq⟩ := hacc.chosen m hm
          split at h
          · rename_i path q1 hrec
            simp only [Prod.mk.injEq, Res.ok.injEq] at h
            obtain ⟨h1, _⟩ := h
            subst h1
            have hcases := prevWeightOf_cases hinv _ _ _ hpw
            have hpre2 : pv = 0 ∨ ∃ w, memoCell memo pv pl = some w := by
              rcases hcases with h1 | h1
              · exact Or.inl h1.1
              · exact Or.inr ⟨pw, h1.2⟩
            obtain ⟨w1, hoc⟩ := ih _ _ _ _ _ hpre2 hrec
            have hw1 : w1 = pw := by
              rcases hcases with h1 | h1
              · obtain ⟨h2, h3⟩ := h1
                subst h2
                have := (Chain_zero (OptChain_chain hoc)).2.2
                omega
              · exact Opt_unique (OptChain_opt hoc) (hinv.valid _ _ _ h1.2)
            subst hw1
            subst hpl
            refine ⟨w1 + e.Weight, OptChain.step hS hq he hel hoc ?_⟩
            constructor
            · exact ⟨_, Chain.step hS hq he hel (OptChain_chain hoc)⟩
            · intro p' w' hch
              obtain ⟨vwl', edges', e', p'', w'', hinc', he', hel', hch', _, hw'⟩ :=
                Chain_nonzero hS hch
              rw [hq] at hinc'
              simp only [Res.ok.injEq] at hinc'
              subst hinc'
              obtain ⟨m', hm', hle'⟩ := hbound e' he' vwl' p'' w'' hel' hch'
              rw [hm] at hm'
              simp only [Option.some.injEq] at hm'
              omega
          · rename_i other hne
            exact absurd h (by
              intro hc
              exact hne _ _ hc)

/-! ## From index paths to vertex sequences -/

theorem int_min?_eq_some (l : List Int) (x : Int) (hx : x ∈ l) (hle : ∀ y ∈ l, x ≤ y) :
    l.min? = some x := by
  have hanti : Std.Antisymm (fun (a b : Int) => a ≤ b) :=
    ⟨fun h1 h2 => Int.le_antisymm h1 h2⟩
  have hiff : l.min? = some x ↔ x ∈ l ∧ ∀ b, b ∈ l → x ≤ b :=
    List.min?_eq_some_iff (fun a => Int.le_refl a)
      (fun a b => by rcases Int.le_total a b with h | h <;> simp [h])
      (fun a b c => by omega)
  exact hiff.2 ⟨hx, hle⟩

theorem convertEdges_ok {V : Type} [DecidableEq V] (m : List (V × Nat)) (b : V)
    (hes : List (HalfEdge V)) (edges : List incomingEdge)
    (h : convertEdges m b hes = .ok edges) :
    List.Forall₂ (fun he e => mapGet m he.Vertex = some e.FromIdx ∧ e.Weight = he.Weight)
      hes edges := by
  induction hes generalizing edges with
  | nil =>
    simp only [convertEdges, Res.ok.injEq] at h
    subst h
    exact List.Forall₂.nil
  | cons x rest ih =>
    simp only [convertEdges] at h
    cases hx : mapGet m x.Vertex with
    | none => rw [hx] at h; simp at h
    | some fromIdx =>
      rw [hx] at h
      simp only at h
      cases hr : convertEdges m b rest with
      | ok l =>
        rw [hr] at h
        simp only [Res.ok.injEq] at h
        subst h
        exact List.Forall₂.cons ⟨hx, rfl⟩ (ih l hr)
      | err e2 => rw [hr] at h; simp at h
      | panic p => rw [hr] at h; simp at h
      | outOfFuel => rw [hr] at h; simp at h

theorem forall₂_mem_right {α β : Type} {R : α → β → Prop} {l1 : List α} {l2 : List β}
    (h : List.Forall₂ R l1 l2) (y : β) (hy : y ∈ l2) : ∃ x ∈ l1, R x y := by
  induction h with
  | nil => cases hy
  | cons hr _ ih =>
    rcases List.mem_cons.1 hy with h1 | h1
    · subst h1
      exact ⟨_, List.mem_cons_self _ _, hr⟩
    · obtain ⟨x, hx, hxy⟩ := ih h1
      exact ⟨x, List.mem_cons_of_mem _ hx, hxy⟩

theorem forall₂_mem_left {α β : Type} {R : α → β → Prop} {l1 : List α} {l2 : List β}
    (h : List.Forall₂ R l1 l2) (x : α) (hx : x ∈ l1) : ∃ y ∈ l2, R x y := by
  induction h with
  | nil => cases hx
  | cons hr _ ih =>
    rcases List.mem_cons.1 hx with h1 | h1
    · subst h1
      exact ⟨_, List.mem_cons_self _ _, hr⟩
    · obtain ⟨y, hy, hxy⟩ := ih h1
      exact ⟨y, List.mem_cons_of_mem _ hy, hxy⟩

theorem getIncomingEdges_ok {V : Type} [DecidableEq V]
    (g : DynamicProgrammingTSPSolverGraph V) (vs : List V) (m : List (V × Nat)) (i : Nat)
    (edges : List incomingEdge) (h : getIncomingEdges g vs m i = .ok edges) :
    ∃ b, vs[i]? = some b ∧
      List.Forall₂ (fun he e => mapGet m he.Vertex = some e.FromIdx ∧ e.Weight = he.Weight)
        (g.GetIncomingEdges b) edges := by
  unfold getIncomingEdges at h
  cases hv : vs[i]? with
  | none => rw [hv] at h; simp at h
  | some b =>
    rw [hv] at h
    exact ⟨b, rfl, convertEdges_ok m b _ _ h⟩

theorem collectVertices_append {V : Type} (vs : List V) (p : List Nat) (v : Nat)
    (seq : List V) (b : V) (h1 : collectVertices vs p = some seq) (h2 : vs[v]? = some b) :
    collectVertices vs (p ++ [v]) = some (seq ++ [b]) := by
  induction p generalizing seq with
  | nil =>
    simp only [collectVertices, Option.some.injEq] at h1
    subst h1
    simp [collectVertices, h2]
  | cons i rest ih =>
    simp only [collectVertices] at h1
    cases hi : vs[i]? with
    | none => rw [hi] at h1; simp at h1
    | some x =>
      rw [hi] at h1
      simp only at h1
      cases hr : collectVertices vs rest with
      | none => rw [hr] at h1; simp at h1
      | some l =>
        rw [hr] at h1
        simp only [Option.some.injEq] at h1
        subst h1
        have h3 : collectVertices vs (rest.append [v]) = some (l ++ [b]) := ih l hr
        simp only [List.cons_append, collectVertices, hi]
        rw [h3]

theorem consecutivePairs_append_singleton {α : Type} (seq : List α) (a b : α)
    (h : seq.getLast? = some a) :
    consecutivePairs (seq ++ [b]) = consecutivePairs seq ++ [(a, b)] := by
  induction seq with
  | nil => simp at h
  | cons x rest ih =>
    cases rest with
    | nil =>
      simp only [List.getLast?_singleton, Option.some.injEq] at h
      subst h
      simp [consecutivePairs]
    | cons y r =>
      rw [List.getLast?_cons_cons] at h
      have := ih h
      simp only [consecutivePairs, List.cons_append, List.tail_cons, List.zip_cons_cons] at this ⊢
      rw [this]

theorem pairsWeight_append {V : Type} [DecidableEq V] (g : DynamicProgrammingTSPSolverGraph V)
    (l1 l2 : List (V × V)) (w1 w2 : Int) (h1 : pairsWeight g l1 = some w1)
    (h2 : pairsWeight g l2 = some w2) : pairsWeight g (l1 ++ l2) = some (w1 + w2) := by
  induction l1 generalizing w1 with
  | nil =>
    simp only [pairsWeight, Option.some.injEq] at h1
    subst h1
    simpa using h2
  | cons x rest ih =>
    simp only [pairsWeight] at h1
    cases hc : cheapestEdge g x.1 x.2 with
    | none => rw [hc] at h1; simp at h1
    | some c =>
      cases hr : pairsWeight g rest with
      | none => rw [hc, hr] at h1; simp at h1
      | some t =>
        rw [hc, hr] at h1
        simp only [Option.some.injEq] at h1
        subst h1
        have h3 : pairsWeight g (rest.append l2) = some (t + w2) := ih t hr
        simp only [List.cons_append, pairsWeight, hc]
        rw [h3]
        simp only [Option.some.injEq]
        exact (Int.add_assoc c t w2).symm

theorem pairsWeight_singleton {V : Type} [DecidableEq V]
    (g : DynamicProgrammingTSPSolverGraph V) (a b : V) (c : Int)
    (h : cheapestEdge g a b = some c) : pairsWeight g [(a, b)] = some c := by
  simp [pairsWeight, h]

/-- A least-weight chain of indices, read through `vertices`, is a vertex sequence along
edges of the graph whose cheapest edges add up to the weight of the chain. -/
theorem OptChain_realized {V : Type} [DecidableEq V] (g : DynamicProgrammingTSPSolverGraph V)
    (vs : List V) (hnd : vs.Nodup) (si : Nat) (start : V) (hsi : vs[si]? = some start)
    {S : Bitset} {v : Nat} {p : List Nat} {w : Int}
    (h : OptChain (getIncomingEdges g vs (buildVertexIdxMap vs 0 [])) si S v p w) :
    ∃ seq b, collectVertices vs p = some seq ∧ vs[v]? = some b ∧ seq.getLast? = some b ∧
      tourWeight g seq = some w ∧
      ∀ pr ∈ consecutivePairs seq, ∃ e ∈ g.GetIncomingEdges pr.2, e.Vertex = pr.1 := by
  induction h with
  | base =>
    refine ⟨[start], start, ?_, hsi, rfl, ?_, ?_⟩
    · simp [collectVertices, hsi]
    · simp [tourWeight, consecutivePairs, pairsWeight]
    · intro pr hpr
      simp [consecutivePairs] at hpr
  | @step S v vwl edges e p w h0 hinc he hel hoc hopt ih =>
    obtain ⟨seq', a, hcol, ha, hlast, hw, hedges⟩ := ih
    obtain ⟨b, hb, hall⟩ := getIncomingEdges_ok g vs _ v edges hinc
    obtain ⟨he0, he0mem, hmap, hwt⟩ := forall₂_mem_right hall e he
    have hva : he0.Vertex = a := by
      have h1 := (mapGet_vertexIdxMap_iff vs hnd he0.Vertex e.FromIdx).1 hmap
      rw [ha] at h1
      simp only [Option.some.injEq] at h1
      exact h1.symm
    have hcheap : cheapestEdge g a b = some e.Weight := by
      unfold cheapestEdge edgeWeights
      apply int_min?_eq_some
      · rw [List.mem_filterMap]
        exact ⟨he0, he0mem, by simp [hva, hwt]⟩
      · intro y hy
        rw [List.mem_filterMap] at hy
        obtain ⟨he2, he2mem, hy2⟩ := hy
        split at hy2
        · rename_i hv2
          simp only [Option.some.injEq] at hy2
          subst hy2
          obtain ⟨e2, e2mem, hmap2, hwt2⟩ := forall₂_mem_left hall he2 he2mem
          have hfrom : e2.FromIdx = e.FromIdx := by
            rw [hv2, ← hva, hmap] at hmap2
            simp only [Option.some.injEq] at hmap2
            exact hmap2.symm
          have hel2 : Eligible si S v e2.FromIdx vwl := by rw [hfrom]; exact hel
          have hch2 := Chain.step h0 hinc e2mem hel2 (hfrom ▸ OptChain_chain hoc)
          have := hopt.2 _ _ hch2
          omega
        · simp at hy2
    refine ⟨seq' ++ [b], b, collectVertices_append vs p v seq' b hcol hb, hb, by simp, ?_, ?_⟩
    · unfold tourWeight at hw ⊢
      rw [consecutivePairs_append_singleton seq' a b hlast]
      exact pairsWeight_append g _ _ _ _ hw (pairsWeight_singleton g a b _ hcheap)
    · intro pr hpr
      rw [consecutivePairs_append_singleton seq' a b hlast] at hpr
      rcases List.mem_append.1 hpr with h1 | h1
      · exact hedges pr h1
      · simp only [List.mem_singleton] at h1
        subst h1
        exact ⟨he0, he0mem, hva⟩

/-! ## The solver on a graph with pairwise distinct vertices -/

theorem memoCell_replicate (k : Nat) (S : Bitset) (v : Nat) :
    memoCell (List.replicate k none) S v = none := by
  unfold memoCell
  rw [List.getElem?_replicate]
  by_cases h : S < k <;> simp [h]

theorem MemoInv_fresh {V : Type} (inc : Nat → Res V (List incomingEdge)) (start : Nat)
    (k : Nat) : MemoInv inc start (List.replicate k none) := by
  constructor
  · intro row
    rw [List.getElem?_replicate]
    by_cases h : 0 < k <;> simp [h]
  · intro S v w h
    rw [memoCell_replicate] at h
    simp at h
  · intro S v w h
    rw [memoCell_replicate] at h
    simp at h

theorem solverBacktrack_returned_ok {V : Type} (vs : List V)
    (inc : Nat → Res V (List incomingEdge)) (si : Nat) (full : Bitset) (w0 : Int)
    (st : DPState) (w : Int) (seq : List V)
    (h : (solverBacktrack vs inc si full w0 st).outcome = .returned ⟨w, seq, none⟩) :
    ∃ p q', tspDPPath st.memo inc si (solverFuel vs.length) st.queries full si = (.ok p, q') ∧
      collectVertices vs p = some seq ∧ w = w0 := by
  unfold solverBacktrack at h
  split at h
  · simp at h
  · simp at h
  · simp at h
  · rename_i p q hp
    split at h
    · simp at h
    · rename_i seq' hcol
      simp only [Outcome.returned.injEq, SolverReturn.mk.injEq, and_true] at h
      obtain ⟨h1, h2⟩ := h
      subst h1; subst h2
      exact ⟨p, q, hp, hcol, rfl⟩

theorem solverMain_eq {V : Type} [DecidableEq V] (g : DynamicProgrammingTSPSolverGraph V)
    (vs : List V) (s : V) (si : Nat) (hnd : vs.Nodup) (h31 : vs.length ≤ 31)
    (hsi : vs[si]? = some s) :
    solverMain g vs s = solverSearch vs (getIncomingEdges g vs (buildVertexIdxMap vs 0 []))
      si (List.replicate (2 ^ vs.length) none) (2 ^ vs.length - 1) := by
  unfold solverMain
  simp only
  have hlen : (buildVertexIdxMap vs 0 []).length = vs.length :=
    (length_buildVertexIdxMap_iff_nodup vs).2 hnd
  have hget : mapGet (buildVertexIdxMap vs 0 []) s = some si :=
    (mapGet_vertexIdxMap_iff vs hnd s si).2 hsi
  have hc : ((2 ^ vs.length : Nat) : Int).toNat = 2 ^ vs.length := Int.toNat_ofNat _
  rw [if_neg (by simp [hlen]), hget, CountBitArrangements_eq _ h31, NewBitsetAllSet_eq _ h31]
  simp only [hc]

theorem full_lt_word (n : Nat) (hn : n ≤ 31) : 2 ^ n - 1 < word := by
  have h1 : 2 ^ n < word := by
    rw [word_eq]; exact Nat.pow_lt_pow_right (by decide) (by omega)
  exact Nat.lt_of_le_of_lt (Nat.sub_le _ _) h1

theorem full_ne_zero (n : Nat) (h2 : 1 ≤ n) : 2 ^ n - 1 ≠ 0 := by
  have h1 : 2 ^ 1 ≤ 2 ^ n := Nat.pow_le_pow_right (by decide) h2
  omega

theorem full_unset (n si : Nat) (h2 : 2 ≤ n) (hn : n ≤ 31) (hsi : si < n) :
    ∃ vwl, Bitset.Unset (2 ^ n - 1) (si : Int) = some vwl ∧ vwl ≠ 0 ∧ vwl < word ∧
      ∀ j, vwl.testBit j = (decide (j < n) && !decide (j = si)) := by
  have hun := Unset_some (2 ^ n - 1) si (by omega)
  refine ⟨_, hun, ?_, (Unset_spec _ _ _ hun).2.1, ?_⟩
  · intro hz
    have h3 := Unset_testBit _ _ _ (full_lt_word n hn) hun (if si = 0 then 1 else 0)
    rw [hz, Nat.testBit_two_pow_sub_one] at h3
    by_cases h0 : si = 0
    · simp [h0] at h3
      omega
    · simp [h0] at h3
      omega
  · intro j
    rw [Unset_testBit _ _ _ (full_lt_word n hn) hun j, Nat.testBit_two_pow_sub_one]

theorem full_eligible (n si u : Nat) (vwl : Bitset) (hn : n ≤ 31) (hu : u < n)
    (hun : Bitset.Unset (2 ^ n - 1) (si : Int) = some vwl) :
    Eligible si (2 ^ n - 1) si u vwl := by
  refine ⟨hun, true, ?_, by simp⟩
  rw [IsSet_some _ u (by omega), Nat.testBit_two_pow_sub_one]
  simp [hu]

theorem tspDPPath_ok_inc {V : Type} (memo : Memo) (inc : Nat → Res V (List incomingEdge))
    (start : Nat) (fuel : Nat) (q : List Nat) (S : Bitset) (v : Nat) (p : List Nat)
    (q' : List Nat) (hS : S ≠ 0) (h : tspDPPath memo inc start fuel q S v = (.ok p, q')) :
    ∃ edges, inc v = .ok edges := by
  cases fuel with
  | zero => simp [tspDPPath] at h
  | succ fuel =>
    simp only [tspDPPath] at h
    split at h
    · rename_i hzero
      exact absurd ((IsAnySet_eq_false S).1 hzero) hS
    · split at h
      · simp at h
      · simp at h
      · simp at h
      · rename_i edges hq
        exact ⟨edges, hq⟩

/-- When `tspDPPath` returns a path from a state that has an eligible edge into a
non-empty set, the state has a chain. -/
theorem tspDPPath_ok_chain {V : Type} (memo : Memo) (inc : Nat → Res V (List incomingEdge))
    (start : Nat) (hinv : MemoInv inc start memo) (fuel : Nat) (q : List Nat) (S : Bitset)
    (v : Nat) (p : List Nat) (q' : List Nat) (hS : S ≠ 0)
    (h : tspDPPath memo inc start fuel q S v = (.ok p, q'))
    (edges : List incomingEdge) (hq : inc v = .ok edges) (e : incomingEdge) (he : e ∈ edges)
    (vwl : Bitset) (hel : Eligible start S v e.FromIdx vwl) (hvwl : vwl ≠ 0) :
    ∃ p' w', Chain inc start S v p' w' := by
  cases fuel with
  | zero => simp [tspDPPath] at h
  | succ fuel =>
    simp only [tspDPPath] at h
    split at h
    · rename_i hzero
      exact absurd ((IsAnySet_eq_false S).1 hzero) hS
    · rw [hq] at h
      simp only at h
      split at h
      · simp at h
      · simp at h
      · simp at h
      · rename_i pv pl mw hl
        have hacc := tspDPPathLoop_sound (V := V) memo start S v edges [] 0 0 none pv pl mw
          (PathLoopInv_nil start S v memo) hl
        simp only [List.nil_append] at hacc
        obtain ⟨pw, m, hp, _, _⟩ := hacc.least e he vwl hel
        rcases prevWeightOf_cases hinv _ _ _ hp with h1 | h1
        · exact absurd h1.1 hvwl
        · obtain ⟨⟨p0, hp0⟩, _⟩ := hinv.valid _ _ _ h1.2
          exact ⟨_, _, Chain.step hS hq he hel hp0⟩

theorem mem_consecutivePairs_append {α : Type} (l r : List α) (x y : α) :
    (x, y) ∈ consecutivePairs (l ++ x :: y :: r) := by
  induction l with
  | nil => simp [consecutivePairs]
  | cons a rest ih =>
    cases rest with
    | nil =>
      simp [consecutivePairs]
    | cons b rest' =>
      simp only [consecutivePairs, List.cons_append, List.tail_cons, List.zip_cons_cons,
        List.mem_cons] at ih ⊢
      right
      exact ih

theorem edgeWeights_ne_nil {V : Type} [DecidableEq V] (g : DynamicProgrammingTSPSolverGraph V)
    (a b : V) (h : edgeWeights g a b ≠ []) : ∃ e ∈ g.GetIncomingEdges b, e.Vertex = a := by
  obtain ⟨y, hy⟩ := List.exists_mem_of_ne_nil _ h
  unfold edgeWeights at hy
  rw [List.mem_filterMap] at hy
  obtain ⟨e, he, hy2⟩ := hy
  split at hy2
  · rename_i hv
    exact ⟨e, he, hv⟩
  · simp at hy2

/-- A Hamiltonian cycle of a graph with at least two vertices passes through `start`,
which is a vertex, and enters it by an edge from a vertex. -/
theorem cycle_enters_start {V : Type} [DecidableEq V] (g : DynamicProgrammingTSPSolverGraph V)
    (start : V) (cyc : List V) (h2 : 2 ≤ g.GetVertices.length)
    (hcyc : IsHamiltonianCycle g start cyc) :
    start ∈ g.GetVertices ∧
      ∃ a ∈ g.GetVertices, ∃ e ∈ g.GetIncomingEdges start, e.Vertex = a := by
  obtain ⟨hhead, hlast, hperm, hedges⟩ := hcyc
  have hlen : cyc.tail.length = g.GetVertices.length := hperm.length_eq
  obtain ⟨ys, hys⟩ := List.getLast?_eq_some_iff.1 hlast
  cases cyc with
  | nil => simp at hhead
  | cons x tl =>
    simp only [List.tail_cons] at hperm hlen
    simp only [List.head?_cons, Option.some.injEq] at hhead
    subst hhead
    rcases List.eq_nil_or_concat ys with h1 | h1
    · subst h1
      simp only [List.nil_append, List.cons.injEq] at hys
      rw [hys.2] at hlen
      simp at hlen
      omega
    · obtain ⟨zs, b, hzs⟩ := h1
      subst hzs
      rw [List.concat_eq_append, List.append_assoc] at hys
      have hpair : (b, x) ∈ consecutivePairs (x :: tl) := by
        rw [hys]
        exact mem_consecutivePairs_append zs [] b x
      have hxtl : x ∈ tl := by
        have h3 : x ∈ (x :: tl).tail := by
          rw [hys]
          cases zs with
          | nil => simp
          | cons z zs' => simp
        simpa using h3
      have hxv : x ∈ g.GetVertices := hperm.mem_iff.1 hxtl
      have hbc : b ∈ x :: tl := by
        rw [hys]; simp
      have hbv : b ∈ g.GetVertices := by
        rcases List.mem_cons.1 hbc with h4 | h4
        · rw [h4]; exact hxv
        · exact hperm.mem_iff.1 h4
      exact ⟨hxv, b, hbv, edgeWeights_ne_nil g b x (hedges (b, x) hpair)⟩

/-- The solver on exact integers: on a graph with 2 to 31 pairwise distinct vertices and exact integer weights that
has a Hamiltonian cycle through the start vertex, a weight and a sequence that the solver
returns without error fit together: each consecutive pair of the sequence is joined by an
edge of the graph, and the weight is the sum over the consecutive pairs of the cheapest
edge weight. -/
theorem solver_sequence_realizes_weight {V : Type} [DecidableEq V]
    (g : DynamicProgrammingTSPSolverGraph V) (startVertex : V) (cyc : List V) (w : Int)
    (seq : List V) (h2 : 2 ≤ g.GetVertices.length) (h31 : g.GetVertices.length ≤ 31)
    (hnd : g.GetVertices.Nodup) (hcyc : IsHamiltonianCycle g startVertex cyc)
    (hret : (DynamicProgrammingTSPSolver (some g) startVertex).outcome
      = .returned ⟨w, seq, none⟩) :
    (∀ pr ∈ consecutivePairs seq, ∃ e ∈ g.GetIncomingEdges pr.2, e.Vertex = pr.1) ∧
      tourWeight g seq = some w := by
  obtain ⟨hsv, a, hav, he0, he0mem, he0v⟩ := cycle_enters_start g startVertex cyc h2 hcyc
  obtain ⟨si, hsi⟩ := List.getElem?_of_mem hsv
  obtain ⟨ai, hai⟩ := List.getElem?_of_mem hav
  have hsilt : si < g.GetVertices.length := (List.getElem?_eq_some.1 hsi).1
  have hailt : ai < g.GetVertices.length := (List.getElem?_eq_some.1 hai).1
  rw [solver_eq_solverMain g startVertex h2 h31, solverMain_eq g _ startVertex si hnd h31 hsi]
    at hret
  unfold solverSearch at hret
  have hfresh := MemoInv_fresh (getIncomingEdges g g.GetVertices
    (buildVertexIdxMap g.GetVertices 0 [])) si (2 ^ g.GetVertices.length)
  have hfull0 := full_ne_zero g.GetVertices.length (by omega)
  obtain ⟨vwl, hun, hvwl0, _, _⟩ := full_unset g.GetVertices.length si h2 h31 hsilt
  split at hret
  · simp at hret
  · simp at hret
  · -- the forward pass found no solution: the backtracking pass cannot return
    rename_i st hdp
    obtain ⟨hinv, _, _, hno⟩ := tspDP_sound _ _ _ _ _ _ _ _ _ hfresh hdp
    obtain ⟨p, q', hpath, _, _⟩ := solverBacktrack_returned_ok _ _ _ _ _ _ _ _ hret
    exfalso
    apply hno rfl
    -- the edge that enters the start vertex
    obtain ⟨edges, hinc⟩ := tspDPPath_ok_inc _ _ _ _ _ _ _ _ _ hfull0 hpath
    obtain ⟨b, hb, hall⟩ := getIncomingEdges_ok g _ _ si edges hinc
    rw [hsi] at hb
    simp only [Option.some.injEq] at hb
    subst hb
    obtain ⟨e, hemem, hmap, _⟩ := forall₂_mem_left hall he0 he0mem
    have hfrom : e.FromIdx = ai := by
      rw [he0v, (mapGet_vertexIdxMap_iff _ hnd a ai).2 hai] at hmap
      simp only [Option.some.injEq] at hmap
      exact hmap.symm
    have hel := full_eligible g.GetVertices.length si e.FromIdx vwl h31
      (by rw [hfrom]; exact hailt) hun
    exact tspDPPath_ok_chain _ _ _ hinv _ _ _ _ _ _ hfull0 hpath edges hinc e hemem vwl hel
      hvwl0
  · simp at hret
  · rename_i w0 st hdp
    obtain ⟨hinv, _, hok, _⟩ := tspDP_sound _ _ _ _ _ _ _ _ _ hfresh hdp
    obtain ⟨hopt, hcell⟩ := hok w0 rfl
    obtain ⟨p, q', hpath, hcol, hw⟩ := solverBacktrack_returned_ok _ _ _ _ _ _ _ _ hret
    subst hw
    have hpre : 2 ^ g.GetVertices.length - 1 = 0 ∨
        ∃ w', memoCell st.memo (2 ^ g.GetVertices.length - 1) si = some w' := by
      rcases hcell with h1 | h1
      · exact absurd h1.1 hfull0
      · exact Or.inr ⟨_, h1⟩
    obtain ⟨w1, hoc⟩ := tspDPPath_sound _ _ _ hinv _ _ _ _ _ _ hpre hpath
    have hw1 : w1 = w := Opt_unique (OptChain_opt hoc) hopt
    subst hw1
    obtain ⟨seq', b, hcol', _, _, htour, hedges⟩ :=
      OptChain_realized g _ hnd si startVertex hsi hoc
    rw [hcol] at hcol'
    simp only [Option.some.injEq] at hcol'
    subst hcol'
    exact ⟨hedges, htour⟩

/-! ## The fuel is enough -/

theorem bitCount_pos (S : Bitset) (hS : S < word) (h0 : S ≠ 0) : 1 ≤ bitCount S := by
  obtain ⟨i, hi⟩ := Nat.ne_zero_implies_bit_true h0
  unfold bitCount
  apply Finset.card_pos.2
  exact ⟨i, by
    simp only [Finset.mem_filter, Finset.mem_range]
    exact ⟨testBit_of_lt_word S hS i hi, hi⟩⟩

theorem Eligible_depthMeasure {start : Nat} {S : Bitset} {v u : Nat} {vwl : Bitset}
    (hS : S < word) (h0 : S ≠ 0) (hel : Eligible start S v u vwl) :
    vwl < word ∧ depthMeasure vwl u < depthMeasure S v := by
  obtain ⟨hun, isSet, his, hcond⟩ := hel
  have hsp := Unset_spec S v vwl hun
  refine ⟨hsp.2.1, ?_⟩
  obtain ⟨_, hset⟩ := IsSet_spec S u isSet his
  unfold depthMeasure
  cases hv : S.testBit v
  · have heq := Unset_eq_self S v vwl hS hun hv
    subst heq
    have hu : vwl.testBit u = true := by
      rw [← hset]
      cases hb : isSet
      · rw [hb] at hcond
        simp only [Bool.false_or, Bool.and_eq_true, decide_eq_true_eq] at hcond
        exact absurd ((IsAnySet_eq_false vwl).1 hcond.1) h0
      · rfl
    simp [hu]
  · have hlt := bitCount_unset_lt S v vwl hS hun hv
    simp only [if_true]
    split <;> omega

theorem tspDPLoop_fuel {V : Type} (call : DPState → Bitset → Nat → Res V Int × DPState)
    (start : Nat) (S : Bitset) (v : Nat) (hS : S < word) (h0 : S ≠ 0)
    (hcall : ∀ st vwl u, vwl < word → depthMeasure vwl u < depthMeasure S v →
      (call st vwl u).1 ≠ .outOfFuel)
    (l : List incomingEdge) (result : Option Int) (st : DPState) :
    (tspDPLoop call start S v l result st).1 ≠ .outOfFuel := by
  induction l generalizing result st with
  | nil => simp [tspDPLoop]
  | cons e rest ih =>
    simp only [tspDPLoop]
    split
    · simp
    · rename_i vwl hun
      split
      · simp
      · rename_i isSet his
        split
        · rename_i hcond
          have hel : Eligible start S v e.FromIdx vwl := Eligible_of_test hun his hcond
          obtain ⟨hw, hm⟩ := Eligible_depthMeasure hS h0 hel
          have hc := hcall st vwl e.FromIdx hw hm
          split
          · exact ih _ _
          · exact ih _ _
          · simp
          · simp
          · rename_i st1 heq
            rw [heq] at hc
            exact absurd rfl hc
        · exact ih _ _

/-- With more fuel than the depth measure of the state, `tspDP` does not run out of
fuel. -/
theorem tspDP_fuel {V : Type} (n : Nat) (inc : Nat → Res V (List incomingEdge)) (start : Nat)
    (hinc : ∀ i, inc i ≠ .outOfFuel) (fuel : Nat) (st : DPState) (S : Bitset) (v : Nat)
    (hS : S < word) (hfuel : depthMeasure S v < fuel) :
    (tspDP n inc start fuel st S v).1 ≠ .outOfFuel := by
  induction fuel generalizing st S v with
  | zero => omega
  | succ fuel ih =>
    simp only [tspDP]
    split
    · split <;> simp
    · rename_i hnz
      have h0 : S ≠ 0 := fun hc => hnz ((IsAnySet_eq_false S).2 hc)
      split
      · simp
      · simp
      · split
        · simp
        · simp
        · rename_i hq
          exact absurd hq (hinc v)
        · rename_i edges hq
          have hloop := tspDPLoop_fuel (tspDP n inc start fuel) start S v hS h0
            (fun st1 vwl u hw hm => ih st1 vwl u hw (by omega)) edges none
            ⟨st.memo, st.queries ++ [v]⟩
          split
          · simp
          · simp
          · rename_i st1 heq
            rw [heq] at hloop
            exact absurd rfl hloop
          · simp
          · split <;> simp

/-- With more fuel than the depth measure of the state, `tspDPPath` does not run out of
fuel. -/
theorem tspDPPath_fuel {V : Type} (memo : Memo) (inc : Nat → Res V (List incomingEdge))
    (start : Nat) (hinc : ∀ i, inc i ≠ .outOfFuel) (fuel : Nat) (q : List Nat) (S : Bitset)
    (v : Nat) (hS : S < word) (hfuel : depthMeasure S v < fuel) :
    (tspDPPath memo inc start fuel q S v).1 ≠ .outOfFuel := by
  induction fuel generalizing q S v with
  | zero => omega
  | succ fuel ih =>
    simp only [tspDPPath]
    split
    · split <;> simp
    · rename_i hnz
      have h0 : S ≠ 0 := fun hc => hnz ((IsAnySet_eq_false S).2 hc)
      split
      · simp
      · simp
      · rename_i hq
        exact absurd hq (hinc v)
      · rename_i edges hq
        split
        · simp
        · simp
        · rename_i hl
          exact absurd hl (tspDPPathLoop_not_err _ _ _ _ _ _ _ _).2
        · rename_i pv pl mw hl
          have hacc := tspDPPathLoop_sound (V := V) memo start S v edges [] 0 0 none pv pl mw
            (PathLoopInv_nil start S v memo) hl
          have hnext : pv < word ∧ depthMeasure pv pl < fuel := by
            cases hmw : mw with
            | none =>
              obtain ⟨h1, h2⟩ := hacc.untouched hmw
              subst h1; subst h2
              have hb := bitCount_pos S hS h0
              refine ⟨by unfold word; decide, ?_⟩
              have h3 : depthMeasure 0 0 = 1 := by decide
              unfold depthMeasure at hfuel
              omega
            | some m =>
              obtain ⟨e, _, hel, hpl, _⟩ := hacc.chosen m hmw
              subst hpl
              obtain ⟨hw, hm⟩ := Eligible_depthMeasure hS h0 hel
              exact ⟨hw, by omega⟩
          have hrec := ih (q ++ [v]) pv pl hnext.1 hnext.2
          split
          · simp
          · rename_i other hne
            exact hrec

theorem depthMeasure_full (n : Nat) (hn : n ≤ 31) (v : Nat) :
    depthMeasure (2 ^ n - 1) v < solverFuel n := by
  have h1 : 2 ^ n - 1 < 2 ^ n := Nat.sub_lt (Nat.two_pow_pos n) (by decide)
  have h2 := bitCount_le (2 ^ n - 1) n (by omega) h1
  unfold depthMeasure solverFuel
  split <;> omega

theorem solverSearch_not_outOfFuel {V : Type} (vs : List V)
    (inc : Nat → Res V (List incomingEdge)) (si : Nat) (memo : Memo)
    (hinc : ∀ i, inc i ≠ .outOfFuel) (h31 : vs.length ≤ 31) :
    (solverSearch vs inc si memo (2 ^ vs.length - 1)).outcome ≠ .outOfFuel := by
  have hback : ∀ w st,
      (solverBacktrack vs inc si (2 ^ vs.length - 1) w st).outcome ≠ .outOfFuel := by
    intro w st
    have hp := tspDPPath_fuel st.memo inc si hinc (solverFuel vs.length) st.queries _ si
      (full_lt_word _ h31) (depthMeasure_full _ h31 si)
    unfold solverBacktrack
    split
    · simp
    · rename_i heq
      rw [heq] at hp
      exact absurd rfl hp
    · simp
    · split <;> simp
  have hdp := tspDP_fuel vs.length inc si hinc (solverFuel vs.length) ⟨memo, []⟩
    _ si (full_lt_word _ h31) (depthMeasure_full _ h31 si)
  unfold solverSearch
  split
  · simp
  · rename_i heq
    rw [heq] at hdp
    exact absurd rfl hdp
  · exact hback _ _
  · simp
  · exact hback _ _

/-- The solver never runs out of fuel: every call of it returns or panics. -/
theorem solver_not_outOfFuel {V : Type} [DecidableEq V]
    (g : Option (DynamicProgrammingTSPSolverGraph V)) (startVertex : V) :
    (DynamicProgrammingTSPSolver g startVertex).outcome ≠ .outOfFuel := by
  unfold DynamicProgrammingTSPSolver
  split
  · simp
  · rename_i g
    simp only
    split
    · simp
    · split
      · simp
      · split
        · simp
        · rename_i hle
          have h31 : g.GetVertices.length ≤ 31 := by
            unfold MaxInputVertices at hle; omega
          unfold solverMain
          simp only
          rw [CountBitArrangements_eq _ h31, NewBitsetAllSet_eq _ h31]
          simp only
          split
          · simp
          · split
            · simp
            · exact solverSearch_not_outOfFuel _ _ _ _
                (getIncomingEdges_not_outOfFuel g g.GetVertices _) h31

/-! ## No panic and no error without self-loops -/

theorem GoodState_lt_word {n start : Nat} {S : Bitset} {v : Nat} (hn : n ≤ 31)
    (h : GoodState n start S v) : S < word ∧ v < 32 ∧ S ≠ 0 := by
  obtain ⟨h1, h2, h3, _⟩ := h
  refine ⟨?_, by omega, ?_⟩
  · rw [word_eq]
    exact Nat.lt_of_lt_of_le h1 (Nat.pow_le_pow_right (by decide) (by omega))
  · intro hz
    rw [hz] at h3
    simp at h3

theorem GoodState_full (n start : Nat) (hstart : start < n) :
    GoodState n start (2 ^ n - 1) start := by
  refine ⟨Nat.sub_lt (Nat.two_pow_pos n) (by decide), hstart, ?_, fun _ => ⟨rfl, rfl⟩⟩
  rw [Nat.testBit_two_pow_sub_one]
  simp [hstart]

theorem Eligible_cases {n start : Nat} {S : Bitset} {v u : Nat} {vwl : Bitset}
    (hS : S < word) (hel : Eligible start S v u vwl) (huv : u ≠ v) :
    (S.testBit u = true ∧ vwl.testBit u = true) ∨
      (S.testBit u = false ∧ vwl = 0 ∧ u = start) := by
  obtain ⟨hun, isSet, his, hcond⟩ := hel
  obtain ⟨_, hset⟩ := IsSet_spec S u isSet his
  subst hset
  cases hb : S.testBit u
  · right
    rw [hb] at hcond
    simp only [Bool.false_or, Bool.and_eq_true, decide_eq_true_eq] at hcond
    exact ⟨rfl, (IsAnySet_eq_false vwl).1 hcond.1, hcond.2⟩
  · left
    refine ⟨rfl, ?_⟩
    rw [Unset_testBit S v vwl hS hun u, hb]
    simp [huv]

theorem GoodState_next {n start : Nat} {S : Bitset} {v u : Nat} {vwl : Bitset} (hn : n ≤ 31)
    (hgood : GoodState n start S v) (hel : Eligible start S v u vwl) (hu : u < n)
    (huv : u ≠ v) : GoodState n start vwl u ∨ (vwl = 0 ∧ u = start) := by
  obtain ⟨hSw, _, _⟩ := GoodState_lt_word hn hgood
  obtain ⟨h1, h2, h3, h4⟩ := hgood
  rcases Eligible_cases (n := n) hSw hel huv with hc | hc
  · left
    refine ⟨Nat.lt_of_le_of_lt (Unset_le S v vwl hSw hel.1) h1, hu, hc.2, ?_⟩
    intro hs
    rw [Unset_testBit S v vwl hSw hel.1 start] at hs
    simp only [Bool.and_eq_true, Bool.not_eq_true', decide_eq_false_iff_not] at hs
    exact absurd (h4 hs.1).2.symm hs.2
  · exact Or.inr hc.2

theorem MemoShape_lookup {n : Nat} {memo : Memo} (hshape : MemoShape n memo) (S : Bitset)
    (v : Nat) (hS : S < 2 ^ n) (hv : v < n) : memoLookup memo S v ≠ none := by
  unfold memoLookup
  have hlt : S < memo.length := by rw [hshape.1]; exact hS
  cases hm : memo[S]? with
  | none =>
    rw [List.getElem?_eq_getElem hlt] at hm
    simp at hm
  | some rowOpt =>
    cases rowOpt with
    | none => simp
    | some row =>
      have hlen := hshape.2 S row hm
      simp only
      rw [List.getElem?_eq_getElem (by omega)]
      simp

theorem MemoShape_set {n : Nat} {memo : Memo} (hshape : MemoShape n memo) (S : Bitset)
    (row : List (Option Int)) (hrow : row.length = n) :
    MemoShape n (memo.set S (some row)) := by
  constructor
  · rw [List.length_set]
    exact hshape.1
  · intro S' row' hrow'
    rw [List.getElem?_set] at hrow'
    split at hrow'
    · split at hrow'
      · simp only [Option.some.injEq] at hrow'
        subst hrow'
        exact hrow
      · simp at hrow'
    · exact hshape.2 S' row' hrow'

theorem MemoShape_store {n : Nat} {memo : Memo} (hshape : MemoShape n memo) (S : Bitset)
    (v : Nat) (w : Int) (hS : S < 2 ^ n) (hv : v < n) :
    ∃ memo', memoStore memo n S v w = some memo' ∧ MemoShape n memo' := by
  unfold memoStore
  have hlt : S < memo.length := by rw [hshape.1]; exact hS
  cases hm : memo[S]? with
  | none =>
    rw [List.getElem?_eq_getElem hlt] at hm
    simp at hm
  | some rowOpt =>
    cases rowOpt with
    | none =>
      simp only
      rw [if_pos (by simp; exact hv)]
      exact ⟨_, rfl, MemoShape_set hshape S _ (by simp)⟩
    | some row =>
      have hlen := hshape.2 S row hm
      simp only
      rw [if_pos (by omega)]
      exact ⟨_, rfl, MemoShape_set hshape S _ (by simp [hlen])⟩

theorem tspDPLoop_safe {V : Type} {n start : Nat}
    {call : DPState → Bitset → Nat → Res V Int × DPState} (hn : n ≤ 31)
    (hcall : CallSafe n start call) (S : Bitset) (v : Nat) (hgood : GoodState n start S v)
    (l : List incomingEdge) (hl : ∀ e ∈ l, e.FromIdx < n ∧ e.FromIdx ≠ v)
    (result : Option Int) (st : DPState) (r : Res V (Option Int)) (st' : DPState)
    (hshape : MemoShape n st.memo)
    (h : tspDPLoop call start S v l result st = (r, st')) :
    MemoShape n st'.memo ∧ (r = .outOfFuel ∨ ∃ res, r = .ok res) := by
  obtain ⟨hSw, hv32, _⟩ := GoodState_lt_word hn hgood
  induction l generalizing result st with
  | nil =>
    simp only [tspDPLoop, Prod.mk.injEq] at h
    obtain ⟨h1, h2⟩ := h
    subst h1; subst h2
    exact ⟨hshape, Or.inr ⟨_, rfl⟩⟩
  | cons e rest ih =>
    have hrest : ∀ e' ∈ rest, e'.FromIdx < n ∧ e'.FromIdx ≠ v :=
      fun e' he' => hl e' (List.mem_cons_of_mem _ he')
    obtain ⟨heu, hev⟩ := hl e (List.mem_cons_self _ _)
    simp only [tspDPLoop] at h
    rw [Unset_some S v hv32, IsSet_some S e.FromIdx (by omega)] at h
    simp only at h
    split at h
    · rename_i hcond
      have hel : Eligible start S v e.FromIdx _ :=
        Eligible_of_test (Unset_some S v hv32) (IsSet_some S e.FromIdx (by omega)) hcond
      have hnext := GoodState_next hn hgood hel heu hev
      split at h
      · rename_i weight st1 hc
        obtain ⟨hs1, _⟩ := hcall _ _ _ _ _ hnext hshape hc
        exact ih hrest _ _ hs1 h
      · rename_i st1 hc
        obtain ⟨hs1, _⟩ := hcall _ _ _ _ _ hnext hshape hc
        exact ih hrest _ _ hs1 h
      · rename_i other st1 hne hc
        obtain ⟨_, hr⟩ := hcall _ _ _ _ _ hnext hshape hc
        rcases hr with h1 | h1 | h1
        · simp at h1
        · simp only [Res.err.injEq] at h1
          exact absurd h1 hne
        · obtain ⟨w, hw⟩ := h1
          simp at hw
      · rename_i p st1 hc
        obtain ⟨_, hr⟩ := hcall _ _ _ _ _ hnext hshape hc
        rcases hr with h1 | h1 | h1
        · simp at h1
        · simp at h1
        · obtain ⟨w, hw⟩ := h1
          simp at hw
      · rename_i st1 hc
        obtain ⟨hs1, _⟩ := hcall _ _ _ _ _ hnext hshape hc
        simp only [Prod.mk.injEq] at h
        obtain ⟨h1, h2⟩ := h
        subst h1; subst h2
        exact ⟨hs1, Or.inl rfl⟩
    · exact ih hrest _ _ hshape h

/-- On a graph of at most 31 vertices without self-loops whose edges start at known
vertices, `tspDP` called on a good state or on the base case keeps the shape of the memo
table, does not panic and fails with no error other than `ErrNoSolution`. -/
theorem tspDP_safe {V : Type} (n : Nat) (inc : Nat → Res V (List incomingEdge)) (start : Nat)
    (hn : n ≤ 31) (hsafe : SafeIdx n inc) (fuel : Nat) :
    CallSafe n start (tspDP n inc start fuel) := by
  induction fuel with
  | zero =>
    intro st S v r st' _ hshape h
    simp only [tspDP, Prod.mk.injEq] at h
    obtain ⟨h1, h2⟩ := h
    subst h1; subst h2
    exact ⟨hshape, Or.inl rfl⟩
  | succ fuel ih =>
    intro st S v r st' hpre hshape h
    simp only [tspDP] at h
    split at h
    · rename_i hzero
      have hS : S = 0 := (IsAnySet_eq_false S).1 hzero
      have hv : v = start := by
        rcases hpre with h1 | h1
        · exact absurd hS (GoodState_lt_word hn h1).2.2
        · exact h1.2
      rw [if_neg (by simp [hv])] at h
      simp only [Prod.mk.injEq] at h
      obtain ⟨h1, h2⟩ := h
      subst h1; subst h2
      exact ⟨hshape, Or.inr (Or.inr ⟨0, rfl⟩)⟩
    · rename_i hnz
      have hS : S ≠ 0 := fun hc => hnz ((IsAnySet_eq_false S).2 hc)
      have hgood : GoodState n start S v := by
        rcases hpre with h1 | h1
        · exact h1
        · exact absurd h1.1 hS
      obtain ⟨edges, hq, hedges⟩ := hsafe v hgood.2.1
      split at h
      · rename_i hlook
        exact absurd hlook (MemoShape_lookup hshape S v hgood.1 hgood.2.1)
      · simp only [Prod.mk.injEq] at h
        obtain ⟨h1, h2⟩ := h
        subst h1; subst h2
        exact ⟨hshape, Or.inr (Or.inr ⟨_, rfl⟩)⟩
      · rw [hq] at h
        simp only at h
        have hloop := fun rl st1 => tspDPLoop_safe (V := V) hn ih S v hgood edges hedges none
          ⟨st.memo, st.queries ++ [v]⟩ rl st1 hshape
        split at h
        · rename_i e st1 hl
          obtain ⟨_, hr⟩ := hloop _ _ hl
          rcases hr with h1 | h1
          · simp at h1
          · obtain ⟨res, hres⟩ := h1
            simp at hres
        · rename_i p st1 hl
          obtain ⟨_, hr⟩ := hloop _ _ hl
          rcases hr with h1 | h1
          · simp at h1
          · obtain ⟨res, hres⟩ := h1
            simp at hres
        · rename_i st1 hl
          obtain ⟨hs1, _⟩ := hloop _ _ hl
          simp only [Prod.mk.injEq] at h
          obtain ⟨h1, h2⟩ := h
          subst h1; subst h2
          exact ⟨hs1, Or.inl rfl⟩
        · rename_i st1 hl
          obtain ⟨hs1, _⟩ := hloop _ _ hl
          simp only [Prod.mk.injEq] at h
          obtain ⟨h1, h2⟩ := h
          subst h1; subst h2
          exact ⟨hs1, Or.inr (Or.inl rfl)⟩
        · rename_i result st1 hl
          obtain ⟨hs1, _⟩ := hloop _ _ hl
          obtain ⟨memo', hstore, hs2⟩ := MemoShape_store hs1 S v result hgood.1 hgood.2.1
          rw [hstore] at h
          simp only [Prod.mk.injEq] at h
          obtain ⟨h1, h2⟩ := h
          subst h1; subst h2
          exact ⟨hs2, Or.inr (Or.inr ⟨_, rfl⟩)⟩

/-! ## Complete graphs: every good state has a chain, and both passes succeed -/

theorem CompleteIdx_safe {V : Type} {n : Nat} {inc : Nat → Res V (List incomingEdge)}
    (hc : CompleteIdx n inc) : SafeIdx n inc := by
  intro v hv
  obtain ⟨edges, hq, hedges, _⟩ := hc v hv
  exact ⟨edges, hq, hedges⟩

/-- In a complete graph on 2 to 31 vertices every good state has a chain. -/
theorem chain_exists {V : Type} (n : Nat) (inc : Nat → Res V (List incomingEdge))
    (start : Nat) (hn : n ≤ 31) (h2 : 2 ≤ n) (hstart : start < n) (hc : CompleteIdx n inc)
    (S : Bitset) (v : Nat) (hgood : GoodState n start S v) :
    ∃ p w, Chain inc start S v p w := by
  induction S using Nat.strong_induction_on generalizing v with
  | _ S ih =>
    obtain ⟨hSw, hv32, hS0⟩ := GoodState_lt_word hn hgood
    obtain ⟨edges, hq, hedges, hall⟩ := hc v hgood.2.1
    have hun := Unset_some S v hv32
    by_cases hz : (S % word) &&& (word - 1 - 2 ^ v) = 0
    · -- the set is the singleton of the last vertex
      have hns : S.testBit start = false := by
        cases hb : S.testBit start
        · rfl
        · obtain ⟨h3, h4⟩ := hgood.2.2.2 hb
          subst h3; subst h4
          obtain ⟨vwl, hun2, hne, _⟩ := full_unset n v h2 hn hstart
          rw [hun] at hun2
          simp only [Option.some.injEq] at hun2
          rw [hun2] at hz
          exact absurd hz hne
      have hvs : start ≠ v := by
        intro heq
        rw [heq, hgood.2.2.1] at hns
        simp at hns
      obtain ⟨e, he, hfrom⟩ := hall start hstart hvs
      have hel : Eligible start S v e.FromIdx 0 := by
        rw [← hz]
        refine ⟨hun, false, ?_, ?_⟩
        · rw [hfrom, IsSet_some S start (by omega), hns]
        · rw [hz, hfrom]
          simp [Bitset.IsAnySet]
      have hbase : Chain inc start 0 e.FromIdx [start] 0 := by
        rw [hfrom]
        exact Chain.base
      exact ⟨_, _, Chain.step hS0 hq he hel hbase⟩
    · obtain ⟨u, hu⟩ := Nat.ne_zero_implies_bit_true hz
      rw [Unset_testBit S v _ hSw hun u] at hu
      simp only [Bool.and_eq_true, Bool.not_eq_true', decide_eq_false_iff_not] at hu
      have hun' : u < n := testBit_of_lt_two_pow S n hgood.1 u hu.1
      obtain ⟨e, he, hfrom⟩ := hall u hun' hu.2
      have hel : Eligible start S v e.FromIdx ((S % word) &&& (word - 1 - 2 ^ v)) := by
        refine ⟨hun, true, ?_, by simp⟩
        rw [hfrom, IsSet_some S u (by omega), hu.1]
      have hnext := GoodState_next hn hgood hel (by rw [hfrom]; exact hun')
        (by rw [hfrom]; exact hu.2)
      rcases hnext with h1 | h1
      · have hlt := Unset_lt_of_testBit S v _ hSw hun hgood.2.2.1
        obtain ⟨p, w, hch⟩ := ih _ hlt _ h1
        exact ⟨_, _, Chain.step hS0 hq he hel hch⟩
      · exact absurd h1.1 hz

/-- In a complete graph `tspDP` returns a weight from every good state: the least chain
weight, stored in the memo table. -/
theorem tspDP_complete {V : Type} (n : Nat) (inc : Nat → Res V (List incomingEdge))
    (start : Nat) (hn : n ≤ 31) (h2 : 2 ≤ n) (hstart : start < n) (hc : CompleteIdx n inc)
    (hincf : ∀ i, inc i ≠ .outOfFuel)
    (fuel : Nat) (st : DPState) (S : Bitset) (v : Nat) (hgood : GoodState n start S v)
    (hfuel : depthMeasure S v < fuel) (hinv : MemoInv inc start st.memo)
    (hshape : MemoShape n st.memo) :
    ∃ w st', tspDP n inc start fuel st S v = (.ok w, st') ∧ MemoInv inc start st'.memo ∧
      MemoShape n st'.memo ∧ Opt inc start S v w ∧ memoCell st'.memo S v = some w := by
  cases hrun : tspDP n inc start fuel st S v with
  | mk r st' =>
    obtain ⟨hshape', hr⟩ := tspDP_safe n inc start hn (CompleteIdx_safe hc) fuel st S v r st'
      (Or.inl hgood) hshape hrun
    obtain ⟨hinv', _, hok, hno⟩ := tspDP_sound n inc start fuel st S v r st' hinv hrun
    have hfu := tspDP_fuel n inc start hincf fuel st S v (GoodState_lt_word hn hgood).1 hfuel
    rw [hrun] at hfu
    rcases hr with h1 | h1 | h1
    · exact absurd h1 hfu
    · exact absurd (chain_exists n inc start hn h2 hstart hc S v hgood) (hno h1)
    · obtain ⟨w, hw⟩ := h1
      subst hw
      obtain ⟨hopt, hcell⟩ := hok w rfl
      refine ⟨w, st', rfl, hinv', hshape', hopt, ?_⟩
      rcases hcell with h3 | h3
      · exact absurd h3.1 (GoodState_lt_word hn hgood).2.2
      · exact h3

theorem prevWeightOf_of_cell (memo : Memo) (vwl : Bitset) (u : Nat) (w : Int)
    (h : memoCell memo vwl u = some w) : prevWeightOf memo vwl u = some (some w) := by
  unfold memoCell at h
  unfold prevWeightOf
  split at h
  · rename_i row hrow
    rw [hrow]
    simp only
    split at h
    · rename_i w' hcell
      simp only [Option.some.injEq] at h
      subst h
      rw [hcell]
    · simp at h
  · simp at h

theorem prevWeightOf_zero {V : Type} {inc : Nat → Res V (List incomingEdge)} {start n : Nat}
    {memo : Memo} (hinv : MemoInv inc start memo) (hshape : MemoShape n memo) (u : Nat) :
    prevWeightOf memo 0 u = some (some 0) := by
  unfold prevWeightOf
  have hlt : 0 < memo.length := by rw [hshape.1]; exact Nat.two_pow_pos n
  cases hm : memo[0]? with
  | none =>
    rw [List.getElem?_eq_getElem hlt] at hm
    simp at hm
  | some rowOpt =>
    cases rowOpt with
    | none => simp [Bitset.IsAnySet]
    | some row => exact absurd hm (hinv.zeroRow row)

theorem tspDPPathLoop_progress {V : Type} (memo : Memo) (start : Nat) (S : Bitset) (v : Nat)
    (hv : v < 32) (l : List incomingEdge) (hfrom : ∀ e ∈ l, e.FromIdx < 32)
    (hl : ∀ e ∈ l, ∀ vwl, Eligible start S v e.FromIdx vwl →
      ∃ pw, prevWeightOf memo vwl e.FromIdx = some (some pw))
    (pv : Bitset) (pl : Nat) (mw : Option Int) :
    ∃ res, tspDPPathLoop (V := V) memo start S v l pv pl mw = .ok res := by
  induction l generalizing pv pl mw with
  | nil => exact ⟨_, rfl⟩
  | cons e rest ih =>
    have hrest1 : ∀ e' ∈ rest, e'.FromIdx < 32 :=
      fun e' he' => hfrom e' (List.mem_cons_of_mem _ he')
    have hrest2 : ∀ e' ∈ rest, ∀ vwl, Eligible start S v e'.FromIdx vwl →
        ∃ pw, prevWeightOf memo vwl e'.FromIdx = some (some pw) :=
      fun e' he' => hl e' (List.mem_cons_of_mem _ he')
    simp only [tspDPPathLoop]
    rw [Unset_some S v hv, IsSet_some S e.FromIdx (hfrom e (List.mem_cons_self _ _))]
    simp only
    split
    · rename_i hcond
      have hel : Eligible start S v e.FromIdx _ :=
        Eligible_of_test (Unset_some S v hv)
          (IsSet_some S e.FromIdx (hfrom e (List.mem_cons_self _ _))) hcond
      obtain ⟨pw, hpw⟩ := hl e (List.mem_cons_self _ _) _ hel
      rw [hpw]
      simp only
      split
      · exact ih hrest1 hrest2 _ _ _
      · split
        · exact ih hrest1 hrest2 _ _ _
        · exact ih hrest1 hrest2 _ _ _
    · exact ih hrest1 hrest2 _ _ _

/-- In a complete graph, on a memo table that satisfies the invariant, `tspDPPath` called
on a good state with a memo cell, or on the base case, does not panic and returns no
error. -/
theorem tspDPPath_complete {V : Type} (n : Nat) (inc : Nat → Res V (List incomingEdge))
    (start : Nat) (hn : n ≤ 31) (h2 : 2 ≤ n) (hstart : start < n) (hc : CompleteIdx n inc)
    (memo : Memo) (hinv : MemoInv inc start memo) (hshape : MemoShape n memo) (fuel : Nat)
    (q : List Nat) (S : Bitset) (v : Nat)
    (hpre : (GoodState n start S v ∧ ∃ w, memoCell memo S v = some w) ∨ (S = 0 ∧ v = start))
    (r : Res V (List Nat)) (q' : List Nat)
    (h : tspDPPath memo inc start fuel q S v = (r, q')) :
    r = .outOfFuel ∨ ∃ p, r = .ok p := by
  induction fuel generalizing q S v r q' with
  | zero =>
    simp only [tspDPPath, Prod.mk.injEq] at h
    exact Or.inl h.1.symm
  | succ fuel ih =>
    simp only [tspDPPath] at h
    split at h
    · rename_i hzero
      have hS : S = 0 := (IsAnySet_eq_false S).1 hzero
      have hv : v = start := by
        rcases hpre with h1 | h1
        · exact absurd hS (GoodState_lt_word hn h1.1).2.2
        · exact h1.2
      rw [if_neg (by simp [hv])] at h
      simp only [Prod.mk.injEq] at h
      exact Or.inr ⟨_, h.1.symm⟩
    · rename_i hnz
      have hS : S ≠ 0 := fun hc2 => hnz ((IsAnySet_eq_false S).2 hc2)
      obtain ⟨hgood, wc, hcell⟩ : GoodState n start S v ∧ ∃ w, memoCell memo S v = some w := by
        rcases hpre with h1 | h1
        · exact h1
        · exact absurd h1.1 hS
      obtain ⟨hSw, hv32, _⟩ := GoodState_lt_word hn hgood
      obtain ⟨edges, hq, hedges, _⟩ := hc v hgood.2.1
      rw [hq] at h
      simp only at h
      have hprev : ∀ e ∈ edges, ∀ vwl, Eligible start S v e.FromIdx vwl →
          ∃ pw, prevWeightOf memo vwl e.FromIdx = some (some pw) := by
        intro e he vwl hel
        rcases hinv.closed S v wc hcell edges hq e he vwl hel with h1 | h1 | h1
        · rw [h1.1]
          exact ⟨0, prevWeightOf_zero hinv hshape _⟩
        · obtain ⟨w', hw'⟩ := h1
          exact ⟨w', prevWeightOf_of_cell _ _ _ _ hw'⟩
        · exfalso
          apply h1
          rcases GoodState_next hn hgood hel (hedges e he).1 (hedges e he).2 with h3 | h3
          · exact chain_exists n inc start hn h2 hstart hc _ _ h3
          · rw [h3.1, h3.2]
            exact ⟨_, _, Chain.base⟩
      obtain ⟨res, hres⟩ := tspDPPathLoop_progress (V := V) memo start S v hv32 edges
        (fun e he => by have := (hedges e he).1; omega) hprev 0 0 none
      obtain ⟨pv, pl, mw⟩ := res
      rw [hres] at h
      simp only at h
      have hacc := tspDPPathLoop_sound (V := V) memo start S v edges [] 0 0 none pv pl mw
        (PathLoopInv_nil start S v memo) hres
      simp only [List.nil_append] at hacc
      obtain ⟨⟨p0, hp0⟩, _⟩ := hinv.valid _ _ _ hcell
      obtain ⟨vwl0, edges0, e0, p0', w0', hinc0, he0, hel0, hch0, _, _⟩ := Chain_nonzero hS hp0
      rw [hq] at hinc0
      simp only [Res.ok.injEq] at hinc0
      subst hinc0
      obtain ⟨pw0, m, _, hm, _⟩ := hacc.least e0 he0 vwl0 hel0
      obtain ⟨e, he, hel, hpl, pw, hpw, _⟩ := hacc.chosen m hm
      subst hpl
      have hpre2 : (GoodState n start pv e.FromIdx ∧ ∃ w, memoCell memo pv e.FromIdx = some w) ∨
          (pv = 0 ∧ e.FromIdx = start) := by
        rcases GoodState_next hn hgood hel (hedges e he).1 (hedges e he).2 with h3 | h3
        · left
          refine ⟨h3, ?_⟩
          rcases prevWeightOf_cases hinv _ _ _ hpw with h4 | h4
          · exact absurd h4.1 (GoodState_lt_word hn h3).2.2
          · exact ⟨pw, h4.2⟩
        · exact Or.inr h3
      cases hrec : tspDPPath memo inc start fuel (q ++ [v]) pv e.FromIdx with
      | mk r1 q1 =>
        rw [hrec] at h
        rcases ih _ _ _ hpre2 _ _ hrec with h5 | h5
        · subst h5
          simp only [Prod.mk.injEq] at h
          exact Or.inl h.1.symm
        · obtain ⟨path, hpath⟩ := h5
          subst hpath
          simp only [Prod.mk.injEq] at h
          exact Or.inr ⟨_, h.1.symm⟩

/-! ## Without self-loops a chain from the full set is a Hamiltonian cycle -/

theorem SafeIdx_edges {V : Type} {n : Nat} {inc : Nat → Res V (List incomingEdge)}
    (hsafe : SafeIdx n inc) {v : Nat} (hv : v < n) {edges : List incomingEdge}
    (hq : inc v = .ok edges) {e : incomingEdge} (he : e ∈ edges) :
    e.FromIdx < n ∧ e.FromIdx ≠ v := by
  obtain ⟨edges', hq', hedges⟩ := hsafe v hv
  rw [hq] at hq'
  simp only [Res.ok.injEq] at hq'
  subst hq'
  exact hedges e he

/-- Without self-loops, a chain from a state whose set holds the last vertex but not the
start vertex lists the start vertex and then each index of the set exactly once. -/
theorem Chain_shape {V : Type} (n : Nat) (inc : Nat → Res V (List incomingEdge))
    (start : Nat) (hn : n ≤ 31) (hsafe : SafeIdx n inc) {S : Bitset} {v : Nat}
    {p : List Nat} {w : Int} (h : Chain inc start S v p w)
    (hpre : S = 0 ∨ (S < 2 ^ n ∧ S.testBit v = true ∧ S.testBit start = false)) :
    ∃ q, p = start :: q ∧ q.Nodup ∧ ∀ j, j ∈ q ↔ S.testBit j = true := by
  induction h with
  | base =>
    exact ⟨[], rfl, List.nodup_nil, by simp⟩
  | @step S v vwl edges e p w h0 hinc he hel hch ih =>
    obtain ⟨hS, hv, hs⟩ : S < 2 ^ n ∧ S.testBit v = true ∧ S.testBit start = false := by
      rcases hpre with h1 | h1
      · exact absurd h1 h0
      · exact h1
    have hvn : v < n := testBit_of_lt_two_pow S n hS v hv
    have hSw : S < word := by
      rw [word_eq]
      exact Nat.lt_of_lt_of_le hS (Nat.pow_le_pow_right (by decide) (by omega))
    obtain ⟨heu, hev⟩ := SafeIdx_edges hsafe hvn hinc he
    have hbit := Unset_testBit S v vwl hSw hel.1
    have hpre2 : vwl = 0 ∨
        (vwl < 2 ^ n ∧ vwl.testBit e.FromIdx = true ∧ vwl.testBit start = false) := by
      rcases Eligible_cases (n := n) hSw hel hev with h1 | h1
      · right
        refine ⟨Nat.lt_of_le_of_lt (Unset_le S v vwl hSw hel.1) hS, h1.2, ?_⟩
        rw [hbit start, hs]
        simp
      · exact Or.inl h1.2.1
    obtain ⟨q', hp', hnd, hmem⟩ := ih hpre2
    refine ⟨q' ++ [v], by rw [hp']; rfl, ?_, ?_⟩
    · rw [List.nodup_append]
      refine ⟨hnd, List.nodup_singleton v, ?_⟩
      intro j hj1 hj2
      simp only [List.mem_singleton] at hj2
      subst hj2
      have := (hmem j).1 hj1
      rw [hbit j] at this
      simp at this
    · intro j
      rw [List.mem_append, hmem j, hbit j]
      simp only [List.mem_singleton, Bool.and_eq_true, Bool.not_eq_true',
        decide_eq_false_iff_not]
      constructor
      · intro hj
        rcases hj with hj | hj
        · exact hj.1
        · rw [hj]; exact hv
      · intro hj
        by_cases hjv : j = v
        · exact Or.inr hjv
        · exact Or.inl ⟨hj, hjv⟩

/-- Without self-loops, a chain from the initial state lists the start vertex, then
every other index exactly once, then the start vertex again. -/
theorem Chain_full_shape {V : Type} (n : Nat) (inc : Nat → Res V (List incomingEdge))
    (start : Nat) (hn : n ≤ 31) (h2 : 2 ≤ n) (hstart : start < n) (hsafe : SafeIdx n inc)
    {p : List Nat} {w : Int} (h : Chain inc start (2 ^ n - 1) start p w) :
    ∃ q, p = start :: (q ++ [start]) ∧ (q ++ [start]).Nodup ∧
      ∀ j, j ∈ q ++ [start] ↔ j < n := by
  obtain ⟨vwl, edges, e, p', w', hinc, he, hel, hch, hp, _⟩ :=
    Chain_nonzero (full_ne_zero n (by omega)) h
  obtain ⟨heu, hev⟩ := SafeIdx_edges hsafe hstart hinc he
  obtain ⟨vwl', hun, hne, _, hbit⟩ := full_unset n start h2 hn hstart
  have hv : vwl = vwl' := by
    have h1 := hel.1
    rw [hun] at h1
    simp only [Option.some.injEq] at h1
    exact h1.symm
  subst hv
  have hpre : vwl = 0 ∨
      (vwl < 2 ^ n ∧ vwl.testBit e.FromIdx = true ∧ vwl.testBit start = false) := by
    right
    refine ⟨?_, ?_, ?_⟩
    · have h1 : 2 ^ n - 1 < 2 ^ n := Nat.sub_lt (Nat.two_pow_pos n) (by decide)
      exact Nat.lt_of_le_of_lt (Unset_le _ _ _ (full_lt_word n hn) hun) h1
    · rw [hbit]
      simp [heu, hev]
    · rw [hbit]
      simp
  obtain ⟨q, hq, hnd, hmem⟩ := Chain_shape n inc start hn hsafe hch hpre
  refine ⟨q, by rw [hp, hq]; rfl, ?_, ?_⟩
  · rw [List.nodup_append]
    refine ⟨hnd, List.nodup_singleton start, ?_⟩
    intro j hj1 hj2
    simp only [List.mem_singleton] at hj2
    subst hj2
    have := (hmem j).1 hj1
    rw [hbit j] at this
    simp at this
  · intro j
    rw [List.mem_append, hmem j, hbit j]
    simp only [List.mem_singleton, Bool.and_eq_true, Bool.not_eq_true',
      decide_eq_false_iff_not, decide_eq_true_eq]
    constructor
    · intro hj
      rcases hj with hj | hj
      · exact hj.1
      · rw [hj]; exact hstart
    · intro hj
      by_cases hjs : j = start
      · exact Or.inr hjs
      · exact Or.inl ⟨hj, hjs⟩

theorem collectVertices_eq_map {V : Type} (vs : List V) (d : V) (p : List Nat) (seq : List V)
    (h : collectVertices vs p = some seq) : seq = p.map (fun i => (vs[i]?).getD d) := by
  induction p generalizing seq with
  | nil =>
    simp only [collectVertices, Option.some.injEq] at h
    subst h
    rfl
  | cons i rest ih =>
    simp only [collectVertices] at h
    cases hi : vs[i]? with
    | none => rw [hi] at h; simp at h
    | some x =>
      rw [hi] at h
      simp only at h
      cases hr : collectVertices vs rest with
      | none => rw [hr] at h; simp at h
      | some l =>
        rw [hr] at h
        simp only [Option.some.injEq] at h
        subst h
        simp only [List.map_cons, hi, Option.getD_some, ← ih l hr]

theorem vertices_eq_map_range {V : Type} (vs : List V) (d : V) :
    vs = (List.range vs.length).map (fun i => (vs[i]?).getD d) := by
  apply List.ext_getElem?
  intro i
  by_cases hi : i < vs.length
  · rw [List.getElem?_map, List.getElem?_range hi]
    simp [List.getElem?_eq_getElem hi]
  · rw [List.getElem?_eq_none (by omega), List.getElem?_eq_none (by simp; omega)]

/-- The vertex sequence behind a chain from the initial state is a Hamiltonian cycle. -/
theorem Chain_full_cycle {V : Type} [DecidableEq V] (g : DynamicProgrammingTSPSolverGraph V)
    (inc : Nat → Res V (List incomingEdge)) (si : Nat) (start : V)
    (h2 : 2 ≤ g.GetVertices.length) (h31 : g.GetVertices.length ≤ 31)
    (hsi : g.GetVertices[si]? = some start) (hsafe : SafeIdx g.GetVertices.length inc)
    {p : List Nat} {w : Int}
    (hch : Chain inc si (2 ^ g.GetVertices.length - 1) si p w) (seq : List V)
    (hcol : collectVertices g.GetVertices p = some seq)
    (hedges : ∀ pr ∈ consecutivePairs seq, ∃ e ∈ g.GetIncomingEdges pr.2, e.Vertex = pr.1) :
    IsHamiltonianCycle g start seq := by
  have hsilt : si < g.GetVertices.length := (List.getElem?_eq_some.1 hsi).1
  obtain ⟨q, hp, hnd, hmem⟩ := Chain_full_shape _ inc si h31 h2 hsilt hsafe hch
  have hseq := collectVertices_eq_map g.GetVertices start p seq hcol
  have hf : (g.GetVertices[si]?).getD start = start := by rw [hsi]; rfl
  rw [hp] at hseq
  simp only [List.map_cons, List.map_append, List.map_nil, hf] at hseq
  refine ⟨?_, ?_, ?_, ?_⟩
  · rw [hseq]; rfl
  · rw [hseq, ← List.cons_append]
    exact List.getLast?_concat _
  · rw [hseq]
    simp only [List.tail_cons]
    have hperm : (q ++ [si]).Perm (List.range g.GetVertices.length) := by
      rw [List.perm_ext_iff_of_nodup hnd (List.nodup_range _)]
      intro j
      rw [hmem j, List.mem_range]
    have h3 := hperm.map (fun i => (g.GetVertices[i]?).getD start)
    rw [← vertices_eq_map_range g.GetVertices start] at h3
    simpa [hf] using h3
  · intro pr hpr
    obtain ⟨e, he, hev⟩ := hedges pr hpr
    apply List.ne_nil_of_mem (a := e.Weight)
    unfold edgeWeights
    rw [List.mem_filterMap]
    exact ⟨e, he, by simp [hev]⟩

/-! ## A Hamiltonian cycle is a chain from the full set -/

theorem testBit_bitsOf (l : List Nat) (j : Nat) : (bitsOf l).testBit j = true ↔ j ∈ l := by
  induction l with
  | nil => simp [bitsOf]
  | cons i rest ih =>
    simp only [bitsOf, Nat.testBit_or, Bool.or_eq_true, Nat.testBit_two_pow, decide_eq_true_eq,
      ih, List.mem_cons]
    constructor
    · intro h
      rcases h with h | h
      · exact Or.inl h.symm
      · exact Or.inr h
    · intro h
      rcases h with h | h
      · exact Or.inl h.symm
      · exact Or.inr h

theorem bitsOf_lt (l : List Nat) (n : Nat) (h : ∀ i ∈ l, i < n) : bitsOf l < 2 ^ n := by
  induction l with
  | nil => simp only [bitsOf]; exact Nat.two_pow_pos n
  | cons i rest ih =>
    simp only [bitsOf]
    apply Nat.or_lt_two_pow
    · exact Nat.pow_lt_pow_right (by decide) (h i (List.mem_cons_self _ _))
    · exact ih (fun j hj => h j (List.mem_cons_of_mem _ hj))

theorem bitsOf_lt_word (l : List Nat) (h : ∀ i ∈ l, i < 32) : bitsOf l < word := by
  rw [word_eq]
  exact bitsOf_lt l 32 h

theorem Unset_bitsOf (l : List Nat) (x : Nat) (hnd : (l ++ [x]).Nodup)
    (h32 : ∀ i ∈ l ++ [x], i < 32) :
    Bitset.Unset (bitsOf (l ++ [x])) (x : Int) = some (bitsOf l) := by
  have hx : x < 32 := h32 x (by simp)
  have hun := Unset_some (bitsOf (l ++ [x])) x hx
  rw [hun]
  congr 1
  apply Nat.eq_of_testBit_eq
  intro j
  rw [Unset_testBit _ _ _ (bitsOf_lt_word _ h32) hun j]
  rw [List.nodup_append] at hnd
  have hxl : x ∉ l := fun hc => hnd.2.2 hc (List.mem_singleton_self x)
  cases hb : (bitsOf l).testBit j
  · have hj : j ∉ l := fun hc => by
      rw [(testBit_bitsOf l j).2 hc] at hb
      simp at hb
    by_cases hjx : j = x
    · simp [hjx]
    · have : (bitsOf (l ++ [x])).testBit j = false := by
        cases hb2 : (bitsOf (l ++ [x])).testBit j
        · rfl
        · have := (testBit_bitsOf _ j).1 hb2
          simp only [List.mem_append, List.mem_singleton] at this
          rcases this with h | h
          · exact absurd h hj
          · exact absurd h hjx
      simp [this]
  · have hj : j ∈ l := (testBit_bitsOf l j).1 hb
    have hjx : j ≠ x := fun hc => hxl (hc ▸ hj)
    have : (bitsOf (l ++ [x])).testBit j = true :=
      (testBit_bitsOf _ j).2 (List.mem_append_left _ hj)
    simp [this, hjx]

theorem bitsOf_full (l : List Nat) (n : Nat) (h : ∀ j, j ∈ l ↔ j < n) :
    bitsOf l = 2 ^ n - 1 := by
  apply Nat.eq_of_testBit_eq
  intro j
  rw [Nat.testBit_two_pow_sub_one]
  cases hb : (bitsOf l).testBit j
  · have hj : ¬ j < n := fun hc => by
      rw [(testBit_bitsOf l j).2 ((h j).2 hc)] at hb
      simp at hb
    simp [hj]
  · have hj : j < n := (h j).1 ((testBit_bitsOf l j).1 hb)
    simp [hj]

theorem WalkTo_last {V : Type} {inc : Nat → Res V (List incomingEdge)} {start : Nat}
    {l : List Nat} {v : Nat} {w : Int} (h : WalkTo inc start l v w) :
    (l = [] ∧ v = start) ∨ v ∈ l := by
  cases h with
  | nil => exact Or.inl ⟨rfl, rfl⟩
  | snoc _ _ _ _ => exact Or.inr (by simp)

/-- A walk through pairwise distinct indices is a chain from the set of its indices. -/
theorem chain_of_walk {V : Type} {inc : Nat → Res V (List incomingEdge)} {start : Nat}
    (hstart : start < 32) {l : List Nat} {v : Nat} {w : Int} (h : WalkTo inc start l v w)
    (hnd : l.Nodup) (h32 : ∀ i ∈ l, i < 32) :
    Chain inc start (bitsOf l) v (start :: l) w := by
  induction h with
  | nil => exact Chain.base
  | @snoc l a w b edges e hwalk hinc he hfrom ih =>
    have hnd' : l.Nodup := (List.nodup_append.1 hnd).1
    have h32' : ∀ i ∈ l, i < 32 := fun i hi => h32 i (List.mem_append_left _ hi)
    have hch := ih hnd' h32'
    have hb : (bitsOf (l ++ [b])).testBit b = true := (testBit_bitsOf _ b).2 (by simp)
    have hS0 : bitsOf (l ++ [b]) ≠ 0 := by
      intro hz
      rw [hz] at hb
      simp at hb
    have ha32 : a < 32 := by
      rcases WalkTo_last hwalk with h1 | h1
      · rw [h1.2]; exact hstart
      · exact h32' a h1
    have hel : Eligible start (bitsOf (l ++ [b])) b e.FromIdx (bitsOf l) := by
      refine ⟨Unset_bitsOf l b hnd h32, _, IsSet_some _ _ (by rw [hfrom]; exact ha32), ?_⟩
      rcases WalkTo_last hwalk with h1 | h1
      · rw [h1.1, hfrom, h1.2]
        simp [bitsOf, Bitset.IsAnySet]
      · rw [hfrom, (testBit_bitsOf _ a).2 (List.mem_append_left _ h1)]
        simp
    have hstep := Chain.step hS0 hinc he hel (hfrom ▸ hch)
    simpa using hstep

/-! ## Loop-free and complete graphs, from vertices to indices -/

theorem int_min?_mem (l : List Int) (x : Int) (h : l.min? = some x) : x ∈ l :=
  List.min?_mem (fun a b => by rcases Int.le_total a b with h | h <;> simp [h]) h

theorem convertEdges_known {V : Type} [DecidableEq V] (m : List (V × Nat)) (b : V)
    (hes : List (HalfEdge V)) (h : ∀ e ∈ hes, ∃ j, mapGet m e.Vertex = some j) :
    ∃ edges, convertEdges m b hes = .ok edges := by
  induction hes with
  | nil => exact ⟨[], rfl⟩
  | cons x rest ih =>
    obtain ⟨j, hj⟩ := h x (List.mem_cons_self _ _)
    obtain ⟨l, hl⟩ := ih (fun e he => h e (List.mem_cons_of_mem _ he))
    exact ⟨⟨j, x.Weight⟩ :: l, by simp only [convertEdges, hj, hl]⟩

theorem vertex_index {V : Type} [DecidableEq V] (vs : List V) (hnd : vs.Nodup) (x : V)
    (hx : x ∈ vs) :
    vs[List.indexOf x vs]? = some x ∧ List.indexOf x vs < vs.length ∧
      mapGet (buildVertexIdxMap vs 0 []) x = some (List.indexOf x vs) := by
  have h1 := List.getElem?_indexOf hx
  exact ⟨h1, List.indexOf_lt_length.2 hx, (mapGet_vertexIdxMap_iff vs hnd x _).2 h1⟩

theorem index_unique {V : Type} [DecidableEq V] (vs : List V) (hnd : vs.Nodup) (x : V)
    (j : Nat) (h : vs[j]? = some x) : List.indexOf x vs = j := by
  obtain ⟨hj, hx⟩ := List.getElem?_eq_some.1 h
  rw [← hx]
  exact List.indexOf_getElem hnd j hj

/-- In a loop-free graph the closure `getIncomingEdges` succeeds on every index, and its
edges are those of the graph, with each source replaced by its index. -/
theorem loopFree_incoming {V : Type} [DecidableEq V] (g : DynamicProgrammingTSPSolverGraph V)
    (hg : IsLoopFreeGraph g) (i : Nat) (b : V) (hb : g.GetVertices[i]? = some b) :
    ∃ edges, getIncomingEdges g g.GetVertices (buildVertexIdxMap g.GetVertices 0 []) i
        = .ok edges ∧
      List.Forall₂ (fun he e => List.indexOf he.Vertex g.GetVertices = e.FromIdx ∧
        e.Weight = he.Weight) (g.GetIncomingEdges b) edges := by
  have hbv : b ∈ g.GetVertices := List.getElem?_mem hb
  obtain ⟨edges, hedges⟩ := convertEdges_known (buildVertexIdxMap g.GetVertices 0 []) b
    (g.GetIncomingEdges b) (fun e he =>
      ⟨_, (vertex_index g.GetVertices hg.1 e.Vertex (hg.2 b hbv e he).1).2.2⟩)
  refine ⟨edges, by unfold getIncomingEdges; rw [hb]; exact hedges, ?_⟩
  have hall := convertEdges_ok _ _ _ _ hedges
  apply hall.imp
  intro he e hrel
  refine ⟨?_, hrel.2⟩
  exact index_unique _ hg.1 _ _ ((mapGet_vertexIdxMap_iff _ hg.1 _ _).1 hrel.1)

theorem loopFree_safeIdx {V : Type} [DecidableEq V] (g : DynamicProgrammingTSPSolverGraph V)
    (hg : IsLoopFreeGraph g) :
    SafeIdx g.GetVertices.length
      (getIncomingEdges g g.GetVertices (buildVertexIdxMap g.GetVertices 0 [])) := by
  intro v hv
  have hb : g.GetVertices[v]? = some g.GetVertices[v] := List.getElem?_eq_getElem hv
  obtain ⟨edges, hq, hall⟩ := loopFree_incoming g hg v _ hb
  refine ⟨edges, hq, ?_⟩
  intro e he
  obtain ⟨he0, he0mem, hidx, _⟩ := forall₂_mem_right hall e he
  obtain ⟨hin, hne⟩ := hg.2 _ (List.getElem?_mem hb) he0 he0mem
  obtain ⟨h1, h2, _⟩ := vertex_index g.GetVertices hg.1 he0.Vertex hin
  rw [hidx] at h1 h2
  refine ⟨h2, ?_⟩
  intro heq
  rw [heq, hb] at h1
  simp only [Option.some.injEq] at h1
  exact hne h1.symm

theorem complete_completeIdx {V : Type} [DecidableEq V]
    (g : DynamicProgrammingTSPSolverGraph V) (hg : IsCompleteSolverGraph g) :
    CompleteIdx g.GetVertices.length
      (getIncomingEdges g g.GetVertices (buildVertexIdxMap g.GetVertices 0 [])) := by
  intro v hv
  have hb : g.GetVertices[v]? = some g.GetVertices[v] := List.getElem?_eq_getElem hv
  obtain ⟨edges, hq, hall⟩ := loopFree_incoming g hg.1 v _ hb
  obtain ⟨edges', hq', hsafe⟩ := loopFree_safeIdx g hg.1 v hv
  rw [hq] at hq'
  simp only [Res.ok.injEq] at hq'
  subst hq'
  refine ⟨edges, hq, hsafe, ?_⟩
  intro u hu huv
  have hub : g.GetVertices[u]? = some g.GetVertices[u] := List.getElem?_eq_getElem hu
  have hne : g.GetVertices[u] ≠ g.GetVertices[v] := by
    intro heq
    have h1 := index_unique _ hg.1.1 _ _ hub
    have h2 := index_unique _ hg.1.1 _ _ hb
    rw [heq] at h1
    omega
  obtain ⟨he0, he0mem, he0v⟩ :=
    hg.2 _ (List.getElem?_mem hb) _ (List.getElem?_mem hub) hne
  obtain ⟨e, hemem, hidx, _⟩ := forall₂_mem_left hall he0 he0mem
  refine ⟨e, hemem, ?_⟩
  rw [← hidx, he0v]
  exact index_unique _ hg.1.1 _ _ hub

theorem pairsWeight_append_inv {V : Type} [DecidableEq V]
    (g : DynamicProgrammingTSPSolverGraph V) (l1 l2 : List (V × V)) (W : Int)
    (h : pairsWeight g (l1 ++ l2) = some W) :
    ∃ w1 w2, pairsWeight g l1 = some w1 ∧ pairsWeight g l2 = some w2 ∧ W = w1 + w2 := by
  induction l1 generalizing W with
  | nil => exact ⟨0, W, rfl, by simpa using h, by omega⟩
  | cons x rest ih =>
    have h' : pairsWeight g (x :: (rest ++ l2)) = some W := h
    simp only [pairsWeight] at h'
    cases hc : cheapestEdge g x.1 x.2 with
    | none => rw [hc] at h'; simp at h'
    | some c =>
      cases hr : pairsWeight g (rest ++ l2) with
      | none => rw [hc, hr] at h'; simp at h'
      | some t =>
        rw [hc, hr] at h'
        simp only [Option.some.injEq] at h'
        obtain ⟨w1, w2, h1, h2, h3⟩ := ih t hr
        refine ⟨c + w1, w2, ?_, h2, by omega⟩
        simp only [pairsWeight, hc, h1]

/-- In a loop-free graph a vertex sequence from `start` along edges is a walk on the
indices, of the same weight. -/
theorem walk_of_tour {V : Type} [DecidableEq V] (g : DynamicProgrammingTSPSolverGraph V)
    (hg : IsLoopFreeGraph g) (start : V) (hstart : start ∈ g.GetVertices) (t : List V)
    (a : V) (W : Int) (hlast : (start :: t).getLast? = some a)
    (hin : ∀ x ∈ t, x ∈ g.GetVertices) (hw : tourWeight g (start :: t) = some W) :
    WalkTo (getIncomingEdges g g.GetVertices (buildVertexIdxMap g.GetVertices 0 []))
      (List.indexOf start g.GetVertices) (t.map (fun x => List.indexOf x g.GetVertices))
      (List.indexOf a g.GetVertices) W := by
  induction t using List.reverseRecOn generalizing a W with
  | nil =>
    simp only [List.getLast?_singleton, Option.some.injEq] at hlast
    subst hlast
    simp only [tourWeight, consecutivePairs, List.tail_cons, List.zip_nil_right, pairsWeight,
      Option.some.injEq] at hw
    subst hw
    exact WalkTo.nil
  | append_singleton t' b ih =>
    have hlast' : (start :: (t' ++ [b])).getLast? = some b := by
      rw [← List.cons_append]
      exact List.getLast?_concat _
    rw [hlast'] at hlast
    simp only [Option.some.injEq] at hlast
    subst hlast
    obtain ⟨a', ha'⟩ : ∃ a', (start :: t').getLast? = some a' := by
      cases hl : (start :: t').getLast? with
      | none => simp at hl
      | some a' => exact ⟨a', rfl⟩
    have hpairs : consecutivePairs (start :: (t' ++ [b]))
        = consecutivePairs (start :: t') ++ [(a', b)] := by
      rw [← List.cons_append]
      exact consecutivePairs_append_singleton _ a' b ha'
    unfold tourWeight at hw
    rw [hpairs] at hw
    obtain ⟨w1, w2, h1, h2, h3⟩ := pairsWeight_append_inv g _ _ W hw
    subst h3
    have hwalk := ih a' w1 ha' (fun x hx => hin x (List.mem_append_left _ hx)) h1
    have hbv : b ∈ g.GetVertices := hin b (by simp)
    obtain ⟨hbi, _, _⟩ := vertex_index g.GetVertices hg.1 b hbv
    obtain ⟨edges, hq, hall⟩ := loopFree_incoming g hg _ b hbi
    have hcheap : cheapestEdge g a' b = some w2 := by
      simp only [pairsWeight] at h2
      cases hc : cheapestEdge g a' b with
      | none => rw [hc] at h2; simp at h2
      | some c =>
        rw [hc] at h2
        simp only [Option.some.injEq] at h2
        rw [← h2]
        simp
    have hmem := int_min?_mem _ _ hcheap
    unfold edgeWeights at hmem
    rw [List.mem_filterMap] at hmem
    obtain ⟨he0, he0mem, he0w⟩ := hmem
    split at he0w
    · rename_i hv
      simp only [Option.some.injEq] at he0w
      obtain ⟨e, hemem, hidx, hwt⟩ := forall₂_mem_left hall he0 he0mem
      have hstep := WalkTo.snoc hwalk hq hemem (by rw [← hidx, hv])
      rw [hwt, he0w] at hstep
      simpa using hstep
    · simp at he0w

/-- In a loop-free graph of at most 31 vertices a Hamiltonian cycle through `start` is a
chain from the initial state, of the same weight. -/
theorem chain_of_cycle {V : Type} [DecidableEq V] (g : DynamicProgrammingTSPSolverGraph V)
    (hg : IsLoopFreeGraph g) (h31 : g.GetVertices.length ≤ 31) (start : V) (cyc : List V)
    (W : Int) (hcyc : IsHamiltonianCycle g start cyc) (hw : tourWeight g cyc = some W) :
    ∃ p, Chain (getIncomingEdges g g.GetVertices (buildVertexIdxMap g.GetVertices 0 []))
      (List.indexOf start g.GetVertices) (2 ^ g.GetVertices.length - 1)
      (List.indexOf start g.GetVertices) p W := by
  obtain ⟨hhead, hlast, hperm, _⟩ := hcyc
  cases cyc with
  | nil => simp at hhead
  | cons x t =>
    simp only [List.head?_cons, Option.some.injEq] at hhead
    subst hhead
    simp only [List.tail_cons] at hperm
    have hin : ∀ y ∈ t, y ∈ g.GetVertices := fun y hy => hperm.mem_iff.1 hy
    cases t with
    | nil =>
      -- the graph has no vertex: the cycle is the base case
      have hnil : g.GetVertices = [] := List.eq_nil_of_length_eq_zero hperm.length_eq.symm
      simp only [tourWeight, consecutivePairs, List.tail_cons, List.zip_nil_right, pairsWeight,
        Option.some.injEq] at hw
      subst hw
      rw [hnil]
      exact ⟨_, Chain.base⟩
    | cons y t' =>
    have hxv : x ∈ g.GetVertices := by
      have h1 : (x :: y :: t').getLast? = (y :: t').getLast? := List.getLast?_cons_cons
      rw [h1] at hlast
      exact hin x (List.mem_of_getLast?_eq_some hlast)
    generalize y :: t' = t at *
    have hwalk := walk_of_tour g hg x hxv t x W hlast hin hw
    have hidxlt : ∀ i ∈ t.map (fun y => List.indexOf y g.GetVertices),
        i < g.GetVertices.length := by
      intro i hi
      rw [List.mem_map] at hi
      obtain ⟨y, hy, hyi⟩ := hi
      rw [← hyi]
      exact List.indexOf_lt_length.2 (hin y hy)
    have hnd : (t.map (fun y => List.indexOf y g.GetVertices)).Nodup := by
      apply List.Nodup.map_on
      · intro a ha b hb hab
        exact (List.indexOf_inj (hin a ha) (hin b hb)).1 hab
      · exact hperm.nodup_iff.2 hg.1
    have hch := chain_of_walk (by
      have := List.indexOf_lt_length.2 hxv
      omega) hwalk hnd (fun i hi => by have := hidxlt i hi; omega)
    have hfull : bitsOf (t.map (fun y => List.indexOf y g.GetVertices))
        = 2 ^ g.GetVertices.length - 1 := by
      apply bitsOf_full
      intro j
      constructor
      · exact hidxlt j
      · intro hj
        rw [List.mem_map]
        have hb : g.GetVertices[j]? = some g.GetVertices[j] := List.getElem?_eq_getElem hj
        exact ⟨g.GetVertices[j], hperm.mem_iff.2 (List.getElem?_mem hb),
          index_unique _ hg.1 _ _ hb⟩
    rw [hfull] at hch
    exact ⟨_, hch⟩

/-! ## The solver on a complete graph -/

theorem MemoShape_fresh (n : Nat) : MemoShape n (List.replicate (2 ^ n) none) := by
  constructor
  · simp
  · intro S row h
    rw [List.getElem?_replicate] at h
    split at h <;> simp at h

/-- On a complete graph without self-loops on 2 to 31 pairwise distinct vertices the
solver returns, without error, a Hamiltonian cycle through the start vertex and its
weight, which is the least weight of a Hamiltonian cycle through the start vertex. -/
theorem solver_complete_solverGraph {V : Type} [DecidableEq V]
    (g : DynamicProgrammingTSPSolverGraph V) (startVertex : V)
    (hg : IsCompleteSolverGraph g) (h2 : 2 ≤ g.GetVertices.length)
    (h31 : g.GetVertices.length ≤ 31) (hs : startVertex ∈ g.GetVertices) :
    ∃ w seq, (DynamicProgrammingTSPSolver (some g) startVertex).outcome
        = .returned ⟨w, seq, none⟩ ∧
      IsHamiltonianCycle g startVertex seq ∧ tourWeight g seq = some w ∧
      IsMinHamiltonianWeight g startVertex w := by
  obtain ⟨hsi, hsilt, _⟩ := vertex_index g.GetVertices hg.1.1 startVertex hs
  have hc := complete_completeIdx g hg
  have hsafe := loopFree_safeIdx g hg.1
  have hincf := getIncomingEdges_not_outOfFuel g g.GetVertices
    (buildVertexIdxMap g.GetVertices 0 [])
  have hgood := GoodState_full g.GetVertices.length _ hsilt
  have hfull0 := full_ne_zero g.GetVertices.length (by omega)
  obtain ⟨w, st, hdp, hinv, hshape, hopt, hcell⟩ :=
    tspDP_complete g.GetVertices.length _ _ h31 h2 hsilt hc hincf
      (solverFuel g.GetVertices.length) ⟨List.replicate (2 ^ g.GetVertices.length) none, []⟩
      _ _ hgood (depthMeasure_full _ h31 _) (MemoInv_fresh _ _ _) (MemoShape_fresh _)
  cases hpath : tspDPPath st.memo
      (getIncomingEdges g g.GetVertices (buildVertexIdxMap g.GetVertices 0 []))
      (List.indexOf startVertex g.GetVertices) (solverFuel g.GetVertices.length) st.queries
      (2 ^ g.GetVertices.length - 1) (List.indexOf startVertex g.GetVertices) with
  | mk r q' =>
    have hfu := tspDPPath_fuel st.memo _ (List.indexOf startVertex g.GetVertices) hincf
      (solverFuel g.GetVertices.length) st.queries
      (2 ^ g.GetVertices.length - 1) (List.indexOf startVertex g.GetVertices)
      (full_lt_word _ h31) (depthMeasure_full _ h31 _)
    rw [hpath] at hfu
    rcases tspDPPath_complete g.GetVertices.length _ _ h31 h2 hsilt hc st.memo hinv hshape _ _
      _ _ (Or.inl ⟨hgood, w, hcell⟩) r q' hpath with h1 | h1
    · exact absurd h1 hfu
    · obtain ⟨p, hp⟩ := h1
      subst hp
      obtain ⟨w1, hoc⟩ := tspDPPath_sound _ _ _ hinv _ _ _ _ _ _ (Or.inr ⟨w, hcell⟩) hpath
      have hw1 : w1 = w := Opt_unique (OptChain_opt hoc) hopt
      subst hw1
      obtain ⟨seq, b, hcol, _, _, htour, hedges⟩ :=
        OptChain_realized g _ hg.1.1 _ startVertex hsi hoc
      have hham := Chain_full_cycle g _ _ startVertex h2 h31 hsi hsafe (OptChain_chain hoc)
        seq hcol hedges
      refine ⟨w1, seq, ?_, hham, htour, ⟨seq, hham, htour⟩, ?_⟩
      · rw [solver_eq_solverMain g startVertex h2 h31,
          solverMain_eq g _ startVertex _ hg.1.1 h31 hsi]
        unfold solverSearch
        rw [hdp]
        simp only
        unfold solverBacktrack
        rw [hpath]
        simp only
        rw [hcol]
      · intro cyc w' hcyc hw'
        obtain ⟨p', hch⟩ := chain_of_cycle g hg.1 h31 startVertex cyc w' hcyc hw'
        exact hopt.2 _ _ hch

/-! ## Reversing a forward graph -/

theorem mapGet_appendFlipped {V : Type} [DecidableEq V] (u : V) (edges : List (HalfEdge V))
    (res : AdjListGraph V) (v : V) :
    mapGet (appendFlipped u edges res) v =
      if flippedInto u edges v = [] then mapGet res v
      else some ((mapGet res v).getD [] ++ flippedInto u edges v) := by
  induction edges generalizing res with
  | nil => simp [appendFlipped, flippedInto]
  | cons e rest ih =>
    simp only [appendFlipped]
    rw [ih, mapGet_mapSet]
    by_cases hev : e.Vertex = v
    · have hfl : flippedInto u (e :: rest) v = ⟨u, e.Weight⟩ :: flippedInto u rest v := by
        simp [flippedInto, hev]
      rw [hfl, if_pos hev, hev]
      simp only [reduceCtorEq, if_false, Option.getD_some, List.append_assoc,
        List.singleton_append]
      split
      · rename_i hnil
        rw [hnil]
      · rfl
    · have hfl : flippedInto u (e :: rest) v = flippedInto u rest v := by
        simp [flippedInto, hev]
      rw [hfl, if_neg hev]

theorem keys_appendFlipped_nodup {V : Type} [DecidableEq V] (u : V)
    (edges : List (HalfEdge V)) (res : AdjListGraph V) (h : (res.map Prod.fst).Nodup) :
    ((appendFlipped u edges res).map Prod.fst).Nodup := by
  induction edges generalizing res with
  | nil => exact h
  | cons e rest ih =>
    simp only [appendFlipped]
    exact ih _ (nodup_keys_mapSet _ _ _ h)

theorem keys_flipEntries_nodup {V : Type} [DecidableEq V] (g : AdjListGraph V)
    (res : AdjListGraph V) (h : (res.map Prod.fst).Nodup) :
    ((flipEntries g res).map Prod.fst).Nodup := by
  induction g generalizing res with
  | nil => exact h
  | cons entry rest ih =>
    obtain ⟨u, edges⟩ := entry
    simp only [flipEntries]
    apply ih
    apply keys_appendFlipped_nodup
    split
    · exact nodup_keys_mapSet _ _ _ h
    · exact h

/-- When no vertex of the forward graph has an empty edge list, the reversal maps each
vertex to the edges that lead into it, and has no entry for a vertex without such
edges. -/
theorem mapGet_flipEntries {V : Type} [DecidableEq V] (g : AdjListGraph V)
    (hne : ∀ entry ∈ g, entry.2 ≠ []) (res : AdjListGraph V) (v : V) :
    mapGet (flipEntries g res) v =
      if AdjListGraph.incomingOf g v = [] then mapGet res v
      else some ((mapGet res v).getD [] ++ AdjListGraph.incomingOf g v) := by
  induction g generalizing res with
  | nil => simp [flipEntries, AdjListGraph.incomingOf]
  | cons entry rest ih =>
    obtain ⟨u, edges⟩ := entry
    have hedges : edges ≠ [] := hne (u, edges) (List.mem_cons_self _ _)
    have hlen : ¬ edges.length = 0 := fun hc => hedges (List.eq_nil_of_length_eq_zero hc)
    simp only [flipEntries, if_neg hlen, AdjListGraph.incomingOf]
    rw [ih (fun entry he => hne entry (List.mem_cons_of_mem _ he)), mapGet_appendFlipped]
    by_cases h1 : flippedInto u edges v = []
    · rw [h1]
      simp
    · by_cases h2 : AdjListGraph.incomingOf rest v = []
      · rw [h2]
        simp [h1]
      · simp [h1, h2]

theorem mapGet_eq_some_iff_mem {V β : Type} [DecidableEq V] (m : List (V × β))
    (h : (m.map Prod.fst).Nodup) (k : V) (x : β) : mapGet m k = some x ↔ (k, x) ∈ m := by
  induction m with
  | nil => simp [mapGet]
  | cons a rest ih =>
    obtain ⟨ka, xa⟩ := a
    simp only [List.map_cons, List.nodup_cons] at h
    by_cases hk : ka = k
    · subst hk
      simp only [mapGet, if_true, Option.some.injEq, List.mem_cons, Prod.mk.injEq, true_and]
      constructor
      · intro hx; exact Or.inl hx.symm
      · intro hx
        rcases hx with hx | hx
        · exact hx.symm
        · exact absurd (List.mem_map_of_mem Prod.fst hx) h.1
    · have hk2 : ¬ k = ka := fun e => hk e.symm
      simp only [mapGet, hk, if_false, ih h.2, List.mem_cons, Prod.mk.injEq, hk2, false_and,
        false_or]

theorem mapGet_perm {V β : Type} [DecidableEq V] (m1 m2 : List (V × β)) (hp : m1.Perm m2)
    (h : (m2.map Prod.fst).Nodup) (k : V) : mapGet m1 k = mapGet m2 k := by
  have h1 : (m1.map Prod.fst).Nodup := (hp.map Prod.fst).nodup_iff.2 h
  cases hg : mapGet m2 k with
  | none =>
    rw [mapGet_eq_none_iff] at hg ⊢
    intro hc
    exact hg ((hp.map Prod.fst).mem_iff.1 hc)
  | some x =>
    rw [mapGet_eq_some_iff_mem _ h] at hg
    rw [mapGet_eq_some_iff_mem _ h1]
    exact hp.mem_iff.2 hg

theorem mem_flippedInto {V : Type} [DecidableEq V] (u : V) (edges : List (HalfEdge V))
    (v : V) (e : HalfEdge V) :
    e ∈ flippedInto u edges v ↔ ∃ he ∈ edges, he.Vertex = v ∧ e = ⟨u, he.Weight⟩ := by
  unfold flippedInto
  simp only [List.mem_map, List.mem_filter, decide_eq_true_eq]
  constructor
  · rintro ⟨he, ⟨h1, h2⟩, h3⟩
    exact ⟨he, h1, h2, h3.symm⟩
  · rintro ⟨he, h1, h2, h3⟩
    exact ⟨he, ⟨h1, h2⟩, h3.symm⟩

theorem mem_incomingOf {V : Type} [DecidableEq V] (g : AdjListGraph V) (v : V)
    (e : HalfEdge V) :
    e ∈ AdjListGraph.incomingOf g v ↔
      ∃ entry ∈ g, ∃ he ∈ entry.2, he.Vertex = v ∧ e = ⟨entry.1, he.Weight⟩ := by
  induction g with
  | nil => simp [AdjListGraph.incomingOf]
  | cons entry rest ih =>
    obtain ⟨u, edges⟩ := entry
    simp only [AdjListGraph.incomingOf, List.mem_append, mem_flippedInto, ih, List.mem_cons,
      exists_eq_or_imp]

/-- In a complete forward graph on at least two vertices, the edges into a vertex come
from vertices other than it, one from every other vertex; and every vertex has
some. -/
theorem complete_incomingOf {V : Type} [DecidableEq V] (g : AdjListGraph V)
    (hg : IsCompleteAdjListGraph g) (h2 : 2 ≤ g.length) :
    (∀ entry ∈ g, entry.2 ≠ []) ∧
      (∀ v e, e ∈ AdjListGraph.incomingOf g v →
        v ∈ AdjListGraph.GetVertices g ∧ e.Vertex ∈ AdjListGraph.GetVertices g ∧
          e.Vertex ≠ v) ∧
      (∀ v ∈ AdjListGraph.GetVertices g, ∀ u ∈ AdjListGraph.GetVertices g, u ≠ v →
        ∃ e ∈ AdjListGraph.incomingOf g v, e.Vertex = u) ∧
      (∀ v ∈ AdjListGraph.GetVertices g, AdjListGraph.incomingOf g v ≠ []) := by
  obtain ⟨hnd, hall⟩ := hg
  have htarget : ∀ entry ∈ g, ∀ v, v ∈ entry.2.map HalfEdge.Vertex ↔
      (v ≠ entry.1 ∧ v ∈ AdjListGraph.GetVertices g) := by
    intro entry he v
    rw [(hall entry he).mem_iff, hnd.mem_erase_iff]
  have hother : ∀ v ∈ AdjListGraph.GetVertices g, ∃ u ∈ AdjListGraph.GetVertices g, u ≠ v := by
    intro v hv
    by_contra hc
    have hall2 : ∀ u ∈ AdjListGraph.GetVertices g, u = v := by
      intro u hu
      by_contra hne
      exact hc ⟨u, hu, hne⟩
    have hlen : (AdjListGraph.GetVertices g).length = g.length := by
      simp [AdjListGraph.GetVertices]
    match hgv : AdjListGraph.GetVertices g, hlen with
    | [], hl => simp at hl; omega
    | [a], hl => simp at hl; omega
    | a :: b :: rest, _ =>
      rw [hgv] at hnd hall2
      have ha := hall2 a (by simp)
      have hb := hall2 b (by simp)
      rw [ha, hb] at hnd
      simp at hnd
  have hedge : ∀ v ∈ AdjListGraph.GetVertices g, ∀ u ∈ AdjListGraph.GetVertices g, u ≠ v →
      ∃ e ∈ AdjListGraph.incomingOf g v, e.Vertex = u := by
    intro v hv u hu huv
    unfold AdjListGraph.GetVertices at hu
    rw [List.mem_map] at hu
    obtain ⟨entry, hentry, hfst⟩ := hu
    have hvt : v ∈ entry.2.map HalfEdge.Vertex :=
      (htarget entry hentry v).2 ⟨by rw [hfst]; exact fun hc => huv hc.symm, hv⟩
    rw [List.mem_map] at hvt
    obtain ⟨he, hhe, hhev⟩ := hvt
    exact ⟨⟨entry.1, he.Weight⟩, (mem_incomingOf g v _).2 ⟨entry, hentry, he, hhe, hhev, rfl⟩,
      hfst⟩
  refine ⟨?_, ?_, hedge, ?_⟩
  · intro entry he hnil
    have hk : entry.1 ∈ AdjListGraph.GetVertices g := List.mem_map_of_mem Prod.fst he
    obtain ⟨u, hu, hne⟩ := hother entry.1 hk
    have := (htarget entry he u).2 ⟨hne, hu⟩
    rw [hnil] at this
    simp at this
  · intro v e he
    rw [mem_incomingOf] at he
    obtain ⟨entry, hentry, he0, hhe0, hv, heq⟩ := he
    have ht := (htarget entry hentry v).1 (by
      rw [List.mem_map]; exact ⟨he0, hhe0, hv⟩)
    subst heq
    exact ⟨ht.2, List.mem_map_of_mem Prod.fst hentry, fun hc => ht.1 hc.symm⟩
  · intro v hv hnil
    obtain ⟨u, hu, hne⟩ := hother v hv
    obtain ⟨e, he, _⟩ := hedge v hv u hu hne
    rw [hnil] at he
    simp at he

/-- The reversal of a complete forward graph, with its entries in any order, is a
complete graph for the solver: it has the vertices of the forward graph, and the
incoming edges of a vertex are the edges of the forward graph that lead into it. -/
theorem reverse_complete {V : Type} [DecidableEq V] (g : AdjListGraph V)
    (r : ReverseAdjListGraph V) (hg : IsCompleteAdjListGraph g) (h2 : 2 ≤ g.length)
    (hr : r.Perm (NewReverseAdjListGraphFromAdjListGraph g)) :
    (ReverseAdjListGraph.toSolverGraph r).GetIncomingEdges = AdjListGraph.incomingOf g ∧
      (ReverseAdjListGraph.toSolverGraph r).GetVertices.Perm (AdjListGraph.GetVertices g) ∧
      IsCompleteSolverGraph (ReverseAdjListGraph.toSolverGraph r) := by
  obtain ⟨hne, hsrc, hedge, hsome⟩ := complete_incomingOf g hg h2
  have hnd0 : ((NewReverseAdjListGraphFromAdjListGraph g).map Prod.fst).Nodup :=
    keys_flipEntries_nodup g [] List.nodup_nil
  have hget : ∀ v, mapGet r v =
      if AdjListGraph.incomingOf g v = [] then none
      else some (AdjListGraph.incomingOf g v) := by
    intro v
    rw [mapGet_perm r _ hr hnd0 v]
    unfold NewReverseAdjListGraphFromAdjListGraph NewAdjListGraphFromReverseAdjListGraph
    rw [mapGet_flipEntries g hne [] v]
    simp [mapGet]
  have hinc : (ReverseAdjListGraph.toSolverGraph r).GetIncomingEdges
      = AdjListGraph.incomingOf g := by
    funext v
    simp only [ReverseAdjListGraph.toSolverGraph, ReverseAdjListGraph.GetIncomingEdges,
      AdjListGraph.GetOutgoingEdges]
    rw [hget v]
    split
    · rename_i heq
      split at heq
      · rename_i hnil; exact hnil.symm
      · simp at heq
    · rename_i l heq
      split at heq
      · simp at heq
      · simp only [Option.some.injEq] at heq
        exact heq.symm
  have hndr : (r.map Prod.fst).Nodup := (hr.map Prod.fst).nodup_iff.2 hnd0
  have hkeys : ∀ v, v ∈ r.map Prod.fst ↔ v ∈ AdjListGraph.GetVertices g := by
    intro v
    rw [← mapGet_isSome_iff, hget v]
    constructor
    · intro hx
      obtain ⟨x, hx⟩ := hx
      split at hx
      · simp at hx
      · rename_i hnn
        obtain ⟨e, he⟩ := List.exists_mem_of_ne_nil _ hnn
        exact (hsrc v e he).1
    · intro hv
      exact ⟨_, by rw [if_neg (hsome v hv)]⟩
  have hperm : (r.map Prod.fst).Perm (AdjListGraph.GetVertices g) :=
    (List.perm_ext_iff_of_nodup hndr hg.1).2 hkeys
  refine ⟨hinc, hperm, ⟨hndr, ?_⟩, ?_⟩
  · intro v hv e he
    rw [hinc] at he
    have := hsrc v e he
    exact ⟨(hkeys _).2 this.2.1, this.2.2⟩
  · intro v hv u hu huv
    rw [hinc]
    exact hedge v ((hkeys v).1 hv) u ((hkeys u).1 hu) huv

/-! ## Rotating a Hamiltonian cycle -/

theorem consecutivePairs_cons_cons {α : Type} (x y : α) (rest : List α) :
    consecutivePairs (x :: y :: rest) = (x, y) :: consecutivePairs (y :: rest) := by
  simp [consecutivePairs]

theorem consecutivePairs_append_cons {α : Type} (l1 : List α) (m : α) (l2 : List α) :
    consecutivePairs (l1 ++ m :: l2)
      = consecutivePairs (l1 ++ [m]) ++ consecutivePairs (m :: l2) := by
  induction l1 with
  | nil => simp [consecutivePairs]
  | cons x rest ih =>
    cases rest with
    | nil =>
      simp only [List.cons_append, List.nil_append, consecutivePairs_cons_cons]
      simp [consecutivePairs]
    | cons y r =>
      simp only [List.cons_append, consecutivePairs_cons_cons] at ih ⊢
      rw [ih]

/-- A Hamiltonian cycle through any vertex can be rotated to start at any other vertex,
keeping its weight. -/
theorem rotate_cycle {V : Type} [DecidableEq V] (g : DynamicProgrammingTSPSolverGraph V)
    (s start : V) (cyc : List V) (W : Int) (hc : IsHamiltonianCycle g s cyc)
    (hstart : start ∈ g.GetVertices) (hw : tourWeight g cyc = some W) :
    ∃ cyc2, IsHamiltonianCycle g start cyc2 ∧ tourWeight g cyc2 = some W := by
  obtain ⟨hhead, hlast, hperm, hedges⟩ := hc
  cases cyc with
  | nil => simp at hhead
  | cons x t =>
    simp only [List.head?_cons, Option.some.injEq] at hhead
    subst hhead
    simp only [List.tail_cons] at hperm
    have hst : start ∈ t := hperm.mem_iff.2 hstart
    obtain ⟨A, B', hsplit⟩ := List.append_of_mem hst
    subst hsplit
    rcases List.eq_nil_or_concat B' with hB | hB
    · -- the cycle already starts at `start`
      subst hB
      have h1 : (x :: (A ++ [start])).getLast? = some start := by
        rw [← List.cons_append]
        exact List.getLast?_concat _
      rw [h1] at hlast
      simp only [Option.some.injEq] at hlast
      subst hlast
      exact ⟨start :: (A ++ [start]), ⟨rfl, h1, hperm, hedges⟩, hw⟩
    · obtain ⟨B, y, hB⟩ := hB
      subst hB
      rw [List.concat_eq_append] at hlast hperm hedges hw
      have h1 : (x :: (A ++ start :: (B ++ [y]))).getLast? = some y := by
        have : x :: (A ++ start :: (B ++ [y])) = (x :: (A ++ start :: B)) ++ [y] := by simp
        rw [this]
        exact List.getLast?_concat _
      rw [h1] at hlast
      simp only [Option.some.injEq] at hlast
      subst hlast
      -- the two halves of the cycle
      have hp1 : consecutivePairs (y :: (A ++ start :: (B ++ [y])))
          = consecutivePairs (y :: A ++ [start]) ++ consecutivePairs (start :: (B ++ [y])) := by
        have := consecutivePairs_append_cons (y :: A) start (B ++ [y])
        simpa using this
      have hp2 : consecutivePairs (start :: (B ++ y :: (A ++ [start])))
          = consecutivePairs (start :: (B ++ [y])) ++ consecutivePairs (y :: A ++ [start]) := by
        have := consecutivePairs_append_cons (start :: B) y (A ++ [start])
        simpa using this
      refine ⟨start :: (B ++ y :: (A ++ [start])), ⟨rfl, ?_, ?_, ?_⟩, ?_⟩
      · have : start :: (B ++ y :: (A ++ [start])) = (start :: (B ++ y :: A)) ++ [start] := by
          simp
        rw [this]
        exact List.getLast?_concat _
      · simp only [List.tail_cons]
        refine List.Perm.trans ?_ hperm
        have h3 : (B ++ y :: (A ++ [start])).Perm ((B ++ [y]) ++ (A ++ [start])) := by
          simp
        have h4 : (A ++ start :: (B ++ [y])).Perm ((A ++ [start]) ++ (B ++ [y])) := by
          simp
        exact h3.trans (List.perm_append_comm.trans h4.symm)
      · intro p hp
        apply hedges p
        rw [hp1]
        rw [hp2] at hp
        rcases List.mem_append.1 hp with h5 | h5
        · exact List.mem_append_right _ h5
        · exact List.mem_append_left _ h5
      · unfold tourWeight at hw ⊢
        rw [hp1] at hw
        rw [hp2]
        obtain ⟨w1, w2, h5, h6, h7⟩ := pairsWeight_append_inv g _ _ W hw
        rw [pairsWeight_append g _ _ w2 w1 h6 h5, h7, Int.add_comm]

/-! ## The solver on the reversal of a complete forward graph -/

theorem edgeWeights_congr {V : Type} [DecidableEq V]
    (g1 g2 : DynamicProgrammingTSPSolverGraph V)
    (h : g1.GetIncomingEdges = g2.GetIncomingEdges) (a b : V) :
    edgeWeights g1 a b = edgeWeights g2 a b := by
  unfold edgeWeights
  rw [h]

theorem pairsWeight_congr {V : Type} [DecidableEq V]
    (g1 g2 : DynamicProgrammingTSPSolverGraph V)
    (h : g1.GetIncomingEdges = g2.GetIncomingEdges) (l : List (V × V)) :
    pairsWeight g1 l = pairsWeight g2 l := by
  induction l with
  | nil => rfl
  | cons p rest ih =>
    simp only [pairsWeight, cheapestEdge, edgeWeights_congr g1 g2 h, ih]

theorem tourWeight_congr {V : Type} [DecidableEq V]
    (g1 g2 : DynamicProgrammingTSPSolverGraph V)
    (h : g1.GetIncomingEdges = g2.GetIncomingEdges) (seq : List V) :
    tourWeight g1 seq = tourWeight g2 seq :=
  pairsWeight_congr g1 g2 h _

theorem IsHamiltonianCycle_congr {V : Type} [DecidableEq V]
    (g1 g2 : DynamicProgrammingTSPSolverGraph V)
    (h : g1.GetIncomingEdges = g2.GetIncomingEdges)
    (hp : g1.GetVertices.Perm g2.GetVertices) (start : V) (cyc : List V)
    (hc : IsHamiltonianCycle g1 start cyc) : IsHamiltonianCycle g2 start cyc := by
  obtain ⟨h1, h2, h3, h4⟩ := hc
  refine ⟨h1, h2, h3.trans hp, ?_⟩
  intro p hpm
  rw [← edgeWeights_congr g1 g2 h]
  exact h4 p hpm

theorem IsMinHamiltonianWeight_congr {V : Type} [DecidableEq V]
    (g1 g2 : DynamicProgrammingTSPSolverGraph V)
    (h : g1.GetIncomingEdges = g2.GetIncomingEdges)
    (hp : g1.GetVertices.Perm g2.GetVertices) (start : V) (w : Int)
    (hm : IsMinHamiltonianWeight g1 start w) : IsMinHamiltonianWeight g2 start w := by
  obtain ⟨⟨cyc, hc, hw⟩, hmin⟩ := hm
  refine ⟨⟨cyc, IsHamiltonianCycle_congr g1 g2 h hp start cyc hc, ?_⟩, ?_⟩
  · rw [← tourWeight_congr g1 g2 h]
    exact hw
  · intro cyc' w' hc' hw'
    apply hmin cyc' w' (IsHamiltonianCycle_congr g2 g1 h.symm hp.symm start cyc' hc')
    rw [tourWeight_congr g1 g2 h]
    exact hw'

/-- The solver on exact integers: for a complete forward graph without self-loops on 2 to 31 vertices (the edges
of every vertex lead to each other vertex exactly once, with exact integer weights),
reversed by
`NewReverseAdjListGraphFromAdjListGraph` and handed to the solver with its map entries
in any order, and for every start vertex of it, the solver returns no error, a sequence
that is a Hamiltonian cycle of the forward graph through the start vertex, and a weight
that is the total weight of that cycle and the least total weight of a Hamiltonian
cycle, whichever vertex the cycle is read from. -/
theorem solver_complete_graph {V : Type} [DecidableEq V] (g : AdjListGraph V)
    (r : ReverseAdjListGraph V) (startVertex : V) (hg : IsCompleteAdjListGraph g)
    (h2 : 2 ≤ g.length) (h31 : g.length ≤ 31)
    (hr : r.Perm (NewReverseAdjListGraphFromAdjListGraph g))
    (hs : startVertex ∈ AdjListGraph.GetVertices g) :
    ∃ w seq,
      (DynamicProgrammingTSPSolver (some (ReverseAdjListGraph.toSolverGraph r))
        startVertex).outcome = .returned ⟨w, seq, none⟩ ∧
      IsHamiltonianCycle (AdjListGraph.toIncomingGraph g) startVertex seq ∧
      tourWeight (AdjListGraph.toIncomingGraph g) seq = some w ∧
      IsMinHamiltonianWeight (AdjListGraph.toIncomingGraph g) startVertex w ∧
      ∀ s cyc w', IsHamiltonianCycle (AdjListGraph.toIncomingGraph g) s cyc →
        tourWeight (AdjListGraph.toIncomingGraph g) cyc = some w' → w ≤ w' := by
  obtain ⟨hinc, hperm, hcomp⟩ := reverse_complete g r hg h2 hr
  have hlen : (ReverseAdjListGraph.toSolverGraph r).GetVertices.length = g.length := by
    rw [hperm.length_eq]
    simp [AdjListGraph.GetVertices]
  obtain ⟨w, seq, hout, hham, htour, hmin⟩ :=
    solver_complete_solverGraph (ReverseAdjListGraph.toSolverGraph r) startVertex hcomp
      (by rw [hlen]; exact h2) (by rw [hlen]; exact h31) (hperm.mem_iff.2 hs)
  have hinc' : (ReverseAdjListGraph.toSolverGraph r).GetIncomingEdges
      = (AdjListGraph.toIncomingGraph g).GetIncomingEdges := hinc
  have hperm' : (ReverseAdjListGraph.toSolverGraph r).GetVertices.Perm
      (AdjListGraph.toIncomingGraph g).GetVertices := hperm
  have hmin' := IsMinHamiltonianWeight_congr _ _ hinc' hperm' _ _ hmin
  refine ⟨w, seq, hout, IsHamiltonianCycle_congr _ _ hinc' hperm' _ _ hham, ?_, hmin', ?_⟩
  · rw [← tourWeight_congr _ _ hinc']
    exact htour
  · intro s cyc w' hcyc hw'
    obtain ⟨cyc2, hcyc2, hw2⟩ := rotate_cycle _ s startVertex cyc w' hcyc hs hw'
    exact hmin'.2 cyc2 w' hcyc2 hw2

/-- On the graph of the test, started at `A`, the solver returns weight 97 and the cycle
`A, D, C, B, A`, and 97 is the least weight of a Hamiltonian cycle through `A`. -/
theorem solver_complete_graph_witness :
    (DynamicProgrammingTSPSolver
        (some (ReverseAdjListGraph.toSolverGraph simpleSymmetricReverse)) "A").outcome
      = .returned ⟨97, ["A", "D", "C", "B", "A"], none⟩ ∧
      IsMinHamiltonianWeight (AdjListGraph.toIncomingGraph SimpleSymmetricGraph) "A" 97 := by
  obtain ⟨w, seq, hout, _, _, hmin, _⟩ :=
    solver_complete_graph SimpleSymmetricGraph simpleSymmetricReverse "A"
      (by unfold IsCompleteAdjListGraph; decide) (by decide) (by decide)
      (List.Perm.refl _) (by decide)
  have h97 : (DynamicProgrammingTSPSolver
      (some (ReverseAdjListGraph.toSolverGraph simpleSymmetricReverse)) "A").outcome
      = .returned ⟨97, ["A", "D", "C", "B", "A"], none⟩ := by decide
  rw [h97] at hout
  simp only [Outcome.returned.injEq, SolverReturn.mk.injEq, and_true] at hout
  rw [← hout.1] at hmin
  exact ⟨h97, hmin⟩

/-- On the graph of the test, the sequence `A, D, C, B, A` that the solver returns from
`A` runs along edges whose weights add up to the returned weight 97. -/
theorem solver_sequence_realizes_weight_witness :
    (∀ pr ∈ consecutivePairs ["A", "D", "C", "B", "A"],
        ∃ e ∈ (ReverseAdjListGraph.toSolverGraph simpleSymmetricReverse).GetIncomingEdges pr.2,
          e.Vertex = pr.1) ∧
      tourWeight (ReverseAdjListGraph.toSolverGraph simpleSymmetricReverse)
        ["A", "D", "C", "B", "A"] = some 97 :=
  solver_sequence_realizes_weight (ReverseAdjListGraph.toSolverGraph simpleSymmetricReverse)
    "A" ["A", "B", "C", "D", "A"] 97 ["A", "D", "C", "B", "A"] (by decide) (by decide)
    (by decide) (by unfold IsHamiltonianCycle; decide) (by decide)

/-! ## Unknown start vertex and unknown edge vertex -/

/-- C11: when the vertex list has 2 to 31 pairwise distinct entries and the start vertex
is not one of them, the solver returns the unknown-start-vertex error with weight 0 and
no sequence, and its query log is empty: no incoming edge has been requested. -/
theorem solver_unknown_start_vertex {V : Type} [DecidableEq V]
    (g : DynamicProgrammingTSPSolverGraph V) (startVertex : V)
    (h2 : 2 ≤ g.GetVertices.length) (h31 : g.GetVertices.length ≤ 31)
    (hnd : g.GetVertices.Nodup) (hs : startVertex ∉ g.GetVertices) :
    DynamicProgrammingTSPSolver (some g) startVertex
      = ⟨.returned ⟨0, [], some (.unknownStartVertex startVertex)⟩, []⟩ := by
  rw [solver_eq_solverMain g startVertex h2 h31]
  unfold solverMain
  have hlen : (buildVertexIdxMap g.GetVertices 0 []).length = g.GetVertices.length :=
    (length_buildVertexIdxMap_iff_nodup _).2 hnd
  have hget : mapGet (buildVertexIdxMap g.GetVertices 0 []) startVertex = none := by
    rw [mapGet_eq_none_iff, mem_keys_buildVertexIdxMap]
    intro hc
    rcases hc with hc | hc
    · exact hs hc
    · simp at hc
  simp only [hlen, ne_eq, not_true_eq_false, if_false, hget]

/-- The solver rejects the start vertex `Z` on a graph with the vertices `A, B, C`. -/
theorem solver_unknown_start_vertex_witness :
    DynamicProgrammingTSPSolver (some deadBranchGraph) "Z"
      = ⟨.returned ⟨0, [], some (.unknownStartVertex "Z")⟩, []⟩ :=
  solver_unknown_start_vertex deadBranchGraph "Z" (by decide) (by decide) (by decide)
    (by decide)

/-- On a list with an edge from a vertex without an index, `convertEdges` fails with the
error that names the first such edge. -/
theorem convertEdges_unknown {V : Type} [DecidableEq V] (m : List (V × Nat)) (b : V)
    (hes : List (HalfEdge V)) (h : ∃ e ∈ hes, mapGet m e.Vertex = none) :
    ∃ e ∈ hes, mapGet m e.Vertex = none ∧
      convertEdges m b hes = .err (.unknownEdgeVertex e.Vertex b) := by
  induction hes with
  | nil =>
    obtain ⟨e, he, _⟩ := h
    simp at he
  | cons x rest ih =>
    cases hx : mapGet m x.Vertex with
    | none =>
      refine ⟨x, List.mem_cons_self _ _, hx, ?_⟩
      simp only [convertEdges, hx]
    | some j =>
      have hrest : ∃ e ∈ rest, mapGet m e.Vertex = none := by
        obtain ⟨e, he, hne⟩ := h
        rcases List.mem_cons.1 he with he | he
        · subst he
          rw [hx] at hne
          simp at hne
        · exact ⟨e, he, hne⟩
      obtain ⟨e, he, hne, hce⟩ := ih hrest
      refine ⟨e, List.mem_cons_of_mem _ he, hne, ?_⟩
      simp only [convertEdges, hx, hce]

/-- The first call of `tspDP`, on the fresh memo table and the full set, when the edges of
the start vertex cannot be had: it fails with the error of `getIncomingEdges` and has
asked for the edges of the start vertex only. -/
theorem tspDP_first_query_err {V : Type} (n : Nat) (inc : Nat → Res V (List incomingEdge))
    (si : Nat) (e : SolverError V) (h1 : 1 ≤ n) (hsi : si < n) (herr : inc si = .err e)
    (fuel : Nat) :
    tspDP n inc si (fuel + 1) ⟨List.replicate (2 ^ n) none, []⟩ (2 ^ n - 1) si
      = (.err e, ⟨List.replicate (2 ^ n) none, [si]⟩) := by
  have hfull : 2 ^ n - 1 ≠ 0 := full_ne_zero n h1
  have hany : (!Bitset.IsAnySet (2 ^ n - 1)) = false := by
    cases hb : (!Bitset.IsAnySet (2 ^ n - 1)) with
    | false => rfl
    | true => exact absurd ((IsAnySet_eq_false _).1 hb) hfull
  have hlt : 2 ^ n - 1 < (List.replicate (2 ^ n) (none : Option (List (Option Int)))).length := by
    rw [List.length_replicate]
    exact Nat.sub_lt (Nat.two_pow_pos n) (by decide)
  have hlook : memoLookup (List.replicate (2 ^ n) none) (2 ^ n - 1) si = some none := by
    unfold memoLookup
    rw [List.getElem?_eq_getElem hlt]
    simp
  simp only [tspDP, hany, hlook, herr, List.nil_append]
  rfl

/-- C12: when the vertex list has 2 to 31 pairwise distinct entries, the start vertex is
one of them and one of its incoming edges starts at a vertex that is not listed, the
solver returns an error with weight 0 and no sequence. The error is the one
`getIncomingEdges` produced for the start vertex, unchanged; it names the first such edge
and is not `ErrNoSolution`; and the only vertex whose edges were requested is the start
vertex, so the edge was found at the first query. -/
theorem solver_unknown_edge_vertex {V : Type} [DecidableEq V]
    (g : DynamicProgrammingTSPSolverGraph V) (startVertex : V)
    (h2 : 2 ≤ g.GetVertices.length) (h31 : g.GetVertices.length ≤ 31)
    (hnd : g.GetVertices.Nodup) (hs : startVertex ∈ g.GetVertices)
    (hbad : ∃ e ∈ g.GetIncomingEdges startVertex, e.Vertex ∉ g.GetVertices) :
    ∃ err, err ≠ SolverError.ErrNoSolution ∧
      (∃ e ∈ g.GetIncomingEdges startVertex, e.Vertex ∉ g.GetVertices ∧
        err = .unknownEdgeVertex e.Vertex startVertex) ∧
      getIncomingEdges g g.GetVertices (buildVertexIdxMap g.GetVertices 0 [])
        (List.indexOf startVertex g.GetVertices) = .err err ∧
      DynamicProgrammingTSPSolver (some g) startVertex
        = ⟨.returned ⟨0, [], some err⟩, [startVertex]⟩ := by
  obtain ⟨hsi, hlt, _⟩ := vertex_index g.GetVertices hnd startVertex hs
  have hbad' : ∃ e ∈ g.GetIncomingEdges startVertex,
      mapGet (buildVertexIdxMap g.GetVertices 0 []) e.Vertex = none := by
    obtain ⟨e, he, hne⟩ := hbad
    refine ⟨e, he, ?_⟩
    rw [mapGet_eq_none_iff, mem_keys_buildVertexIdxMap]
    intro hc
    rcases hc with hc | hc
    · exact hne hc
    · simp at hc
  obtain ⟨e, he, hne, hce⟩ := convertEdges_unknown _ startVertex _ hbad'
  have hnotin : e.Vertex ∉ g.GetVertices := by
    intro hin
    obtain ⟨_, _, hm⟩ := vertex_index g.GetVertices hnd e.Vertex hin
    rw [hm] at hne
    simp at hne
  have hinc : getIncomingEdges g g.GetVertices (buildVertexIdxMap g.GetVertices 0 [])
      (List.indexOf startVertex g.GetVertices)
      = .err (.unknownEdgeVertex e.Vertex startVertex) := by
    unfold getIncomingEdges
    rw [hsi]
    exact hce
  refine ⟨.unknownEdgeVertex e.Vertex startVertex, by simp, ⟨e, he, hnotin, rfl⟩, hinc, ?_⟩
  rw [solver_eq_solverMain g startVertex h2 h31,
    solverMain_eq g g.GetVertices startVertex _ hnd h31 hsi]
  unfold solverSearch
  have hfuel : solverFuel g.GetVertices.length = (2 * g.GetVertices.length + 1) + 1 := rfl
  rw [hfuel, tspDP_first_query_err _ _ _ _ (by omega) hlt hinc]
  simp only [queriedVertices, List.filterMap_cons, hsi, List.filterMap_nil]

/-- The solver on the graph with the stray edge `Z -> A`, started at `A`. -/
theorem solver_unknown_edge_vertex_witness :
    ∃ err, err ≠ SolverError.ErrNoSolution ∧
      (∃ e ∈ strayEdgeGraph.GetIncomingEdges "A", e.Vertex ∉ strayEdgeGraph.GetVertices ∧
        err = .unknownEdgeVertex e.Vertex "A") ∧
      getIncomingEdges strayEdgeGraph strayEdgeGraph.GetVertices
        (buildVertexIdxMap strayEdgeGraph.GetVertices 0 [])
        (List.indexOf "A" strayEdgeGraph.GetVertices) = .err err ∧
      DynamicProgrammingTSPSolver (some strayEdgeGraph) "A"
        = ⟨.returned ⟨0, [], some err⟩, ["A"]⟩ :=
  solver_unknown_edge_vertex strayEdgeGraph "A" (by decide) (by decide) (by decide)
    (by decide) ⟨⟨"Z", 1⟩, by decide, by decide⟩

/-! ## The reversal of a forward graph with an empty edge list -/

/-- C13, evaluated: `emptyListGraph` has the edge `A -> B` and the entry `B` with an
empty list. With the entries taken in the order `A`, `B` its reversal is the map with
the single entry `B` and no edge, the round trip gives that same map, and `A` has lost
its outgoing edge: the two edge lists of `A` are no permutation of each other. With the
entries in the order `B`, `A` the round trip gives the edge lists of the graph back. -/
theorem roundtrip_loses_edge :
    AdjListGraph.GetOutgoingEdges emptyListGraph "A" = [⟨"B", 1⟩] ∧
      NewReverseAdjListGraphFromAdjListGraph emptyListGraph = [("B", [])] ∧
      AdjListGraph.GetOutgoingEdges (NewAdjListGraphFromReverseAdjListGraph
        (NewReverseAdjListGraphFromAdjListGraph emptyListGraph)) "A" = [] ∧
      ¬ (AdjListGraph.GetOutgoingEdges (NewAdjListGraphFromReverseAdjListGraph
          (NewReverseAdjListGraphFromAdjListGraph emptyListGraph)) "A").Perm
        (AdjListGraph.GetOutgoingEdges emptyListGraph "A") ∧
      emptyListGraphSwapped.Perm emptyListGraph ∧
      ∀ v, AdjListGraph.GetOutgoingEdges (NewAdjListGraphFromReverseAdjListGraph
          (NewReverseAdjListGraphFromAdjListGraph emptyListGraphSwapped)) v
        = AdjListGraph.GetOutgoingEdges emptyListGraphSwapped v := by
  refine ⟨by decide, by decide, by decide, by decide, by decide, ?_⟩
  intro v
  have h1 : NewAdjListGraphFromReverseAdjListGraph
      (NewReverseAdjListGraphFromAdjListGraph emptyListGraphSwapped)
      = [("A", [⟨"B", 1⟩])] := by decide
  rw [h1]
  unfold emptyListGraphSwapped AdjListGraph.GetOutgoingEdges
  by_cases hB : "B" = v
  · subst hB
    decide
  · simp only [mapGet, hB, if_false]

/-- C14, evaluated. The reversal of `singleEntryGraph` has the entry `B` only: the vertex
`A`, which has an outgoing edge and no incoming edge, is a vertex of the graph and no
vertex of its reversal. The reversal of `emptyListGraph`, with the entries taken in the
order `A`, `B`, has no edge: the half edge `(A, 1)` does not occur among the incoming
edges of `B` although `(B, 1)` occurs once among the outgoing edges of `A`. -/
theorem reverse_loses_vertex_and_edge :
    "A" ∈ AdjListGraph.GetVertices singleEntryGraph ∧
      NewReverseAdjListGraphFromAdjListGraph singleEntryGraph = [("B", [⟨"A", 1⟩])] ∧
      "A" ∉ ReverseAdjListGraph.GetVertices
        (NewReverseAdjListGraphFromAdjListGraph singleEntryGraph) ∧
      (AdjListGraph.GetOutgoingEdges emptyListGraph "A").count ⟨"B", 1⟩ = 1 ∧
      (ReverseAdjListGraph.GetIncomingEdges
        (NewReverseAdjListGraphFromAdjListGraph emptyListGraph) "B").count ⟨"A", 1⟩ = 0 ∧
      "A" ∉ ReverseAdjListGraph.GetVertices
        (NewReverseAdjListGraphFromAdjListGraph emptyListGraph) := by
  refine ⟨by decide, by decide, by decide, by decide, by decide, by decide⟩

/-! ## The bitset operations, bit by bit -/

theorem Set_some (S : Bitset) (v : Nat) (hv : v < 32) :
    Bitset.Set S (v : Int) = some ((S % word) ||| 2 ^ v) := by
  unfold Bitset.Set
  rw [if_neg ((idx_in_range v).2 hv)]
  simp only [Int.toNat_ofNat, Option.some.injEq]
  rw [shift_mod_word v hv]

theorem Set_lt_word (S : Bitset) (v : Nat) (hv : v < 32) : (S % word) ||| 2 ^ v < word := by
  rw [word_eq]
  apply Nat.or_lt_two_pow
  · rw [← word_eq]
    exact Nat.mod_lt _ (by decide)
  · exact Nat.pow_lt_pow_right (by decide) hv

theorem Set_testBit (S : Bitset) (hS : S < word) (v j : Nat) :
    ((S % word) ||| 2 ^ v).testBit j = (S.testBit j || decide (j = v)) := by
  rw [Nat.mod_eq_of_lt hS, Nat.testBit_or, Nat.testBit_two_pow]
  congr 1
  exact decide_eq_decide.2 ⟨fun h => h.symm, fun h => h.symm⟩

theorem IsAnySet_iff_testBit (S : Bitset) (hS : S < word) :
    Bitset.IsAnySet S = true ↔ ∃ k, k < 32 ∧ S.testBit k = true := by
  rw [IsAnySet_eq_true]
  constructor
  · intro h0
    obtain ⟨k, hk⟩ := Nat.ne_zero_implies_bit_true h0
    exact ⟨k, testBit_of_lt_word S hS k hk, hk⟩
  · rintro ⟨k, _, hk⟩ h0
    subst h0
    simp at hk

/-- C15: for a bitset `b` (a 32-bit word) and indices `i`, `j` from 0 to 31, `Set`,
`Unset` and `IsSet` do not panic; bit `j` of `b.Set(i)` is set iff `j = i` or bit `j`
of `b` is set; bit `j` of `b.Unset(i)` is set iff `j ≠ i` and bit `j` of `b` is set; and
`IsAnySet` holds iff some bit from 0 to 31 is set. -/
theorem bitset_set_unset_isSet (b : Bitset) (hb : b < word) (i j : Int)
    (hi : 0 ≤ i ∧ i < 32) (hj : 0 ≤ j ∧ j < 32) :
    (∃ b1 r r0, Bitset.Set b i = some b1 ∧ b1 < word ∧ Bitset.IsSet b1 j = some r ∧
        Bitset.IsSet b j = some r0 ∧ (r = true ↔ (j = i ∨ r0 = true))) ∧
      (∃ b2 r r0, Bitset.Unset b i = some b2 ∧ b2 < word ∧ Bitset.IsSet b2 j = some r ∧
        Bitset.IsSet b j = some r0 ∧ (r = true ↔ (j ≠ i ∧ r0 = true))) ∧
      (Bitset.IsAnySet b = true ↔
        ∃ k : Int, 0 ≤ k ∧ k < 32 ∧ Bitset.IsSet b k = some true) := by
  obtain ⟨i', rfl⟩ := Int.eq_ofNat_of_zero_le hi.1
  obtain ⟨j', rfl⟩ := Int.eq_ofNat_of_zero_le hj.1
  have hi' : i' < 32 := by omega
  have hj' : j' < 32 := by omega
  have hcast : ((j' : Int) = (i' : Int)) ↔ j' = i' := by omega
  refine ⟨?_, ?_, ?_⟩
  · refine ⟨_, _, _, Set_some b i' hi', Set_lt_word b i' hi', IsSet_some _ j' hj',
      IsSet_some b j' hj', ?_⟩
    rw [Set_testBit b hb, hcast]
    cases b.testBit j' <;> simp
  · obtain ⟨_, hlt, _⟩ := Unset_spec b i' _ (Unset_some b i' hi')
    refine ⟨_, _, _, Unset_some b i' hi', hlt, IsSet_some _ j' hj', IsSet_some b j' hj', ?_⟩
    rw [Unset_testBit b i' _ hb (Unset_some b i' hi'), ne_eq, hcast]
    cases b.testBit j' <;> simp
  · rw [IsAnySet_iff_testBit b hb]
    constructor
    · rintro ⟨k, hk, hbit⟩
      refine ⟨(k : Int), by omega, by omega, ?_⟩
      rw [IsSet_some b k hk, hbit]
    · rintro ⟨k, hk0, hk32, hbit⟩
      obtain ⟨k', rfl⟩ := Int.eq_ofNat_of_zero_le hk0
      have hk' : k' < 32 := by omega
      rw [IsSet_some b k' hk'] at hbit
      exact ⟨k', hk', by simpa using hbit⟩

/-- The bitset 5 with the indices 1 and 2. -/
theorem bitset_set_unset_isSet_witness :
    (∃ b1 r r0, Bitset.Set 5 1 = some b1 ∧ b1 < word ∧ Bitset.IsSet b1 2 = some r ∧
        Bitset.IsSet 5 2 = some r0 ∧ (r = true ↔ ((2 : Int) = 1 ∨ r0 = true))) ∧
      (∃ b2 r r0, Bitset.Unset 5 1 = some b2 ∧ b2 < word ∧ Bitset.IsSet b2 2 = some r ∧
        Bitset.IsSet 5 2 = some r0 ∧ (r = true ↔ ((2 : Int) ≠ 1 ∧ r0 = true))) ∧
      (Bitset.IsAnySet 5 = true ↔
        ∃ k : Int, 0 ≤ k ∧ k < 32 ∧ Bitset.IsSet 5 k = some true) :=
  bitset_set_unset_isSet 5 (by decide) 1 2 (by decide) (by decide)

theorem full_testBit (n : Nat) (j : Nat) : (2 ^ n - 1).testBit j = decide (j < n) :=
  Nat.testBit_two_pow_sub_one n j

/-- C16: for `n` from 0 to 31, `NewBitsetAllSet(n)` and `CountBitArrangements(n)` do not
panic; the count is `2 ^ n` and one more than the full set, which is below the word
size; bit `i` of the full set is set iff `i < n`, for `i` from 0 to 31; and every bitset
whose bits are all bits of the full set is below the count, so it is an index of a table
with that many rows. -/
theorem bitset_full_and_count (n : Int) (hn : 0 ≤ n ∧ n ≤ 31) :
    ∃ full count, NewBitsetAllSet n = some full ∧ CountBitArrangements n = some count ∧
      count = 2 ^ n.toNat ∧ count = (full : Int) + 1 ∧ full < word ∧
      (∀ i : Int, 0 ≤ i → i < 32 → Bitset.IsSet full i = some (decide (i < n))) ∧
      ∀ S : Bitset, S < word →
        (∀ i : Int, 0 ≤ i → i < 32 → Bitset.IsSet S i = some true →
          Bitset.IsSet full i = some true) → (S : Int) < count := by
  obtain ⟨n', rfl⟩ := Int.eq_ofNat_of_zero_le hn.1
  have hn' : n' ≤ 31 := by omega
  have hpos : 0 < 2 ^ n' := Nat.two_pow_pos n'
  have hbit : ∀ i : Int, 0 ≤ i → i < 32 →
      Bitset.IsSet (2 ^ n' - 1) i = some (decide (i < (n' : Int))) := by
    intro i hi0 hi32
    obtain ⟨i', rfl⟩ := Int.eq_ofNat_of_zero_le hi0
    rw [IsSet_some _ i' (by omega), full_testBit]
    have hc : ((i' : Int) < (n' : Int)) ↔ i' < n' := by omega
    simp only [Option.some.injEq]
    exact decide_eq_decide.2 hc.symm
  refine ⟨2 ^ n' - 1, ((2 ^ n' : Nat) : Int), NewBitsetAllSet_eq n' hn',
    CountBitArrangements_eq n' hn', ?_, ?_, full_lt_word n' hn', hbit, ?_⟩
  · simp
  · omega
  · intro S hS hsub
    have hlt : S < 2 ^ n' := by
      apply Nat.lt_pow_two_of_testBit
      intro k hk
      by_contra hc
      have hset : S.testBit k = true := by simpa using hc
      have hk32 : k < 32 := testBit_of_lt_word S hS k hset
      have h1 := hsub (k : Int) (by omega) (by omega) (by rw [IsSet_some S k hk32, hset])
      rw [hbit (k : Int) (by omega) (by omega)] at h1
      simp only [Option.some.injEq, decide_eq_true_eq] at h1
      omega
    exact_mod_cast hlt

/-- The largest accepted graph size, 31. -/
theorem bitset_full_and_count_witness :
    ∃ full count, NewBitsetAllSet 31 = some full ∧ CountBitArrangements 31 = some count ∧
      count = 2 ^ (31 : Int).toNat ∧ count = (full : Int) + 1 ∧ full < word ∧
      (∀ i : Int, 0 ≤ i → i < 32 → Bitset.IsSet full i = some (decide (i < 31))) ∧
      ∀ S : Bitset, S < word →
        (∀ i : Int, 0 ≤ i → i < 32 → Bitset.IsSet S i = some true →
          Bitset.IsSet full i = some true) → (S : Int) < count :=
  bitset_full_and_count 31 (by decide)

/-! ## The two panics of the backtracking pass -/

/-- C17, evaluated: on the cycle `A -> B -> C -> A` with the extra edge `B -> A`,
started at `A`, the forward pass `tspDP` from the full set on the fresh memo table
returns the weight 3, and `tspDPPath` from the full set over the memo table that pass
has filled panics with `invalid backtrack`: the predecessor `B` of the first state
passes the eligibility test, its state has no solution, `tspDP` has skipped it and
`tspDPPath` finds its memo cell nil. -/
theorem backtrack_panics_after_forward_pass :
    (tspDP 3 (incomingOfGraph deadBranchGraph) 0 (solverFuel 3)
        ⟨List.replicate 8 none, []⟩ 7 0).1 = .ok 3 ∧
      (tspDP 3 (incomingOfGraph deadBranchGraph) 0 (solverFuel 3)
        ⟨List.replicate 8 none, []⟩ 7 0).2.memo
        = [none, none, some [none, some 1, none], none, none, none,
            some [none, none, some 2], some [some 3, none, none]] ∧
      (tspDPPath (tspDP 3 (incomingOfGraph deadBranchGraph) 0 (solverFuel 3)
          ⟨List.replicate 8 none, []⟩ 7 0).2.memo (incomingOfGraph deadBranchGraph) 0
        (solverFuel 3) [] 7 0).1 = .panic .invalidBacktrack := by
  refine ⟨by decide, by decide, by decide⟩

/-- C18, evaluated. On the cycle `A -> B -> A` with a loop at `B`, started at `A`, the
forward pass reaches the empty set at `B` and the solver panics with `base case must
start at the starting vertex`: in the state with the set `{B}` the loop `B -> B` passes
the eligibility test, which looks for `B` in the set that still holds it. On the graph
with the vertices `A`, `B` and no edge, started at `B`, the forward pass ends with
`ErrNoSolution`, and `tspDPPath`, which finds no predecessor, calls itself with the empty
set and the index 0 and panics in the same way. -/
theorem base_case_panic_reachable :
    (tspDP 2 (incomingOfGraph nonStartLoopGraph) 0 (solverFuel 2)
        ⟨List.replicate 4 none, []⟩ 3 0).1 = .panic .baseCaseNotStart ∧
      (DynamicProgrammingTSPSolver (some nonStartLoopGraph) "A").outcome
        = .panicked .baseCaseNotStart ∧
      (tspDP 2 (incomingOfGraph edgelessGraph) 1 (solverFuel 2)
        ⟨List.replicate 4 none, []⟩ 3 1).1 = .err .ErrNoSolution ∧
      (tspDPPath (List.replicate 4 none) (incomingOfGraph edgelessGraph) 1 (solverFuel 2)
        [] 3 1).1 = .panic .baseCaseNotStart ∧
      (DynamicProgrammingTSPSolver (some edgelessGraph) "B").outcome
        = .panicked .baseCaseNotStart := by
  refine ⟨by decide, by decide, by decide, by decide, by decide⟩

/-! ## The forward pass on a graph without self-loops -/

theorem int_min?_le (l : List Int) (x : Int) (hx : x ∈ l) :
    ∃ c, l.min? = some c ∧ c ≤ x := by
  cases hm : l.min? with
  | none =>
    rw [List.min?_eq_none_iff] at hm
    subst hm
    simp at hx
  | some c =>
    have hanti : Std.Antisymm (fun (a b : Int) => a ≤ b) :=
      ⟨fun h1 h2 => Int.le_antisymm h1 h2⟩
    have hiff : l.min? = some c ↔ c ∈ l ∧ ∀ b, b ∈ l → c ≤ b :=
      List.min?_eq_some_iff (fun a => Int.le_refl a)
        (fun a b => by rcases Int.le_total a b with h | h <;> simp [h])
        (fun a b c => by omega)
    exact ⟨c, rfl, (hiff.1 hm).2 x hx⟩

/-- A chain of indices, read through `vertices`, is a vertex sequence along edges of the
graph whose cheapest edges add up to at most the weight of the chain. -/
theorem Chain_realized {V : Type} [DecidableEq V] (g : DynamicProgrammingTSPSolverGraph V)
    (vs : List V) (hnd : vs.Nodup) (si : Nat) (start : V) (hsi : vs[si]? = some start)
    {S : Bitset} {v : Nat} {p : List Nat} {w : Int}
    (h : Chain (getIncomingEdges g vs (buildVertexIdxMap vs 0 [])) si S v p w) :
    ∃ seq b, collectVertices vs p = some seq ∧ vs[v]? = some b ∧ seq.getLast? = some b ∧
      (∃ w', tourWeight g seq = some w' ∧ w' ≤ w) ∧
      ∀ pr ∈ consecutivePairs seq, ∃ e ∈ g.GetIncomingEdges pr.2, e.Vertex = pr.1 := by
  induction h with
  | base =>
    refine ⟨[start], start, ?_, hsi, rfl, ⟨0, ?_, Int.le_refl 0⟩, ?_⟩
    · simp [collectVertices, hsi]
    · simp [tourWeight, consecutivePairs, pairsWeight]
    · intro pr hpr
      simp [consecutivePairs] at hpr
  | @step S v vwl edges e p w h0 hinc he hel hch ih =>
    obtain ⟨seq', a, hcol, ha, hlast, ⟨w', hw, hle⟩, hedges⟩ := ih
    obtain ⟨b, hb, hall⟩ := getIncomingEdges_ok g vs _ v edges hinc
    obtain ⟨he0, he0mem, hmap, hwt⟩ := forall₂_mem_right hall e he
    have hva : he0.Vertex = a := by
      have h1 := (mapGet_vertexIdxMap_iff vs hnd he0.Vertex e.FromIdx).1 hmap
      rw [ha] at h1
      simp only [Option.some.injEq] at h1
      exact h1.symm
    have hmem : e.Weight ∈ edgeWeights g a b := by
      unfold edgeWeights
      rw [List.mem_filterMap]
      exact ⟨he0, he0mem, by simp [hva, hwt]⟩
    obtain ⟨c, hc, hcle⟩ := int_min?_le _ _ hmem
    have hcheap : cheapestEdge g a b = some c := hc
    refine ⟨seq' ++ [b], b, collectVertices_append vs p v seq' b hcol hb, hb, by simp,
      ⟨w' + c, ?_, by omega⟩, ?_⟩
    · unfold tourWeight at hw ⊢
      rw [consecutivePairs_append_singleton seq' a b hlast]
      exact pairsWeight_append g _ _ _ _ hw (pairsWeight_singleton g a b _ hcheap)
    · intro pr hpr
      rw [consecutivePairs_append_singleton seq' a b hlast] at hpr
      rcases List.mem_append.1 hpr with h1 | h1
      · exact hedges pr h1
      · simp only [List.mem_singleton] at h1
        subst h1
        exact ⟨he0, he0mem, hva⟩

theorem pairsWeight_of_edges {V : Type} [DecidableEq V]
    (g : DynamicProgrammingTSPSolverGraph V) (l : List (V × V))
    (h : ∀ p ∈ l, edgeWeights g p.1 p.2 ≠ []) : ∃ W, pairsWeight g l = some W := by
  induction l with
  | nil => exact ⟨0, rfl⟩
  | cons x rest ih =>
    obtain ⟨t, ht⟩ := ih (fun p hp => h p (List.mem_cons_of_mem _ hp))
    have hne := h x (List.mem_cons_self _ _)
    cases hc : cheapestEdge g x.1 x.2 with
    | none =>
      unfold cheapestEdge at hc
      rw [List.min?_eq_none_iff] at hc
      exact absurd hc hne
    | some c => exact ⟨c + t, by simp only [pairsWeight, hc, ht]⟩

/-- A Hamiltonian cycle has a total weight. -/
theorem cycle_has_weight {V : Type} [DecidableEq V] (g : DynamicProgrammingTSPSolverGraph V)
    (start : V) (cyc : List V) (hcyc : IsHamiltonianCycle g start cyc) :
    ∃ W, tourWeight g cyc = some W :=
  pairsWeight_of_edges g _ hcyc.2.2.2

/-- On a graph without self-loops, the chains from the initial state and the Hamiltonian
cycles through the start vertex have the same least weight. -/
theorem Opt_full_iff_min {V : Type} [DecidableEq V] (g : DynamicProgrammingTSPSolverGraph V)
    (startVertex : V) (hg : IsLoopFreeGraph g) (h2 : 2 ≤ g.GetVertices.length)
    (h31 : g.GetVertices.length ≤ 31) (hs : startVertex ∈ g.GetVertices) :
    (∀ w, Opt (incomingOfGraph g) (List.indexOf startVertex g.GetVertices)
        (2 ^ g.GetVertices.length - 1) (List.indexOf startVertex g.GetVertices) w ↔
      IsMinHamiltonianWeight g startVertex w) ∧
    ((∃ p w, Chain (incomingOfGraph g) (List.indexOf startVertex g.GetVertices)
        (2 ^ g.GetVertices.length - 1) (List.indexOf startVertex g.GetVertices) p w) ↔
      ∃ cyc, IsHamiltonianCycle g startVertex cyc) := by
  obtain ⟨hsi, hsilt, _⟩ := vertex_index g.GetVertices hg.1 startVertex hs
  have hsafe := loopFree_safeIdx g hg
  have hcyc_of_chain : ∀ p w, Chain (incomingOfGraph g)
      (List.indexOf startVertex g.GetVertices) (2 ^ g.GetVertices.length - 1)
      (List.indexOf startVertex g.GetVertices) p w →
      ∃ seq w', IsHamiltonianCycle g startVertex seq ∧ tourWeight g seq = some w' ∧
        w' ≤ w := by
    intro p w hch
    obtain ⟨seq, b, hcol, _, _, ⟨w', htour, hle⟩, hedges⟩ :=
      Chain_realized g _ hg.1 _ startVertex hsi hch
    exact ⟨seq, w', Chain_full_cycle g _ _ startVertex h2 h31 hsi hsafe hch seq hcol hedges,
      htour, hle⟩
  have hchain_of_cyc : ∀ cyc W, IsHamiltonianCycle g startVertex cyc →
      tourWeight g cyc = some W → ∃ p, Chain (incomingOfGraph g)
        (List.indexOf startVertex g.GetVertices) (2 ^ g.GetVertices.length - 1)
        (List.indexOf startVertex g.GetVertices) p W :=
    fun cyc W hcyc hw => chain_of_cycle g hg h31 startVertex cyc W hcyc hw
  constructor
  · intro w
    constructor
    · rintro ⟨⟨p, hch⟩, hmin⟩
      obtain ⟨seq, w', hham, htour, hle⟩ := hcyc_of_chain p w hch
      obtain ⟨p', hch'⟩ := hchain_of_cyc seq w' hham htour
      have hge := hmin _ _ hch'
      have heq : w' = w := by omega
      subst heq
      refine ⟨⟨seq, hham, htour⟩, ?_⟩
      intro cyc w'' hcyc hw''
      obtain ⟨p'', hch''⟩ := hchain_of_cyc cyc w'' hcyc hw''
      exact hmin _ _ hch''
    · rintro ⟨⟨cyc, hcyc, htour⟩, hmin⟩
      obtain ⟨p, hch⟩ := hchain_of_cyc cyc w hcyc htour
      refine ⟨⟨p, hch⟩, ?_⟩
      intro p' w' hch'
      obtain ⟨seq, w'', hham, htour', hle⟩ := hcyc_of_chain p' w' hch'
      have := hmin seq w'' hham htour'
      omega
  · constructor
    · rintro ⟨p, w, hch⟩
      obtain ⟨seq, w', hham, _, _⟩ := hcyc_of_chain p w hch
      exact ⟨seq, hham⟩
    · rintro ⟨cyc, hcyc⟩
      obtain ⟨W, hW⟩ := cycle_has_weight g startVertex cyc hcyc
      obtain ⟨p, hch⟩ := hchain_of_cyc cyc W hcyc hW
      exact ⟨p, W, hch⟩

/-- C20: on a graph with 2 to 31 pairwise distinct vertices, every edge between listed
vertices and no edge from a vertex to itself, with exact integer weights, the call of
`tspDP` from the full set and the start vertex on the fresh memo table, with the fuel
of the solver or more, neither panics nor runs out of fuel nor fails with another error:
it returns a weight or `ErrNoSolution`. It returns the weight `w` exactly when `w` is
the least total weight of a Hamiltonian cycle through the start vertex, and
`ErrNoSolution` exactly when there is no Hamiltonian cycle through the start vertex. -/
theorem tspDP_loop_free_correct {V : Type} [DecidableEq V]
    (g : DynamicProgrammingTSPSolverGraph V) (startVertex : V) (fuel : Nat)
    (hg : IsLoopFreeGraph g) (h2 : 2 ≤ g.GetVertices.length)
    (h31 : g.GetVertices.length ≤ 31) (hs : startVertex ∈ g.GetVertices)
    (hfuel : solverFuel g.GetVertices.length ≤ fuel) :
    ∃ r st, tspDP g.GetVertices.length (incomingOfGraph g)
        (List.indexOf startVertex g.GetVertices) fuel
        ⟨List.replicate (2 ^ g.GetVertices.length) none, []⟩
        (2 ^ g.GetVertices.length - 1) (List.indexOf startVertex g.GetVertices) = (r, st) ∧
      ((∃ w, r = .ok w) ∨ r = .err .ErrNoSolution) ∧
      (∀ w, r = .ok w ↔ IsMinHamiltonianWeight g startVertex w) ∧
      (r = .err .ErrNoSolution ↔ ¬ ∃ cyc, IsHamiltonianCycle g startVertex cyc) := by
  obtain ⟨hsi, hsilt, _⟩ := vertex_index g.GetVertices hg.1 startVertex hs
  have hsafe : SafeIdx g.GetVertices.length (incomingOfGraph g) := loopFree_safeIdx g hg
  have hincf : ∀ i, incomingOfGraph g i ≠ .outOfFuel :=
    getIncomingEdges_not_outOfFuel g g.GetVertices (buildVertexIdxMap g.GetVertices 0 [])
  obtain ⟨hopt, hchain⟩ := Opt_full_iff_min g startVertex hg h2 h31 hs
  cases hdp : tspDP g.GetVertices.length (incomingOfGraph g)
      (List.indexOf startVertex g.GetVertices) fuel
      ⟨List.replicate (2 ^ g.GetVertices.length) none, []⟩
      (2 ^ g.GetVertices.length - 1) (List.indexOf startVertex g.GetVertices) with
  | mk r st =>
    have hnf := tspDP_fuel g.GetVertices.length (incomingOfGraph g)
      (List.indexOf startVertex g.GetVertices) hincf fuel
      ⟨List.replicate (2 ^ g.GetVertices.length) none, []⟩ (2 ^ g.GetVertices.length - 1)
      (List.indexOf startVertex g.GetVertices) (full_lt_word _ h31)
      (Nat.lt_of_lt_of_le (depthMeasure_full _ h31 _) hfuel)
    rw [hdp] at hnf
    obtain ⟨_, hres⟩ := tspDP_safe g.GetVertices.length (incomingOfGraph g)
      (List.indexOf startVertex g.GetVertices) h31 hsafe fuel _ _ _ r st
      (Or.inl (GoodState_full _ _ hsilt)) (MemoShape_fresh _) hdp
    obtain ⟨_, _, hok, hno⟩ := tspDP_sound g.GetVertices.length (incomingOfGraph g)
      (List.indexOf startVertex g.GetVertices) fuel _ _ _ r st (MemoInv_fresh _ _ _) hdp
    have hcases : (∃ w, r = .ok w) ∨ r = .err .ErrNoSolution := by
      rcases hres with h | h | h
      · exact absurd h hnf
      · exact Or.inr h
      · exact Or.inl h
    refine ⟨r, st, rfl, hcases, ?_, ?_⟩
    · intro w
      constructor
      · intro hr
        exact (hopt w).1 (hok w hr).1
      · intro hmin
        rcases hcases with ⟨w0, hw0⟩ | hnone
        · have h0 := (hok w0 hw0).1
          rw [hw0, Opt_unique ((hopt w).2 hmin) h0]
        · exact absurd (hchain.2 ⟨_, hmin.1.choose_spec.1⟩) (hno hnone)
    · constructor
      · intro hr hex
        exact hno hr (hchain.2 hex)
      · intro hnex
        rcases hcases with ⟨w0, hw0⟩ | hnone
        · exact absurd (hchain.1 ⟨_, _, (hok w0 hw0).1.1.choose_spec⟩) hnex
        · exact hnone

/-! ## Bitsets as sets of indices -/

theorem mem_bitsFinset (S : Bitset) (u : Nat) :
    u ∈ bitsFinset S ↔ u < 32 ∧ S.testBit u = true := by
  simp [bitsFinset]

theorem bitsFinset_eq_empty (S : Bitset) (hS : S < word) : bitsFinset S = ∅ ↔ S = 0 := by
  constructor
  · intro h
    by_contra h0
    obtain ⟨k, hk⟩ := Nat.ne_zero_implies_bit_true h0
    have hmem : k ∈ bitsFinset S := (mem_bitsFinset S k).2 ⟨testBit_of_lt_word S hS k hk, hk⟩
    rw [h] at hmem
    simp at hmem
  · intro h
    subst h
    simp [bitsFinset]

theorem bitsFinset_unset (S : Bitset) (v : Nat) (vwl : Bitset) (hS : S < word)
    (h : Bitset.Unset S (v : Int) = some vwl) :
    bitsFinset vwl = (bitsFinset S).erase v := by
  ext j
  rw [mem_bitsFinset, Finset.mem_erase, mem_bitsFinset, Unset_testBit S v vwl hS h j]
  cases S.testBit j <;> simp
  exact And.comm

theorem bitCount_eq_card (S : Bitset) : bitCount S = (bitsFinset S).card := rfl

/-- The eligibility test of the code is the eligibility of the specification. -/
theorem eligible_test_eq (start : Nat) (S : Bitset) (v u : Nat) (vwl : Bitset)
    (hS : S < word) (hu : u < 32) (h : Bitset.Unset S (v : Int) = some vwl) :
    (S.testBit u || (!Bitset.IsAnySet vwl && decide (u = start)))
      = eligibleTransition start (bitsFinset S) v u := by
  have hvwl : vwl < word := (Unset_spec S v vwl h).2.1
  have h1 : decide (u ∈ bitsFinset S) = S.testBit u := by
    cases hb : S.testBit u
    · simp [mem_bitsFinset, hb]
    · simp [mem_bitsFinset, hb, hu]
  have h2 : decide ((bitsFinset S).erase v = ∅) = !Bitset.IsAnySet vwl := by
    rw [← bitsFinset_unset S v vwl hS h]
    cases hb : (!Bitset.IsAnySet vwl)
    · have h0 : ¬ vwl = 0 := fun hc => by
        rw [(IsAnySet_eq_false vwl).2 hc] at hb
        simp at hb
      simp [bitsFinset_eq_empty vwl hvwl, h0]
    · have h0 : vwl = 0 := (IsAnySet_eq_false vwl).1 hb
      have h3 : bitsFinset vwl = ∅ := (bitsFinset_eq_empty vwl hvwl).2 h0
      simp [h3]
  unfold eligibleTransition
  rw [h1, h2]

/-! ## The recurrence `cost` does not depend on the depth it is unfolded to -/

theorem finMeasure_eligible (start : Nat) (S : Finset Nat) (v u : Nat) (h0 : S ≠ ∅)
    (hel : eligibleTransition start S v u = true) :
    finMeasure (S.erase v) u < finMeasure S v := by
  unfold finMeasure
  by_cases hv : v ∈ S
  · have hcard := Finset.card_erase_of_mem hv
    have hpos : 0 < S.card := Finset.card_pos.2 ⟨v, hv⟩
    rw [hcard, if_pos hv]
    split <;> omega
  · have herase : S.erase v = S := Finset.erase_eq_of_not_mem hv
    rw [herase, if_neg hv]
    unfold eligibleTransition at hel
    rw [herase] at hel
    simp only [Bool.or_eq_true, Bool.and_eq_true, decide_eq_true_eq] at hel
    rcases hel with hu | ⟨he, _⟩
    · rw [if_pos hu]
      omega
    · exact absurd he h0

theorem costWithin_depth {V : Type} (inc : Nat → Res V (List incomingEdge)) (start : Nat)
    (d d' : Nat) (S : Finset Nat) (v : Nat) (h : finMeasure S v < d)
    (h' : finMeasure S v < d') :
    costWithin inc start d S v = costWithin inc start d' S v := by
  induction d generalizing d' S v with
  | zero => omega
  | succ d ih =>
    cases d' with
    | zero => omega
    | succ d' =>
      simp only [costWithin]
      by_cases h0 : S = ∅
      · simp only [h0, if_true]
      · simp only [h0, if_false]
        cases hq : inc v with
        | err e => rfl
        | panic p => rfl
        | outOfFuel => rfl
        | ok edges =>
          simp only
          congr 1
          apply List.map_congr_left
          intro e he
          have hel := (List.mem_filter.1 he).2
          have hm := finMeasure_eligible start S v e.FromIdx h0 hel
          rw [ih d' (S.erase v) e.FromIdx (by omega) (by omega)]

theorem finMeasure_lt (S : Finset Nat) (v : Nat) : finMeasure S v < 2 * S.card + 2 := by
  unfold finMeasure
  split <;> omega

theorem costWithin_eq_cost {V : Type} (inc : Nat → Res V (List incomingEdge)) (start : Nat)
    (d : Nat) (S : Finset Nat) (v : Nat) (h : finMeasure S v < d) :
    costWithin inc start d S v = cost inc start S v :=
  costWithin_depth inc start d _ S v h (finMeasure_lt S v)

theorem cost_empty {V : Type} (inc : Nat → Res V (List incomingEdge)) (start : Nat)
    (v : Nat) :
    cost inc start ∅ v = if v = start then .ok 0 else .panic .baseCaseNotStart := by
  simp [cost, costWithin]

theorem costWithin_succ {V : Type} (inc : Nat → Res V (List incomingEdge)) (start : Nat)
    (d : Nat) (S : Finset Nat) (v : Nat) (h0 : S ≠ ∅) :
    costWithin inc start (d + 1) S v =
      match inc v with
      | .err e => .err e
      | .panic p => .panic p
      | .outOfFuel => .outOfFuel
      | .ok edges =>
        minCandidate
          ((edges.filter (fun e => eligibleTransition start S v e.FromIdx)).map
            (fun e => candidate (costWithin inc start d (S.erase v) e.FromIdx) e.Weight)) := by
  cases hq : inc v with
  | err e => simp only [costWithin, h0, if_false, hq]
  | panic p => simp only [costWithin, h0, if_false, hq]
  | outOfFuel => simp only [costWithin, h0, if_false, hq]
  | ok edges => simp only [costWithin, h0, if_false, hq]

/-- The recurrence of `cost` on a set that is not empty. -/
theorem cost_step {V : Type} (inc : Nat → Res V (List incomingEdge)) (start : Nat)
    (S : Finset Nat) (v : Nat) (h0 : S ≠ ∅) :
    cost inc start S v =
      match inc v with
      | .err e => .err e
      | .panic p => .panic p
      | .outOfFuel => .outOfFuel
      | .ok edges =>
        minCandidate
          ((edges.filter (fun e => eligibleTransition start S v e.FromIdx)).map
            (fun e => candidate (cost inc start (S.erase v) e.FromIdx) e.Weight)) := by
  have hc : cost inc start S v = costWithin inc start (2 * S.card + 1 + 1) S v := rfl
  rw [hc, costWithin_succ inc start _ S v h0]
  cases hq : inc v with
  | err e => rfl
  | panic p => rfl
  | outOfFuel => rfl
  | ok edges =>
    simp only
    congr 1
    apply List.map_congr_left
    intro e he
    have hel := (List.mem_filter.1 he).2
    have hm := finMeasure_eligible start S v e.FromIdx h0 hel
    have hlt := finMeasure_lt S v
    have hle : finMeasure S v ≤ 2 * S.card + 1 := by unfold finMeasure; split <;> omega
    rw [costWithin_eq_cost inc start (2 * S.card + 1) (S.erase v) e.FromIdx (by omega)]

/-- The recurrence `cost` never runs out of depth when the graph answers. -/
theorem cost_not_outOfFuel {V : Type} (inc : Nat → Res V (List incomingEdge)) (start : Nat)
    (hinc : ∀ i, inc i ≠ .outOfFuel) (d : Nat) (S : Finset Nat) (v : Nat)
    (h : finMeasure S v < d) : costWithin inc start d S v ≠ .outOfFuel := by
  induction d generalizing S v with
  | zero => omega
  | succ d ih =>
    simp only [costWithin]
    by_cases h0 : S = ∅
    · simp only [h0, if_true]
      split <;> simp
    · simp only [h0, if_false]
      cases hq : inc v with
      | err e => simp
      | panic p => simp
      | outOfFuel => exact absurd hq (hinc v)
      | ok edges =>
        simp only
        have hall : ∀ c ∈ (edges.filter (fun e => eligibleTransition start S v e.FromIdx)).map
            (fun e => candidate (costWithin inc start d (S.erase v) e.FromIdx) e.Weight),
            c ≠ Res.outOfFuel := by
          intro c hc
          obtain ⟨e, he, rfl⟩ := List.mem_map.1 hc
          have hel := (List.mem_filter.1 he).2
          have hm := finMeasure_eligible start S v e.FromIdx h0 hel
          have hsub := ih (S.erase v) e.FromIdx (by omega)
          cases hcw : costWithin inc start d (S.erase v) e.FromIdx with
          | outOfFuel => exact absurd hcw hsub
          | ok c => simp [candidate]
          | err e => simp [candidate]
          | panic p => simp [candidate]
        generalize (edges.filter (fun e => eligibleTransition start S v e.FromIdx)).map
            (fun e => candidate (costWithin inc start d (S.erase v) e.FromIdx) e.Weight)
          = cs at hall
        induction cs with
        | nil => simp [minCandidate]
        | cons c rest ihc =>
          have hrest := ihc (fun c hc => hall c (List.mem_cons_of_mem _ hc))
          have hc := hall c (List.mem_cons_self _ _)
          cases c with
          | outOfFuel => exact absurd rfl hc
          | panic p => simp [minCandidate]
          | err e =>
            cases e <;> simp [minCandidate, hrest]
          | ok x =>
            simp only [minCandidate]
            cases hmr : minCandidate rest with
            | outOfFuel => exact absurd hmr hrest
            | panic p => simp
            | ok y => simp
            | err e => cases e <;> simp

/-! ## `tspDP` with the memo table computes `cost` -/

theorem minUpdate_min (r : Option Int) (x y : Int) :
    minUpdate (minUpdate r x) y = minUpdate r (min x y) := by
  have hmin : min x y = if x ≤ y then x else y := Int.min_def x y
  rw [hmin]
  cases r with
  | none =>
    simp only [minUpdate]
    by_cases h1 : y < x
    · have h2 : ¬ x ≤ y := by omega
      simp only [h1, h2, if_true, if_false]
    · have h2 : x ≤ y := by omega
      simp only [h1, h2, if_true, if_false]
  | some r =>
    by_cases h1 : x < r
    · by_cases h2 : y < x
      · have h3 : ¬ x ≤ y := by omega
        have h4 : y < r := by omega
        simp only [minUpdate, h1, h2, h3, h4, if_true, if_false]
      · have h3 : x ≤ y := by omega
        simp only [minUpdate, h1, h2, h3, if_true, if_false]
    · by_cases h2 : y < r
      · have h3 : ¬ x ≤ y := by omega
        simp only [minUpdate, h1, h2, h3, if_true, if_false]
      · by_cases h3 : x ≤ y
        · simp only [minUpdate, h1, h2, h3, if_true, if_false]
        · simp only [minUpdate, h1, h2, h3, if_true, if_false]

theorem two_pow_le_word (n : Nat) (hn : n ≤ 31) : 2 ^ n ≤ word := by
  have h := full_lt_word n hn
  have hpos : 0 < 2 ^ n := Nat.two_pow_pos n
  omega

theorem MemoCost_fresh {V : Type} (inc : Nat → Res V (List incomingEdge)) (start : Nat)
    (k : Nat) : MemoCost inc start (List.replicate k none) := by
  intro S v w h
  rw [memoCell_replicate] at h
  simp at h

theorem foldCandidate_cons_ok {V : Type} (result : Option Int) (x : Int)
    (rest : List (Res V Int)) :
    foldCandidate result (minCandidate (.ok x :: rest))
      = foldCandidate (minUpdate result x) (minCandidate rest) := by
  simp only [minCandidate]
  cases minCandidate rest with
  | ok y => simp only [foldCandidate, minUpdate_min]
  | err e => cases e <;> simp only [foldCandidate]
  | panic p => simp only [foldCandidate]
  | outOfFuel => simp only [foldCandidate]

theorem minCandidate_cons_noSolution {V : Type} (rest : List (Res V Int)) :
    minCandidate (.err .ErrNoSolution :: rest) = minCandidate rest := by
  simp only [minCandidate]

/-- The loop of `tspDP` computes the minimum candidate of the specification, when each
call it makes returns `cost` of its state and keeps the memo table in shape and its
cells equal to `cost`. -/
theorem tspDPLoop_refines {V : Type} {n start : Nat} (inc : Nat → Res V (List incomingEdge))
    {call : DPState → Bitset → Nat → Res V Int × DPState} (hn : n ≤ 31)
    (S : Bitset) (v : Nat) (vwl : Bitset) (hS : S < 2 ^ n)
    (hun : Bitset.Unset S (v : Int) = some vwl)
    (hcall : ∀ st u, u < n → eligibleTransition start (bitsFinset S) v u = true →
      MemoShape n st.memo → MemoCost inc start st.memo →
      (call st vwl u).1 = cost inc start ((bitsFinset S).erase v) u ∧
        MemoShape n (call st vwl u).2.memo ∧ MemoCost inc start (call st vwl u).2.memo)
    (l : List incomingEdge) (hl : ∀ e ∈ l, e.FromIdx < n) (result : Option Int)
    (st : DPState) (hshape : MemoShape n st.memo) (hcost : MemoCost inc start st.memo) :
    (tspDPLoop call start S v l result st).1 =
        foldCandidate result (minCandidate
          ((l.filter (fun e => eligibleTransition start (bitsFinset S) v e.FromIdx)).map
            (fun e => candidate (cost inc start ((bitsFinset S).erase v) e.FromIdx)
              e.Weight))) ∧
      MemoShape n (tspDPLoop call start S v l result st).2.memo ∧
      MemoCost inc start (tspDPLoop call start S v l result st).2.memo := by
  have hSw : S < word := Nat.lt_of_lt_of_le hS (two_pow_le_word n hn)
  induction l generalizing result st with
  | nil =>
    simp only [tspDPLoop, List.filter_nil, List.map_nil, minCandidate, foldCandidate]
    exact ⟨trivial, hshape, hcost⟩
  | cons e rest ih =>
    have hu : e.FromIdx < n := hl e (List.mem_cons_self _ _)
    have hrest : ∀ x ∈ rest, x.FromIdx < n := fun x hx => hl x (List.mem_cons_of_mem _ hx)
    have htest := eligible_test_eq start S v e.FromIdx vwl hSw (by omega) hun
    simp only [tspDPLoop, hun, IsSet_some S e.FromIdx (by omega), htest]
    by_cases hel : eligibleTransition start (bitsFinset S) v e.FromIdx = true
    · obtain ⟨hres, hsh1, hco1⟩ := hcall st e.FromIdx hu hel hshape hcost
      simp only [List.filter_cons, hel, if_true, List.map_cons]
      rw [← hres]
      cases hc : call st vwl e.FromIdx with
      | mk r st1 =>
        rw [hc] at hsh1 hco1
        simp only at hsh1 hco1 ⊢
        obtain ⟨ih1, ih2, ih3⟩ := ih hrest result st1 hsh1 hco1
        cases r with
        | ok weight =>
          obtain ⟨ih1', ih2', ih3'⟩ := ih hrest (minUpdate result (weight + e.Weight)) st1
            hsh1 hco1
          refine ⟨?_, ih2', ih3'⟩
          rw [ih1']
          exact (foldCandidate_cons_ok result (weight + e.Weight) _).symm
        | err e2 =>
          cases e2 with
          | ErrNoSolution =>
            refine ⟨?_, ih2, ih3⟩
            rw [ih1]
            exact congrArg (foldCandidate result) (minCandidate_cons_noSolution _).symm
          | tooManyVertices => exact ⟨rfl, hsh1, hco1⟩
          | nonUniqueVertices => exact ⟨rfl, hsh1, hco1⟩
          | unknownStartVertex s => exact ⟨rfl, hsh1, hco1⟩
          | unknownEdgeVertex a b => exact ⟨rfl, hsh1, hco1⟩
        | panic p => exact ⟨rfl, hsh1, hco1⟩
        | outOfFuel => exact ⟨rfl, hsh1, hco1⟩
    · simp only [List.filter_cons, hel, if_false]
      exact ih hrest result st hshape hcost

/-- A call of `tspDP` on a memo table in shape whose cells equal `cost` returns `cost` of
its state, whatever the outcome is, and leaves such a table behind. -/
theorem tspDP_refines {V : Type} (n : Nat) (inc : Nat → Res V (List incomingEdge))
    (start : Nat) (hn : n ≤ 31)
    (hinc : ∀ i l, inc i = .ok l → ∀ e ∈ l, e.FromIdx < n) (fuel : Nat) (st : DPState)
    (S : Bitset) (v : Nat) (hS : S < 2 ^ n) (hv : v < n) (hfuel : depthMeasure S v < fuel)
    (hshape : MemoShape n st.memo) (hcost : MemoCost inc start st.memo) :
    (tspDP n inc start fuel st S v).1 = cost inc start (bitsFinset S) v ∧
      MemoShape n (tspDP n inc start fuel st S v).2.memo ∧
      MemoCost inc start (tspDP n inc start fuel st S v).2.memo := by
  induction fuel generalizing st S v with
  | zero => omega
  | succ fuel ih =>
    have hSw : S < word := Nat.lt_of_lt_of_le hS (two_pow_le_word n hn)
    simp only [tspDP]
    by_cases h0 : S = 0
    · subst h0
      have hany : (!Bitset.IsAnySet 0) = true := (IsAnySet_eq_false 0).2 rfl
      have hemp : bitsFinset 0 = ∅ := (bitsFinset_eq_empty 0 hSw).2 rfl
      simp only [hany, if_true]
      rw [hemp, cost_empty]
      by_cases hvs : v = start
      · simp only [hvs, ne_eq, not_true_eq_false, if_false, if_true]
        exact ⟨trivial, hshape, hcost⟩
      · simp only [hvs, ne_eq, not_false_eq_true, if_true, if_false]
        exact ⟨trivial, hshape, hcost⟩
    · have hany : (!Bitset.IsAnySet S) = false := by
        cases hb : (!Bitset.IsAnySet S) with
        | false => rfl
        | true => exact absurd ((IsAnySet_eq_false S).1 hb) h0
      have hne : bitsFinset S ≠ ∅ := fun hc => h0 ((bitsFinset_eq_empty S hSw).1 hc)
      simp only [hany, Bool.false_eq_true, if_false]
      cases hlook : memoLookup st.memo S v with
      | none => exact absurd hlook (MemoShape_lookup hshape S v hS hv)
      | some cell =>
        cases cell with
        | some w =>
          simp only
          exact ⟨(hcost S v w (memoLookup_cell _ _ _ _ hlook)).symm, hshape, hcost⟩
        | none =>
          simp only
          have hstep := cost_step inc start (bitsFinset S) v hne
          cases hq : inc v with
          | err e =>
            rw [hq] at hstep
            exact ⟨hstep.symm, hshape, hcost⟩
          | panic p =>
            rw [hq] at hstep
            exact ⟨hstep.symm, hshape, hcost⟩
          | outOfFuel =>
            rw [hq] at hstep
            exact ⟨hstep.symm, hshape, hcost⟩
          | ok edges =>
            rw [hq] at hstep
            simp only at hstep ⊢
            have hv32 : v < 32 := by omega
            have hun := Unset_some S v hv32
            have hvwl : (S % word) &&& (word - 1 - 2 ^ v) < 2 ^ n :=
              Nat.lt_of_le_of_lt (Unset_le S v _ hSw hun) hS
            have hcall : ∀ (st1 : DPState) (u : Nat), u < n →
                eligibleTransition start (bitsFinset S) v u = true →
                MemoShape n st1.memo → MemoCost inc start st1.memo →
                (tspDP n inc start fuel st1 ((S % word) &&& (word - 1 - 2 ^ v)) u).1
                    = cost inc start ((bitsFinset S).erase v) u ∧
                  MemoShape n
                    (tspDP n inc start fuel st1 ((S % word) &&& (word - 1 - 2 ^ v)) u).2.memo ∧
                  MemoCost inc start
                    (tspDP n inc start fuel st1 ((S % word) &&& (word - 1 - 2 ^ v)) u).2.memo := by
              intro st1 u hu hel hsh1 hco1
              have hu32 : u < 32 := by omega
              have htest := eligible_test_eq start S v u _ hSw hu32 hun
              rw [hel] at htest
              have helig : Eligible start S v u ((S % word) &&& (word - 1 - 2 ^ v)) :=
                Eligible_of_test hun (IsSet_some S u hu32) htest
              have hm := (Eligible_depthMeasure hSw h0 helig).2
              have h3 := ih st1 _ u hvwl hu (by omega) hsh1 hco1
              rw [bitsFinset_unset S v _ hSw hun] at h3
              exact h3
            obtain ⟨hl1, hl2, hl3⟩ := tspDPLoop_refines inc hn S v _ hS hun hcall edges
              (hinc v edges hq) none ⟨st.memo, st.queries ++ [v]⟩ hshape hcost
            rw [← hstep] at hl1
            cases hl : tspDPLoop (tspDP n inc start fuel) start S v edges none
                ⟨st.memo, st.queries ++ [v]⟩ with
            | mk r st1 =>
              rw [hl] at hl1 hl2 hl3
              simp only at hl1 hl2 hl3 ⊢
              cases hc : cost inc start (bitsFinset S) v with
              | ok y =>
                rw [hc] at hl1
                simp only [foldCandidate, minUpdate] at hl1
                subst hl1
                simp only
                obtain ⟨memo', hst, hsh'⟩ := MemoShape_store hl2 S v y hS hv
                rw [hst]
                refine ⟨rfl, hsh', ?_⟩
                intro S' v' w' hcell
                rw [memoCell_store _ _ _ _ _ _ hst] at hcell
                split at hcell
                · rename_i heq
                  simp only [Option.some.injEq] at hcell
                  rw [heq.1, heq.2, ← hcell]
                  exact hc
                · exact hl3 S' v' w' hcell
              | err e =>
                rw [hc] at hl1
                cases e with
                | ErrNoSolution =>
                  simp only [foldCandidate] at hl1
                  subst hl1
                  exact ⟨rfl, hl2, hl3⟩
                | tooManyVertices =>
                  simp only [foldCandidate] at hl1
                  subst hl1
                  exact ⟨rfl, hl2, hl3⟩
                | nonUniqueVertices =>
                  simp only [foldCandidate] at hl1
                  subst hl1
                  exact ⟨rfl, hl2, hl3⟩
                | unknownStartVertex s =>
                  simp only [foldCandidate] at hl1
                  subst hl1
                  exact ⟨rfl, hl2, hl3⟩
                | unknownEdgeVertex a b =>
                  simp only [foldCandidate] at hl1
                  subst hl1
                  exact ⟨rfl, hl2, hl3⟩
              | panic p =>
                rw [hc] at hl1
                simp only [foldCandidate] at hl1
                subst hl1
                exact ⟨rfl, hl2, hl3⟩
              | outOfFuel =>
                rw [hc] at hl1
                simp only [foldCandidate] at hl1
                subst hl1
                exact ⟨rfl, hl2, hl3⟩

/-! ## Memoization does not change the results -/

theorem mapGet_buildVertexIdxMap_lt {V : Type} [DecidableEq V] (vs : List V) (i : Nat)
    (m : List (V × Nat)) (hm : ∀ k x, mapGet m k = some x → x < i) (v : V) (j : Nat)
    (h : mapGet (buildVertexIdxMap vs i m) v = some j) : j < i + vs.length := by
  induction vs generalizing i m with
  | nil =>
    simp only [buildVertexIdxMap] at h
    have := hm v j h
    simpa using this
  | cons a rest ih =>
    simp only [buildVertexIdxMap] at h
    have hm' : ∀ k x, mapGet (mapSet m a i) k = some x → x < i + 1 := by
      intro k x hk
      rw [mapGet_mapSet] at hk
      split at hk
      · simp only [Option.some.injEq] at hk
        omega
      · have := hm k x hk
        omega
    have := ih (i + 1) (mapSet m a i) hm' h
    simp only [List.length_cons]
    omega

/-- The closure `getIncomingEdges` of the solver only yields indices of vertices. -/
theorem incomingOfGraph_lt {V : Type} [DecidableEq V] (g : DynamicProgrammingTSPSolverGraph V)
    (i : Nat) (l : List incomingEdge) (h : incomingOfGraph g i = .ok l) :
    ∀ e ∈ l, e.FromIdx < g.GetVertices.length := by
  intro e he
  obtain ⟨b, _, hall⟩ := getIncomingEdges_ok g g.GetVertices _ i l h
  obtain ⟨he0, _, hmap, _⟩ := forall₂_mem_right hall e he
  have := mapGet_buildVertexIdxMap_lt g.GetVertices 0 [] (fun k x hk => by simp [mapGet] at hk)
    he0.Vertex e.FromIdx hmap
  omega

/-- C19: memoization does not change the results. For every graph of at most 31
vertices, every start index and every state `(S, v)` with `S` a subset of the full set
and `v` the index of a vertex (the states reached from the full set and the start vertex
are of this kind), a call of `tspDP` with enough fuel on a memo table in shape whose
cells that are not nil each hold `cost` of their state has the outcome `cost(S, v)` of
the memo-free recurrence of the specification: the same weight, no solution alike, and
the same defect or graph error. The call leaves a table in shape whose cells that are
not nil each hold `cost` of their state, and the fresh table is such a table; the table
changes only when a call stores its result, so every table of a run is such a table. The
recurrence `cost` itself never runs out of depth. -/
theorem tspDP_memo_refines_cost {V : Type} [DecidableEq V]
    (g : DynamicProgrammingTSPSolverGraph V) (start fuel : Nat) (st : DPState) (S : Bitset)
    (v : Nat) (h31 : g.GetVertices.length ≤ 31) (hS : S < 2 ^ g.GetVertices.length)
    (hv : v < g.GetVertices.length) (hfuel : depthMeasure S v < fuel)
    (hshape : MemoShape g.GetVertices.length st.memo)
    (hcost : MemoCost (incomingOfGraph g) start st.memo) :
    (tspDP g.GetVertices.length (incomingOfGraph g) start fuel st S v).1
        = cost (incomingOfGraph g) start (bitsFinset S) v ∧
      cost (incomingOfGraph g) start (bitsFinset S) v ≠ .outOfFuel ∧
      MemoShape g.GetVertices.length
        (tspDP g.GetVertices.length (incomingOfGraph g) start fuel st S v).2.memo ∧
      MemoCost (incomingOfGraph g) start
        (tspDP g.GetVertices.length (incomingOfGraph g) start fuel st S v).2.memo ∧
      MemoShape g.GetVertices.length (List.replicate (2 ^ g.GetVertices.length) none) ∧
      MemoCost (incomingOfGraph g) start
        (List.replicate (2 ^ g.GetVertices.length) none) := by
  obtain ⟨h1, h2, h3⟩ := tspDP_refines g.GetVertices.length (incomingOfGraph g) start h31
    (incomingOfGraph_lt g) fuel st S v hS hv hfuel hshape hcost
  refine ⟨h1, ?_, h2, h3, MemoShape_fresh _, MemoCost_fresh _ _ _⟩
  exact cost_not_outOfFuel (incomingOfGraph g) start
    (getIncomingEdges_not_outOfFuel g g.GetVertices (buildVertexIdxMap g.GetVertices 0 []))
    _ _ _ (finMeasure_lt _ _)

/-- The first call of the solver on the cycle `A -> B -> C -> A` with the extra edge
`B -> A`, started at `A`, on the fresh memo table. -/
theorem tspDP_memo_refines_cost_witness :
    (tspDP deadBranchGraph.GetVertices.length (incomingOfGraph deadBranchGraph) 0
          (solverFuel 3) ⟨List.replicate (2 ^ 3) none, []⟩ (2 ^ 3 - 1) 0).1
        = cost (incomingOfGraph deadBranchGraph) 0 (bitsFinset (2 ^ 3 - 1)) 0 ∧
      cost (incomingOfGraph deadBranchGraph) 0 (bitsFinset (2 ^ 3 - 1)) 0 ≠ .outOfFuel ∧
      MemoShape deadBranchGraph.GetVertices.length
        (tspDP deadBranchGraph.GetVertices.length (incomingOfGraph deadBranchGraph) 0
          (solverFuel 3) ⟨List.replicate (2 ^ 3) none, []⟩ (2 ^ 3 - 1) 0).2.memo ∧
      MemoCost (incomingOfGraph deadBranchGraph) 0
        (tspDP deadBranchGraph.GetVertices.length (incomingOfGraph deadBranchGraph) 0
          (solverFuel 3) ⟨List.replicate (2 ^ 3) none, []⟩ (2 ^ 3 - 1) 0).2.memo ∧
      MemoShape deadBranchGraph.GetVertices.length
        (List.replicate (2 ^ deadBranchGraph.GetVertices.length) none) ∧
      MemoCost (incomingOfGraph deadBranchGraph) 0
        (List.replicate (2 ^ deadBranchGraph.GetVertices.length) none) :=
  tspDP_memo_refines_cost deadBranchGraph 0 (solverFuel 3)
    ⟨List.replicate (2 ^ 3) none, []⟩ (2 ^ 3 - 1) 0 (by decide) (by decide) (by decide)
    (depthMeasure_full 3 (by decide) 0) (MemoShape_fresh 3) (MemoCost_fresh _ _ _)

/-- The forward pass on the cycle `A -> B -> C -> A` with the extra edge `B -> A`,
started at `A`: it returns 3, the least weight of a Hamiltonian cycle through `A`. -/
theorem tspDP_loop_free_correct_witness :
    (tspDP deadBranchGraph.GetVertices.length (incomingOfGraph deadBranchGraph)
        (List.indexOf "A" deadBranchGraph.GetVertices) (solverFuel 3)
        ⟨List.replicate (2 ^ deadBranchGraph.GetVertices.length) none, []⟩
        (2 ^ deadBranchGraph.GetVertices.length - 1)
        (List.indexOf "A" deadBranchGraph.GetVertices)).1 = .ok 3 ∧
      IsMinHamiltonianWeight deadBranchGraph "A" 3 := by
  obtain ⟨r, st, hdp, _, hmin, _⟩ := tspDP_loop_free_correct deadBranchGraph "A"
    (solverFuel 3) (by unfold IsLoopFreeGraph; decide) (by decide) (by decide) (by decide)
    (by decide)
  have h3 : (tspDP deadBranchGraph.GetVertices.length (incomingOfGraph deadBranchGraph)
      (List.indexOf "A" deadBranchGraph.GetVertices) (solverFuel 3)
      ⟨List.replicate (2 ^ deadBranchGraph.GetVertices.length) none, []⟩
      (2 ^ deadBranchGraph.GetVertices.length - 1)
      (List.indexOf "A" deadBranchGraph.GetVertices)).1 = .ok 3 := by decide
  refine ⟨h3, ?_⟩
  rw [hdp] at h3
  exact (hmin 3).1 h3

/-! ## Weight sums within the range of the weight type -/

theorem sum_in_range (k B : Nat) (L U x e : Int) (hk : k + 1 ≤ B) (hL : L ≤ 0) (hU : 0 ≤ U)
    (h1 : (k : Int) * L ≤ x) (h2 : x ≤ (k : Int) * U) (h3 : L ≤ e) (h4 : e ≤ U) :
    (B : Int) * L ≤ x + e ∧ x + e ≤ (B : Int) * U := by
  have hkB : ((k : Int) + 1) ≤ (B : Int) := by exact_mod_cast hk
  have hd : 0 ≤ (B : Int) - ((k : Int) + 1) := by omega
  have h5 : 0 ≤ ((B : Int) - ((k : Int) + 1)) * (-L) := Int.mul_nonneg hd (by omega)
  have h6 : 0 ≤ ((B : Int) - ((k : Int) + 1)) * U := Int.mul_nonneg hd hU
  constructor
  · nlinarith
  · nlinarith

/-- The weight of a chain from a state of `P` is a sum of at most `depth` edge weights. -/
theorem chain_bound {V : Type} {inc : Nat → Res V (List incomingEdge)} {start : Nat}
    {P : Bitset → Nat → Prop} {depth : Bitset → Nat → Nat}
    (hstep : StepInv inc start P depth) (L U : Int) (hL : L ≤ 0) (hU : 0 ≤ U)
    (hM : ∀ i edges, inc i = .ok edges → ∀ e ∈ edges, L ≤ e.Weight ∧ e.Weight ≤ U)
    {S : Bitset} {v : Nat} {p : List Nat} {w : Int} (h : Chain inc start S v p w)
    (hP : P S v) :
    (depth S v : Int) * L ≤ w ∧ w ≤ (depth S v : Int) * U := by
  induction h with
  | base =>
    constructor
    · have := Int.mul_nonneg (Int.ofNat_nonneg (depth 0 start)) (by omega : 0 ≤ -L)
      nlinarith
    · exact Int.mul_nonneg (Int.ofNat_nonneg _) hU
  | @step S v vwl edges e p w h0 hinc he hel hch ih =>
    obtain ⟨hP', hd⟩ := hstep.2 S v vwl edges e hP h0 hinc he hel
    obtain ⟨ih1, ih2⟩ := ih hP'
    obtain ⟨h3, h4⟩ := hM v edges hinc e he
    exact sum_in_range _ _ L U w e.Weight hd hL hU ih1 ih2 h3 h4

/-- Every state with a 32-bit set, with the depth measure as bound. -/
theorem stepInv_depthMeasure {V : Type} (inc : Nat → Res V (List incomingEdge))
    (start : Nat) : StepInv inc start (fun S _ => S < word) depthMeasure := by
  refine ⟨fun S v h => h, ?_⟩
  intro S v vwl edges e hP h0 _ _ hel
  obtain ⟨hvwl, hm⟩ := Eligible_depthMeasure hP h0 hel
  exact ⟨hvwl, hm⟩

/-- Without self-loops: the states the solver reaches and the base case, with the
number of vertices in the set as bound. -/
theorem stepInv_goodState {V : Type} {n : Nat} {inc : Nat → Res V (List incomingEdge)}
    (start : Nat) (hn : n ≤ 31) (hsafe : SafeIdx n inc) :
    StepInv inc start (fun S v => GoodState n start S v ∨ (S = 0 ∧ v = start))
      (fun S _ => bitCount S) := by
  constructor
  · intro S v hP
    rcases hP with hgood | ⟨hz, _⟩
    · exact (GoodState_lt_word hn hgood).1
    · subst hz
      unfold word
      decide
  · intro S v vwl edges e hP h0 hq he hel
    rcases hP with hgood | ⟨hz, _⟩
    · obtain ⟨hu, huv⟩ := SafeIdx_edges hsafe hgood.2.1 hq he
      have hSw := (GoodState_lt_word hn hgood).1
      have hlt := bitCount_unset_lt S v vwl hSw hel.1 hgood.2.2.1
      exact ⟨GoodState_next hn hgood hel hu huv, hlt⟩
    · exact absurd hz h0

theorem depthMeasure_full_le (n : Nat) (hn : n ≤ 31) (v : Nat) (hv : v < n) :
    depthMeasure (2 ^ n - 1) v ≤ 2 * n := by
  have h1 : 2 ^ n - 1 < 2 ^ n := Nat.sub_lt (Nat.two_pow_pos n) (by decide)
  have h2 := bitCount_le (2 ^ n - 1) n (by omega) h1
  have h3 : (2 ^ n - 1).testBit v = true := by
    rw [Nat.testBit_two_pow_sub_one]
    simpa using hv
  unfold depthMeasure
  rw [if_pos h3]
  omega

theorem bitCount_full_le (n : Nat) (hn : n ≤ 31) : bitCount (2 ^ n - 1) ≤ n :=
  bitCount_le (2 ^ n - 1) n (by omega) (Nat.sub_lt (Nat.two_pow_pos n) (by decide))

/-! ## Without overflow the fixed-width solver is the exact solver -/

theorem tspDPLoopW_eq {V : Type} {inc : Nat → Res V (List incomingEdge)} {start : Nat}
    {P : Bitset → Nat → Prop} {depth : Bitset → Nat → Nat}
    (hstep : StepInv inc start P depth)
    (wrap : Int → Int) (L U : Int) (B : Nat) (hL : L ≤ 0) (hU : 0 ≤ U)
    (hM : ∀ i edges, inc i = .ok edges → ∀ e ∈ edges, L ≤ e.Weight ∧ e.Weight ≤ U)
    (hwrap : ∀ x : Int, (B : Int) * L ≤ x → x ≤ (B : Int) * U → wrap x = x)
    {callW call : DPState → Bitset → Nat → Res V Int × DPState}
    (hsound : CallSound inc start call)
    (S : Bitset) (v : Nat) (hP : P S v) (h0 : S ≠ 0) (hB : depth S v ≤ B)
    (edges : List incomingEdge) (hq : inc v = .ok edges)
    (hcall : ∀ st vwl u, P vwl u → depth vwl u + 1 ≤ depth S v →
      MemoInv inc start st.memo → callW st vwl u = call st vwl u)
    (l : List incomingEdge) (hl : ∀ e ∈ l, e ∈ edges)
    (result : Option Int) (st : DPState) (hinv : MemoInv inc start st.memo) :
    tspDPLoopW wrap callW start S v l result st = tspDPLoop call start S v l result st := by
  induction l generalizing result st with
  | nil => simp only [tspDPLoopW, tspDPLoop]
  | cons e rest ih =>
    have hrest : ∀ x ∈ rest, x ∈ edges := fun x hx => hl x (List.mem_cons_of_mem _ hx)
    have hemem : e ∈ edges := hl e (List.mem_cons_self _ _)
    obtain ⟨he1, he2⟩ := hM v edges hq e hemem
    simp only [tspDPLoopW, tspDPLoop]
    cases hun : Bitset.Unset S (v : Int) with
    | none => rfl
    | some vwl =>
      cases his : Bitset.IsSet S (e.FromIdx : Int) with
      | none => rfl
      | some isSet =>
        simp only
        by_cases htest : (isSet || (!Bitset.IsAnySet vwl && decide (e.FromIdx = start))) = true
        · have hel : Eligible start S v e.FromIdx vwl := Eligible_of_test hun his htest
          obtain ⟨hP', hd⟩ := hstep.2 S v vwl edges e hP h0 hq hemem hel
          simp only [htest, if_true]
          rw [hcall st vwl e.FromIdx hP' hd hinv]
          cases hc : call st vwl e.FromIdx with
          | mk r st1 =>
            obtain ⟨hinv1, _, hok, _⟩ := hsound st vwl e.FromIdx r st1 hinv hc
            cases r with
            | ok weight =>
              obtain ⟨p, hch⟩ := (hok weight rfl).1.1
              obtain ⟨hb1, hb2⟩ := chain_bound hstep L U hL hU hM hch hP'
              obtain ⟨hr1, hr2⟩ := sum_in_range _ B L U weight e.Weight (by omega) hL hU
                hb1 hb2 he1 he2
              simp only [hwrap _ hr1 hr2]
              exact ih hrest _ st1 hinv1
            | err e2 =>
              cases e2 with
              | ErrNoSolution =>
                simp only
                exact ih hrest _ st1 hinv1
              | tooManyVertices => rfl
              | nonUniqueVertices => rfl
              | unknownStartVertex s => rfl
              | unknownEdgeVertex a b => rfl
            | panic p => rfl
            | outOfFuel => rfl
        · simp only [htest, if_false]
          exact ih hrest _ st hinv

/-- When the weight type holds every sum of as many edge weights as a chain from a state
of `P` can have, `tspDP` on the weight type is `tspDP` on exact integers. -/
theorem tspDPW_eq {V : Type} {inc : Nat → Res V (List incomingEdge)} {start : Nat}
    {P : Bitset → Nat → Prop} {depth : Bitset → Nat → Nat}
    (hstep : StepInv inc start P depth) (wrap : Int → Int) (n : Nat) (L U : Int) (B : Nat)
    (hL : L ≤ 0) (hU : 0 ≤ U)
    (hM : ∀ i edges, inc i = .ok edges → ∀ e ∈ edges, L ≤ e.Weight ∧ e.Weight ≤ U)
    (hwrap : ∀ x : Int, (B : Int) * L ≤ x → x ≤ (B : Int) * U → wrap x = x)
    (fuel : Nat) (st : DPState) (S : Bitset) (v : Nat) (hP : P S v)
    (hB : depth S v ≤ B) (hinv : MemoInv inc start st.memo) :
    tspDPW wrap n inc start fuel st S v = tspDP n inc start fuel st S v := by
  induction fuel generalizing st S v with
  | zero => simp only [tspDPW, tspDP]
  | succ fuel ih =>
    simp only [tspDPW, tspDP]
    by_cases h0 : S = 0
    · have hany : (!Bitset.IsAnySet S) = true := (IsAnySet_eq_false S).2 h0
      simp only [hany, if_true]
    · have hany : (!Bitset.IsAnySet S) = false := by
        cases hb : (!Bitset.IsAnySet S) with
        | false => rfl
        | true => exact absurd ((IsAnySet_eq_false S).1 hb) h0
      simp only [hany, Bool.false_eq_true, if_false]
      cases hlook : memoLookup st.memo S v with
      | none => rfl
      | some cell =>
        cases cell with
        | some w => rfl
        | none =>
          simp only
          cases hq : inc v with
          | err e => rfl
          | panic p => rfl
          | outOfFuel => rfl
          | ok edges =>
            simp only
            have hloop := tspDPLoopW_eq hstep wrap L U B hL hU hM hwrap
              (tspDP_sound n inc start fuel) S v hP h0 hB edges hq
              (fun st1 vwl u hP1 hd hi => ih st1 vwl u hP1 (by omega) hi) edges
              (fun e he => he) none ⟨st.memo, st.queries ++ [v]⟩ hinv
            exact hloop ▸ rfl

theorem tspDPPathLoopW_eq {V : Type} {inc : Nat → Res V (List incomingEdge)} {start : Nat}
    {P : Bitset → Nat → Prop} {depth : Bitset → Nat → Nat}
    (hstep : StepInv inc start P depth)
    (wrap : Int → Int) (L U : Int) (B : Nat) (hL : L ≤ 0) (hU : 0 ≤ U)
    (hM : ∀ i edges, inc i = .ok edges → ∀ e ∈ edges, L ≤ e.Weight ∧ e.Weight ≤ U)
    (hwrap : ∀ x : Int, (B : Int) * L ≤ x → x ≤ (B : Int) * U → wrap x = x)
    (memo : Memo) (hinv : MemoInv inc start memo)
    (S : Bitset) (v : Nat) (hP : P S v) (h0 : S ≠ 0) (hB : depth S v ≤ B)
    (edges : List incomingEdge) (hq : inc v = .ok edges)
    (l : List incomingEdge) (hl : ∀ e ∈ l, e ∈ edges)
    (pv : Bitset) (pl : Nat) (mw : Option Int) :
    tspDPPathLoopW (V := V) wrap memo start S v l pv pl mw
      = tspDPPathLoop memo start S v l pv pl mw := by
  induction l generalizing pv pl mw with
  | nil => simp only [tspDPPathLoopW, tspDPPathLoop]
  | cons e rest ih =>
    have hrest : ∀ x ∈ rest, x ∈ edges := fun x hx => hl x (List.mem_cons_of_mem _ hx)
    have hemem : e ∈ edges := hl e (List.mem_cons_self _ _)
    obtain ⟨he1, he2⟩ := hM v edges hq e hemem
    simp only [tspDPPathLoopW, tspDPPathLoop]
    cases hun : Bitset.Unset S (v : Int) with
    | none => rfl
    | some vwl =>
      cases his : Bitset.IsSet S (e.FromIdx : Int) with
      | none => rfl
      | some isSet =>
        simp only
        by_cases htest : (isSet || (!Bitset.IsAnySet vwl && decide (e.FromIdx = start))) = true
        · have hel : Eligible start S v e.FromIdx vwl := Eligible_of_test hun his htest
          obtain ⟨hP', hd⟩ := hstep.2 S v vwl edges e hP h0 hq hemem hel
          simp only [htest, if_true]
          cases hpw : prevWeightOf memo vwl e.FromIdx with
          | none => rfl
          | some cell =>
            cases cell with
            | none => rfl
            | some pw =>
              have hrange : (B : Int) * L ≤ pw + e.Weight ∧ pw + e.Weight ≤ (B : Int) * U := by
                rcases prevWeightOf_cases hinv vwl e.FromIdx pw hpw with ⟨_, hz⟩ | ⟨_, hcell⟩
                · subst hz
                  exact sum_in_range 0 B L U 0 e.Weight (by omega) hL hU (by simp) (by simp)
                    he1 he2
                · obtain ⟨p, hch⟩ := (hinv.valid vwl e.FromIdx pw hcell).1
                  obtain ⟨hb1, hb2⟩ := chain_bound hstep L U hL hU hM hch hP'
                  exact sum_in_range _ B L U pw e.Weight (by omega) hL hU hb1 hb2 he1 he2
              simp only [hwrap _ hrange.1 hrange.2]
              cases mw with
              | none =>
                simp only
                exact ih hrest _ _ _
              | some m =>
                simp only
                by_cases hlt : pw + e.Weight < m
                · simp only [hlt, if_true]
                  exact ih hrest _ _ _
                · simp only [hlt, if_false]
                  exact ih hrest _ _ _
        · simp only [htest, if_false]
          exact ih hrest _ _ _

/-- When the weight type holds every sum of as many edge weights as a chain from a state
of `P` can have, `tspDPPath` on the weight type is `tspDPPath` on exact integers. -/
theorem tspDPPathW_eq {V : Type} {inc : Nat → Res V (List incomingEdge)} {start : Nat}
    {P : Bitset → Nat → Prop} {depth : Bitset → Nat → Nat}
    (hstep : StepInv inc start P depth) (wrap : Int → Int) (memo : Memo)
    (L U : Int) (B : Nat) (hL : L ≤ 0) (hU : 0 ≤ U)
    (hM : ∀ i edges, inc i = .ok edges → ∀ e ∈ edges, L ≤ e.Weight ∧ e.Weight ≤ U)
    (hwrap : ∀ x : Int, (B : Int) * L ≤ x → x ≤ (B : Int) * U → wrap x = x)
    (hinv : MemoInv inc start memo)
    (fuel : Nat) (q : List Nat) (S : Bitset) (v : Nat) (hP : S ≠ 0 → P S v)
    (hB : S ≠ 0 → depth S v ≤ B) :
    tspDPPathW wrap memo inc start fuel q S v = tspDPPath memo inc start fuel q S v := by
  induction fuel generalizing q S v with
  | zero => simp only [tspDPPathW, tspDPPath]
  | succ fuel ih =>
    simp only [tspDPPathW, tspDPPath]
    by_cases h0 : S = 0
    · have hany : (!Bitset.IsAnySet S) = true := (IsAnySet_eq_false S).2 h0
      simp only [hany, if_true]
    · have hany : (!Bitset.IsAnySet S) = false := by
        cases hb : (!Bitset.IsAnySet S) with
        | false => rfl
        | true => exact absurd ((IsAnySet_eq_false S).1 hb) h0
      simp only [hany, Bool.false_eq_true, if_false]
      cases hq : inc v with
      | err e => rfl
      | panic p => rfl
      | outOfFuel => rfl
      | ok edges =>
        simp only
        rw [tspDPPathLoopW_eq (V := V) hstep wrap L U B hL hU hM hwrap memo hinv S v (hP h0)
          h0 (hB h0) edges hq edges (fun e he => he) 0 0 none]
        cases hl : tspDPPathLoop (V := V) memo start S v edges 0 0 none with
        | err e => rfl
        | panic p => rfl
        | outOfFuel => rfl
        | ok res =>
          obtain ⟨pv, pl, mw⟩ := res
          have hacc := tspDPPathLoop_sound (V := V) memo start S v edges [] 0 0 none pv pl mw
            (PathLoopInv_nil start S v memo) hl
          have hnext : (pv ≠ 0 → P pv pl) ∧ (pv ≠ 0 → depth pv pl ≤ B) := by
            cases hmw : mw with
            | none =>
              obtain ⟨h1, _⟩ := hacc.untouched hmw
              exact ⟨fun hne => absurd h1 hne, fun hne => absurd h1 hne⟩
            | some m =>
              obtain ⟨e, he, hel, hpl, _⟩ := hacc.chosen m hmw
              subst hpl
              obtain ⟨hP', hd⟩ := hstep.2 S v pv edges e (hP h0) h0 hq (by simpa using he) hel
              have := hB h0
              exact ⟨fun _ => hP', fun _ => by omega⟩
          have hrec := ih (q ++ [v]) pv pl hnext.1 hnext.2
          simp only
          exact hrec ▸ rfl

theorem solverBacktrackW_eq {V : Type} {inc : Nat → Res V (List incomingEdge)} {si : Nat}
    {P : Bitset → Nat → Prop} {depth : Bitset → Nat → Nat}
    (hstep : StepInv inc si P depth) (wrap : Int → Int) (vs : List V)
    (full : Bitset) (L U : Int) (B : Nat)
    (hL : L ≤ 0) (hU : 0 ≤ U)
    (hM : ∀ i edges, inc i = .ok edges → ∀ e ∈ edges, L ≤ e.Weight ∧ e.Weight ≤ U)
    (hwrap : ∀ x : Int, (B : Int) * L ≤ x → x ≤ (B : Int) * U → wrap x = x)
    (hfull : P full si) (hB : depth full si ≤ B) (w : Int) (st : DPState)
    (hinv : MemoInv inc si st.memo) :
    solverBacktrackW wrap vs inc si full w st = solverBacktrack vs inc si full w st := by
  unfold solverBacktrackW solverBacktrack
  have hp := tspDPPathW_eq hstep wrap st.memo L U B hL hU hM hwrap hinv
    (solverFuel vs.length) st.queries full si (fun _ => hfull) (fun _ => hB)
  exact hp ▸ rfl

theorem solverSearchW_eq {V : Type} {inc : Nat → Res V (List incomingEdge)} {si : Nat}
    {P : Bitset → Nat → Prop} {depth : Bitset → Nat → Nat}
    (hstep : StepInv inc si P depth) (wrap : Int → Int) (vs : List V)
    (k : Nat) (full : Bitset)
    (L U : Int) (B : Nat) (hL : L ≤ 0) (hU : 0 ≤ U)
    (hM : ∀ i edges, inc i = .ok edges → ∀ e ∈ edges, L ≤ e.Weight ∧ e.Weight ≤ U)
    (hwrap : ∀ x : Int, (B : Int) * L ≤ x → x ≤ (B : Int) * U → wrap x = x)
    (hfull : P full si) (hB : depth full si ≤ B) :
    solverSearchW wrap vs inc si (List.replicate k none) full
      = solverSearch vs inc si (List.replicate k none) full := by
  unfold solverSearchW solverSearch
  have hdp := tspDPW_eq hstep wrap vs.length L U B hL hU hM hwrap (solverFuel vs.length)
    ⟨List.replicate k none, []⟩ full si hfull hB (MemoInv_fresh inc si k)
  rw [hdp]
  cases hr : tspDP vs.length inc si (solverFuel vs.length) ⟨List.replicate k none, []⟩
      full si with
  | mk r st =>
    have hinv : MemoInv inc si st.memo :=
      (tspDP_sound vs.length inc si (solverFuel vs.length) _ _ _ r st
        (MemoInv_fresh inc si k) hr).1
    have hback := fun w => solverBacktrackW_eq hstep wrap vs full L U B hL hU hM hwrap
      hfull hB w st hinv
    cases r with
    | ok w => exact hback w
    | err e =>
      cases e with
      | ErrNoSolution => exact hback 0
      | tooManyVertices => rfl
      | nonUniqueVertices => rfl
      | unknownStartVertex s => rfl
      | unknownEdgeVertex a b => rfl
    | panic p => rfl
    | outOfFuel => rfl

/-- The weights of the edges that `getIncomingEdges` yields are weights of edges of the
graph. -/
theorem incomingOfGraph_weights {V : Type} [DecidableEq V]
    (g : DynamicProgrammingTSPSolverGraph V) (L U : Int)
    (hw : ∀ v ∈ g.GetVertices, ∀ e ∈ g.GetIncomingEdges v, L ≤ e.Weight ∧ e.Weight ≤ U)
    (i : Nat) (edges : List incomingEdge) (h : incomingOfGraph g i = .ok edges) :
    ∀ e ∈ edges, L ≤ e.Weight ∧ e.Weight ≤ U := by
  intro e he
  obtain ⟨b, hb, hall⟩ := getIncomingEdges_ok g g.GetVertices _ i edges h
  obtain ⟨he0, he0mem, _, hwt⟩ := forall₂_mem_right hall e he
  rw [hwt]
  exact hw b (List.getElem?_mem hb) he0 he0mem

/-- The solver on a weight type is the solver on exact integers when, for the index of
the start vertex, there are a set of states with the first state in it and a bound `B`
on the transitions of its chains, and the weight type holds every integer between `B L`
and `B U`, where `L ≤ 0` and `U ≥ 0` bound the edge weights. -/
theorem solverW_eq_of {V : Type} [DecidableEq V] (wrap : Int → Int)
    (g : DynamicProgrammingTSPSolverGraph V) (s : V) (L U : Int) (B : Nat)
    (hL : L ≤ 0) (hU : 0 ≤ U)
    (hw : ∀ v ∈ g.GetVertices, ∀ e ∈ g.GetIncomingEdges v, L ≤ e.Weight ∧ e.Weight ≤ U)
    (hwrap : ∀ x : Int, (B : Int) * L ≤ x → x ≤ (B : Int) * U → wrap x = x)
    (hstates : g.GetVertices.length ≤ 31 → ∀ si, si < g.GetVertices.length →
      ∃ (P : Bitset → Nat → Prop) (depth : Bitset → Nat → Nat),
        StepInv (incomingOfGraph g) si P depth ∧ P (2 ^ g.GetVertices.length - 1) si ∧
          depth (2 ^ g.GetVertices.length - 1) si ≤ B) :
    DynamicProgrammingTSPSolverW wrap (some g) s = DynamicProgrammingTSPSolver (some g) s := by
  unfold DynamicProgrammingTSPSolverW DynamicProgrammingTSPSolver
  simp only
  by_cases h0 : g.GetVertices.length ≤ 0
  · simp only [h0, if_true]
  · by_cases h1 : g.GetVertices.length = 1
    · simp only [h0, if_false, h1, dif_pos]
    · by_cases h3 : g.GetVertices.length > MaxInputVertices
      · simp only [h0, h1, h3, if_false, if_true, dif_neg, not_false_eq_true]
      · simp only [h0, h1, h3, if_false, dif_neg, not_false_eq_true]
        have h31 : g.GetVertices.length ≤ 31 := by
          unfold MaxInputVertices at h3; omega
        unfold solverMainW solverMain
        simp only
        by_cases hlen : (buildVertexIdxMap g.GetVertices 0 []).length = g.GetVertices.length
        swap
        · simp only [hlen, ne_eq, not_false_eq_true, if_true]
        · simp only [hlen, ne_eq, not_true_eq_false, if_false]
          cases hget : mapGet (buildVertexIdxMap g.GetVertices 0 []) s with
          | none => rfl
          | some si =>
            have hsi : si < g.GetVertices.length := by
              have := mapGet_buildVertexIdxMap_lt g.GetVertices 0 []
                (fun k x hk => by simp [mapGet] at hk) s si hget
              omega
            rw [CountBitArrangements_eq _ h31, NewBitsetAllSet_eq _ h31]
            simp only
            obtain ⟨P, depth, hstep, hfull, hB⟩ := hstates h31 si hsi
            exact solverSearchW_eq hstep wrap g.GetVertices _ _ L U B hL hU
              (incomingOfGraph_weights g L U hw) hwrap hfull hB

/-- When every edge weight lies between `L ≤ 0` and `U ≥ 0` and the weight type holds
every integer between `2 n L` and `2 n U`, for `n` vertices, no addition of the solver
overflows and the solver on the weight type is the solver on exact integers. -/
theorem solverW_eq {V : Type} [DecidableEq V] (wrap : Int → Int)
    (g : DynamicProgrammingTSPSolverGraph V) (s : V) (L U : Int) (hL : L ≤ 0) (hU : 0 ≤ U)
    (hw : ∀ v ∈ g.GetVertices, ∀ e ∈ g.GetIncomingEdges v, L ≤ e.Weight ∧ e.Weight ≤ U)
    (hwrap : ∀ x : Int, 2 * (g.GetVertices.length : Int) * L ≤ x →
      x ≤ 2 * (g.GetVertices.length : Int) * U → wrap x = x) :
    DynamicProgrammingTSPSolverW wrap (some g) s = DynamicProgrammingTSPSolver (some g) s := by
  have hwrap' : ∀ x : Int, ((2 * g.GetVertices.length : Nat) : Int) * L ≤ x →
      x ≤ ((2 * g.GetVertices.length : Nat) : Int) * U → wrap x = x := by
    intro x hx1 hx2
    have hc : ((2 * g.GetVertices.length : Nat) : Int)
        = 2 * (g.GetVertices.length : Int) := by push_cast; rfl
    rw [hc] at hx1 hx2
    exact hwrap x hx1 hx2
  apply solverW_eq_of wrap g s L U (2 * g.GetVertices.length) hL hU hw hwrap'
  intro h31 si hsi
  exact ⟨_, _, stepInv_depthMeasure (incomingOfGraph g) si, full_lt_word _ h31,
    depthMeasure_full_le _ h31 si hsi⟩

/-- On a graph without self-loops a chain has at most `n` transitions: when every edge
weight lies between `L ≤ 0` and `U ≥ 0` and the weight type holds every integer between
`n L` and `n U`, the solver on the weight type is the solver on exact integers. -/
theorem solverW_eq_loopFree {V : Type} [DecidableEq V] (wrap : Int → Int)
    (g : DynamicProgrammingTSPSolverGraph V) (s : V) (L U : Int) (hg : IsLoopFreeGraph g)
    (hL : L ≤ 0) (hU : 0 ≤ U)
    (hw : ∀ v ∈ g.GetVertices, ∀ e ∈ g.GetIncomingEdges v, L ≤ e.Weight ∧ e.Weight ≤ U)
    (hwrap : ∀ x : Int, (g.GetVertices.length : Int) * L ≤ x →
      x ≤ (g.GetVertices.length : Int) * U → wrap x = x) :
    DynamicProgrammingTSPSolverW wrap (some g) s = DynamicProgrammingTSPSolver (some g) s := by
  apply solverW_eq_of wrap g s L U g.GetVertices.length hL hU hw hwrap
  intro h31 si hsi
  exact ⟨_, _, stepInv_goodState si h31 (loopFree_safeIdx g hg),
    Or.inl (GoodState_full _ si hsi), bitCount_full_le _ h31⟩

/-! ## The solver on a fixed-width weight type: overflow, and correctness without it -/

theorem pairsWeight_nonneg {V : Type} [DecidableEq V] (g : DynamicProgrammingTSPSolverGraph V)
    (h : ∀ a b c, cheapestEdge g a b = some c → 0 ≤ c) (l : List (V × V)) (w : Int)
    (hw : pairsWeight g l = some w) : 0 ≤ w := by
  induction l generalizing w with
  | nil =>
    simp only [pairsWeight, Option.some.injEq] at hw
    omega
  | cons x rest ih =>
    simp only [pairsWeight] at hw
    cases hc : cheapestEdge g x.1 x.2 with
    | none => rw [hc] at hw; simp at hw
    | some c =>
      cases hr : pairsWeight g rest with
      | none => rw [hc, hr] at hw; simp at hw
      | some t =>
        rw [hc, hr] at hw
        simp only [Option.some.injEq] at hw
        have h1 := h _ _ c hc
        have h2 := ih t hr
        omega

/-- C2, refuted as stated: `hugeWeightGraph` is the complete graph on `A` and `B` with
both weights `2 ^ 62`, which are values of `int64`. On its reversal, started at `A`, the
solver on `int64` returns the cycle `A, B, A` and the weight `-2 ^ 63`: the addition
`2 ^ 62 + 2 ^ 62` wraps around. The total weight of the cycle is `2 ^ 63`, and `-2 ^ 63`
is not the least total weight of a Hamiltonian cycle. -/
theorem solver_complete_graph_overflow :
    IsCompleteAdjListGraph hugeWeightGraph ∧
      (DynamicProgrammingTSPSolverW wrapInt64
          (some (ReverseAdjListGraph.toSolverGraph
            (NewReverseAdjListGraphFromAdjListGraph hugeWeightGraph))) "A").outcome
        = .returned ⟨-9223372036854775808, ["A", "B", "A"], none⟩ ∧
      IsHamiltonianCycle (AdjListGraph.toIncomingGraph hugeWeightGraph) "A" ["A", "B", "A"] ∧
      tourWeight (AdjListGraph.toIncomingGraph hugeWeightGraph) ["A", "B", "A"]
        = some 9223372036854775808 ∧
      ¬ IsMinHamiltonianWeight (AdjListGraph.toIncomingGraph hugeWeightGraph) "A"
        (-9223372036854775808) := by
  refine ⟨by unfold IsCompleteAdjListGraph; decide, by decide,
    by unfold IsHamiltonianCycle; decide, by decide, ?_⟩
  rintro ⟨⟨cyc, _, htour⟩, _⟩
  have hnonneg : ∀ a b c,
      cheapestEdge (AdjListGraph.toIncomingGraph hugeWeightGraph) a b = some c → 0 ≤ c := by
    intro a b c hc
    have hmem := int_min?_mem _ c hc
    unfold edgeWeights at hmem
    rw [List.mem_filterMap] at hmem
    obtain ⟨e, he, hec⟩ := hmem
    have he' : e ∈ AdjListGraph.incomingOf hugeWeightGraph b := he
    rw [mem_incomingOf] at he'
    obtain ⟨entry, hentry, he0, he0mem, _, heq⟩ := he'
    have hwt : he0.Weight = 4611686018427387904 := by
      simp only [hugeWeightGraph, List.mem_cons, List.mem_singleton, List.not_mem_nil,
        or_false] at hentry
      rcases hentry with h1 | h1
      · subst h1
        simp only [List.mem_singleton] at he0mem
        subst he0mem
        rfl
      · subst h1
        simp only [List.mem_singleton] at he0mem
        subst he0mem
        rfl
    split at hec
    · simp only [Option.some.injEq] at hec
      rw [← hec, heq]
      simp only [hwt]
      decide
    · simp at hec
  have := pairsWeight_nonneg _ hnonneg _ _ htour
  omega

/-- C2, amended: for a complete forward graph without self-loops on `n` vertices, from
2 to 31, whose weights all lie between `L ≤ 0` and `U ≥ 0`, and a weight type that holds
every integer between `n L` and `n U` (so that no sum the solver forms overflows),
reversed by `NewReverseAdjListGraphFromAdjListGraph` and handed to the solver with its
map entries in any order, and for every start vertex of it, the solver returns no error,
a sequence that is a Hamiltonian cycle of the forward graph through the start vertex,
and a weight that is the total weight of that cycle and the least total weight of a
Hamiltonian cycle, whichever vertex the cycle is read from. -/
theorem solver_complete_graph_no_overflow {V : Type} [DecidableEq V] (wrap : Int → Int)
    (L U : Int) (g : AdjListGraph V) (r : ReverseAdjListGraph V) (startVertex : V)
    (hg : IsCompleteAdjListGraph g) (h2 : 2 ≤ g.length) (h31 : g.length ≤ 31)
    (hr : r.Perm (NewReverseAdjListGraphFromAdjListGraph g))
    (hs : startVertex ∈ AdjListGraph.GetVertices g) (hL : L ≤ 0) (hU : 0 ≤ U)
    (hw : ∀ entry ∈ g, ∀ e ∈ entry.2, L ≤ e.Weight ∧ e.Weight ≤ U)
    (hwrap : ∀ x : Int, (g.length : Int) * L ≤ x → x ≤ (g.length : Int) * U →
      wrap x = x) :
    ∃ w seq,
      (DynamicProgrammingTSPSolverW wrap (some (ReverseAdjListGraph.toSolverGraph r))
        startVertex).outcome = .returned ⟨w, seq, none⟩ ∧
      IsHamiltonianCycle (AdjListGraph.toIncomingGraph g) startVertex seq ∧
      tourWeight (AdjListGraph.toIncomingGraph g) seq = some w ∧
      IsMinHamiltonianWeight (AdjListGraph.toIncomingGraph g) startVertex w ∧
      ∀ s cyc w', IsHamiltonianCycle (AdjListGraph.toIncomingGraph g) s cyc →
        tourWeight (AdjListGraph.toIncomingGraph g) cyc = some w' → w ≤ w' := by
  obtain ⟨hinc, hperm, hcomplete⟩ := reverse_complete g r hg h2 hr
  have hlen : (ReverseAdjListGraph.toSolverGraph r).GetVertices.length = g.length := by
    rw [hperm.length_eq]
    simp [AdjListGraph.GetVertices]
  have hw' : ∀ v ∈ (ReverseAdjListGraph.toSolverGraph r).GetVertices,
      ∀ e ∈ (ReverseAdjListGraph.toSolverGraph r).GetIncomingEdges v,
        L ≤ e.Weight ∧ e.Weight ≤ U := by
    intro v _ e he
    rw [hinc, mem_incomingOf] at he
    obtain ⟨entry, hentry, he0, he0mem, _, heq⟩ := he
    rw [heq]
    exact hw entry hentry he0 he0mem
  rw [solverW_eq_loopFree wrap (ReverseAdjListGraph.toSolverGraph r) startVertex L U
    hcomplete.1 hL hU hw' (by rw [hlen]; exact hwrap)]
  exact solver_complete_graph g r startVertex hg h2 h31 hr hs

/-- On the graph of the test with the weight type `int64`, started at `A`, the solver
returns weight 97 and the cycle `A, D, C, B, A`, and 97 is the least weight of a
Hamiltonian cycle through `A`. -/
theorem solver_complete_graph_no_overflow_witness :
    (DynamicProgrammingTSPSolverW wrapInt64
        (some (ReverseAdjListGraph.toSolverGraph simpleSymmetricReverse)) "A").outcome
      = .returned ⟨97, ["A", "D", "C", "B", "A"], none⟩ ∧
      IsMinHamiltonianWeight (AdjListGraph.toIncomingGraph SimpleSymmetricGraph) "A" 97 := by
  obtain ⟨w, seq, hout, _, _, hmin, _⟩ :=
    solver_complete_graph_no_overflow wrapInt64 0 42 SimpleSymmetricGraph
      simpleSymmetricReverse "A"
      (by unfold IsCompleteAdjListGraph; decide) (by decide) (by decide)
      (List.Perm.refl _) (by decide) (by decide) (by decide) (by decide)
      (fun x h1 h2 => by
        have hl : ((SimpleSymmetricGraph.length : Nat) : Int) = 4 := by decide
        rw [hl] at h1 h2
        unfold wrapInt64
        omega)
  have h97 : (DynamicProgrammingTSPSolverW wrapInt64
      (some (ReverseAdjListGraph.toSolverGraph simpleSymmetricReverse)) "A").outcome
      = .returned ⟨97, ["A", "D", "C", "B", "A"], none⟩ := by decide
  rw [h97] at hout
  simp only [Outcome.returned.injEq, SolverReturn.mk.injEq, and_true] at hout
  rw [← hout.1] at hmin
  exact ⟨h97, hmin⟩

/-- C5, refuted as stated: `hugeWeightCycle` has the vertices `A`, `B` and the two edges
`A -> B` and `B -> A` of weight `2 ^ 62`, values of `int64`; `A, B, A` is a Hamiltonian
cycle through `A`. Started at `A`, the solver on `int64` returns without error the
sequence `A, B, A` and the weight `-2 ^ 63`, while each consecutive pair has one edge
only and the weights of these edges add up to `2 ^ 63`. -/
theorem solver_sequence_weight_overflow :
    IsHamiltonianCycle hugeWeightCycle "A" ["A", "B", "A"] ∧
      (DynamicProgrammingTSPSolverW wrapInt64 (some hugeWeightCycle) "A").outcome
        = .returned ⟨-9223372036854775808, ["A", "B", "A"], none⟩ ∧
      edgeWeights hugeWeightCycle "A" "B" = [4611686018427387904] ∧
      edgeWeights hugeWeightCycle "B" "A" = [4611686018427387904] ∧
      tourWeight hugeWeightCycle ["A", "B", "A"] = some 9223372036854775808 ∧
      tourWeight hugeWeightCycle ["A", "B", "A"] ≠ some (-9223372036854775808) := by
  refine ⟨by unfold IsHamiltonianCycle; decide, by decide, by decide, by decide, by decide,
    by decide⟩

/-- C5, amended: on a graph with `n` pairwise distinct vertices, from 2 to 31, that has a
Hamiltonian cycle through the start vertex, whose weights all lie between `L ≤ 0` and
`U ≥ 0`, and a weight type that holds every integer between `2 n L` and `2 n U` (so that
no sum the solver forms overflows), a weight and a sequence that the solver returns
without error fit together: each consecutive pair of the sequence is joined by an edge
of the graph, and the weight is the sum over the consecutive pairs of the cheapest edge
weight. -/
theorem solver_sequence_realizes_weight_no_overflow {V : Type} [DecidableEq V]
    (wrap : Int → Int) (L U : Int) (g : DynamicProgrammingTSPSolverGraph V)
    (startVertex : V) (cyc : List V) (w : Int) (seq : List V)
    (h2 : 2 ≤ g.GetVertices.length) (h31 : g.GetVertices.length ≤ 31)
    (hnd : g.GetVertices.Nodup) (hcyc : IsHamiltonianCycle g startVertex cyc)
    (hL : L ≤ 0) (hU : 0 ≤ U)
    (hw : ∀ v ∈ g.GetVertices, ∀ e ∈ g.GetIncomingEdges v, L ≤ e.Weight ∧ e.Weight ≤ U)
    (hwrap : ∀ x : Int, 2 * (g.GetVertices.length : Int) * L ≤ x →
      x ≤ 2 * (g.GetVertices.length : Int) * U → wrap x = x)
    (hret : (DynamicProgrammingTSPSolverW wrap (some g) startVertex).outcome
      = .returned ⟨w, seq, none⟩) :
    (∀ pr ∈ consecutivePairs seq, ∃ e ∈ g.GetIncomingEdges pr.2, e.Vertex = pr.1) ∧
      tourWeight g seq = some w := by
  rw [solverW_eq wrap g startVertex L U hL hU hw hwrap] at hret
  exact solver_sequence_realizes_weight g startVertex cyc w seq h2 h31 hnd hcyc hret

/-- On the graph of the test with the weight type `int64`, the sequence `A, D, C, B, A`
that the solver returns from `A` runs along edges whose weights add up to the returned
weight 97. -/
theorem solver_sequence_realizes_weight_no_overflow_witness :
    (∀ pr ∈ consecutivePairs ["A", "D", "C", "B", "A"],
        ∃ e ∈ (ReverseAdjListGraph.toSolverGraph simpleSymmetricReverse).GetIncomingEdges pr.2,
          e.Vertex = pr.1) ∧
      tourWeight (ReverseAdjListGraph.toSolverGraph simpleSymmetricReverse)
        ["A", "D", "C", "B", "A"] = some 97 :=
  solver_sequence_realizes_weight_no_overflow wrapInt64 0 42
    (ReverseAdjListGraph.toSolverGraph simpleSymmetricReverse)
    "A" ["A", "B", "C", "D", "A"] 97 ["A", "D", "C", "B", "A"] (by decide) (by decide)
    (by decide) (by unfold IsHamiltonianCycle; decide) (by decide) (by decide) (by decide)
    (fun x h1 h2 => by
      have hl : (((ReverseAdjListGraph.toSolverGraph simpleSymmetricReverse).GetVertices.length
          : Nat) : Int) = 4 := by decide
      rw [hl] at h1 h2
      unfold wrapInt64
      omega)
    (by decide)

/-! ## The solver on exact integers is the solver on a weight type that never wraps -/

theorem tspDPLoopW_id {V : Type} {callW call : DPState → Bitset → Nat → Res V Int × DPState}
    (hcall : ∀ st S v, callW st S v = call st S v) (start : Nat) (S : Bitset) (v : Nat)
    (l : List incomingEdge) (result : Option Int) (st : DPState) :
    tspDPLoopW id callW start S v l result st = tspDPLoop call start S v l result st := by
  induction l generalizing result st with
  | nil => simp only [tspDPLoopW, tspDPLoop]
  | cons e rest ih =>
    simp only [tspDPLoopW, tspDPLoop]
    cases hun : Bitset.Unset S (v : Int) with
    | none => rfl
    | some vwl =>
      cases his : Bitset.IsSet S (e.FromIdx : Int) with
      | none => rfl
      | some isSet =>
        simp only
        by_cases htest : (isSet || (!Bitset.IsAnySet vwl && decide (e.FromIdx = start))) = true
        · simp only [htest, if_true]
          rw [hcall st vwl e.FromIdx]
          cases hc : call st vwl e.FromIdx with
          | mk r st1 =>
            cases r with
            | ok weight =>
              simp only [id_eq]
              exact ih _ st1
            | err e2 =>
              cases e2 with
              | ErrNoSolution =>
                simp only
                exact ih _ st1
              | tooManyVertices => rfl
              | nonUniqueVertices => rfl
              | unknownStartVertex s => rfl
              | unknownEdgeVertex a b => rfl
            | panic p => rfl
            | outOfFuel => rfl
        · simp only [htest, if_false]
          exact ih _ st

theorem tspDPW_id {V : Type} (n : Nat) (inc : Nat → Res V (List incomingEdge)) (start : Nat)
    (fuel : Nat) (st : DPState) (S : Bitset) (v : Nat) :
    tspDPW id n inc start fuel st S v = tspDP n inc start fuel st S v := by
  induction fuel generalizing st S v with
  | zero => simp only [tspDPW, tspDP]
  | succ fuel ih =>
    simp only [tspDPW, tspDP]
    cases hany : (!Bitset.IsAnySet S) with
    | true => simp only [if_true]
    | false =>
      simp only [Bool.false_eq_true, if_false]
      cases hlook : memoLookup st.memo S v with
      | none => rfl
      | some cell =>
        cases cell with
        | some w => rfl
        | none =>
          simp only
          cases hq : inc v with
          | err e => rfl
          | panic p => rfl
          | outOfFuel => rfl
          | ok edges =>
            simp only
            have hloop := tspDPLoopW_id (fun st1 S1 v1 => ih st1 S1 v1) start S v edges none
              ⟨st.memo, st.queries ++ [v]⟩
            exact hloop ▸ rfl

theorem tspDPPathLoopW_id {V : Type} (memo : Memo) (start : Nat) (S : Bitset) (v : Nat)
    (l : List incomingEdge) (pv : Bitset) (pl : Nat) (mw : Option Int) :
    tspDPPathLoopW (V := V) id memo start S v l pv pl mw
      = tspDPPathLoop memo start S v l pv pl mw := by
  induction l generalizing pv pl mw with
  | nil => simp only [tspDPPathLoopW, tspDPPathLoop]
  | cons e rest ih =>
    simp only [tspDPPathLoopW, tspDPPathLoop]
    cases hun : Bitset.Unset S (v : Int) with
    | none => rfl
    | some vwl =>
      cases his : Bitset.IsSet S (e.FromIdx : Int) with
      | none => rfl
      | some isSet =>
        simp only
        by_cases htest : (isSet || (!Bitset.IsAnySet vwl && decide (e.FromIdx = start))) = true
        · simp only [htest, if_true]
          cases hpw : prevWeightOf memo vwl e.FromIdx with
          | none => rfl
          | some cell =>
            cases cell with
            | none => rfl
            | some pw =>
              simp only [id_eq]
              cases mw with
              | none =>
                simp only
                exact ih _ _ _
              | some m =>
                simp only
                by_cases hlt : pw + e.Weight < m
                · simp only [hlt, if_true]
                  exact ih _ _ _
                · simp only [hlt, if_false]
                  exact ih _ _ _
        · simp only [htest, if_false]
          exact ih _ _ _

theorem tspDPPathW_id {V : Type} (memo : Memo) (inc : Nat → Res V (List incomingEdge))
    (start : Nat) (fuel : Nat) (q : List Nat) (S : Bitset) (v : Nat) :
    tspDPPathW id memo inc start fuel q S v = tspDPPath memo inc start fuel q S v := by
  induction fuel generalizing q S v with
  | zero => simp only [tspDPPathW, tspDPPath]
  | succ fuel ih =>
    simp only [tspDPPathW, tspDPPath]
    cases hany : (!Bitset.IsAnySet S) with
    | true => simp only [if_true]
    | false =>
      simp only [Bool.false_eq_true, if_false]
      cases hq : inc v with
      | err e => rfl
      | panic p => rfl
      | outOfFuel => rfl
      | ok edges =>
        simp only
        rw [tspDPPathLoopW_id (V := V) memo start S v edges 0 0 none]
        cases hl : tspDPPathLoop (V := V) memo start S v edges 0 0 none with
        | err e => rfl
        | panic p => rfl
        | outOfFuel => rfl
        | ok res =>
          obtain ⟨pv, pl, mw⟩ := res
          have hrec := ih (q ++ [v]) pv pl
          simp only
          exact hrec ▸ rfl

/-- The solver on exact integers is the solver on a weight type whose reduction changes
nothing. -/
theorem solverW_id {V : Type} [DecidableEq V]
    (graph : Option (DynamicProgrammingTSPSolverGraph V)) (startVertex : V) :
    DynamicProgrammingTSPSolverW id graph startVertex
      = DynamicProgrammingTSPSolver graph startVertex := by
  have hback : ∀ (vs : List V) (inc : Nat → Res V (List incomingEdge)) (si : Nat)
      (full : Bitset) (w : Int) (st : DPState),
      solverBacktrackW id vs inc si full w st = solverBacktrack vs inc si full w st := by
    intro vs inc si full w st
    unfold solverBacktrackW solverBacktrack
    exact (tspDPPathW_id st.memo inc si (solverFuel vs.length) st.queries full si) ▸ rfl
  have hsearch : ∀ (vs : List V) (inc : Nat → Res V (List incomingEdge)) (si : Nat)
      (memo : Memo) (full : Bitset),
      solverSearchW id vs inc si memo full = solverSearch vs inc si memo full := by
    intro vs inc si memo full
    unfold solverSearchW solverSearch
    rw [tspDPW_id]
    cases hr : tspDP vs.length inc si (solverFuel vs.length) ⟨memo, []⟩ full si with
    | mk r st =>
      cases r with
      | ok w => exact hback vs inc si full w st
      | err e =>
        cases e with
        | ErrNoSolution => exact hback vs inc si full 0 st
        | tooManyVertices => rfl
        | nonUniqueVertices => rfl
        | unknownStartVertex s => rfl
        | unknownEdgeVertex a b => rfl
      | panic p => rfl
      | outOfFuel => rfl
  cases graph with
  | none => rfl
  | some g =>
    unfold DynamicProgrammingTSPSolverW DynamicProgrammingTSPSolver
    simp only
    by_cases h0 : g.GetVertices.length ≤ 0
    · simp only [h0, if_true]
    · by_cases h1 : g.GetVertices.length = 1
      · simp only [h0, if_false, h1, dif_pos]
      · by_cases h3 : g.GetVertices.length > MaxInputVertices
        · simp only [h0, h1, h3, if_false, if_true, dif_neg, not_false_eq_true]
        · simp only [h0, h1, h3, if_false, dif_neg, not_false_eq_true]
          unfold solverMainW solverMain
          simp only
          by_cases hlen : (buildVertexIdxMap g.GetVertices 0 []).length = g.GetVertices.length
          swap
          · simp only [hlen, ne_eq, not_false_eq_true, if_true]
          · simp only [hlen, ne_eq, not_true_eq_false, if_false]
            cases hget : mapGet (buildVertexIdxMap g.GetVertices 0 []) startVertex with
            | none => rfl
            | some si =>
              simp only
              cases hcount : CountBitArrangements (g.GetVertices.length : Int) with
              | none => rfl
              | some count =>
                simp only
                cases hfull : NewBitsetAllSet (g.GetVertices.length : Int) with
                | none => rfl
                | some full => exact hsearch _ _ _ _ _

end Graphalgo
